import Mathlib

/-!
netProbe: a verification development

Shallow embedding of the measurement core of netProbe (statistics aggregator,
ICMP checksum and echo probe, port-scan dispatcher, hop discovery loop, socket
handle, readiness multiplexer) and theorems about it.

Conventions of the embedding.
* `double` values are elements of an arbitrary linearly ordered field `K` with a
  floor function (exact arithmetic); instantiating `K` with `ℚ` makes every
  definition evaluable, instantiating it with `ℝ` gives access to the real
  square root.  Where a statement depends on the rounding of the machine, the
  rounding is an explicit argument (`round_double`, `percentile_fl`).
* `std::vector<T>` is `List T`; `size_t` is `Nat`.
* Calls into the operating system (sockets, clock) are oracle arguments.
-/

set_option linter.unusedSectionVars false
set_option linter.unusedVariables false

namespace NetProbe

/-! ## Statistics (`src/stats.h`, `src/stats.cpp`) -/

/-- The private members of `class Statistics`: the samples in insertion order
and the two running aggregates. -/
structure Statistics (K : Type) where
  values_ : List K
  sum_ : K
  sum_sq_ : K

namespace Statistics

section Defs

variable {K : Type} [LinearOrderedField K] [FloorRing K]

/-- A default-constructed `Statistics` object. -/
def fresh : Statistics K :=
  { values_ := [], sum_ := 0, sum_sq_ := 0 }

/-- Model of `Statistics::add`. -/
def add (s : Statistics K) (value : K) : Statistics K :=
  { values_ := s.values_ ++ [value]
    sum_ := s.sum_ + value
    sum_sq_ := s.sum_sq_ + value * value }

/-- Model of `Statistics::reset`. -/
def reset (_s : Statistics K) : Statistics K :=
  { values_ := [], sum_ := 0, sum_sq_ := 0 }

/-- Model of `Statistics::count`. -/
def count (s : Statistics K) : Nat :=
  s.values_.length

/-- Model of `std::ranges::min_element` on a range starting with `x`: the running
smallest element is replaced only by a strictly smaller one. -/
def min_element (x : K) (xs : List K) : K :=
  xs.foldl (fun smallest y => if y < smallest then y else smallest) x

/-- Model of `std::ranges::max_element` on a range starting with `x`: the running
largest element is replaced only by a strictly larger one. -/
def max_element (x : K) (xs : List K) : K :=
  xs.foldl (fun largest y => if largest < y then y else largest) x

/-- Model of `Statistics::min`. -/
def min (s : Statistics K) : K :=
  match s.values_ with
  | [] => 0
  | x :: xs => min_element x xs

/-- Model of `Statistics::max`. -/
def max (s : Statistics K) : K :=
  match s.values_ with
  | [] => 0
  | x :: xs => max_element x xs

/-- Model of `Statistics::mean`. -/
def mean (s : Statistics K) : K :=
  match s.values_ with
  | [] => 0
  | _ :: _ => s.sum_ / (s.values_.length : K)

/-- Model of `Statistics::stddev`; `sqrt` stands for `std::sqrt`. -/
def stddev (sqrt : K → K) (s : Statistics K) : K :=
  if s.values_.length < 2 then 0
  else
    let variance :=
      (s.sum_sq_ - s.sum_ * s.sum_ / (s.values_.length : K)) / ((s.values_.length - 1 : Nat) : K)
    sqrt (Max.max 0 variance)

/-- The snapshot `sorted` of `Statistics::percentile` after `std::ranges::sort`.
The ascending arrangement of a list over a linear order is unique, so the
sorting algorithm does not matter. -/
def sorted (s : Statistics K) : List K :=
  s.values_.insertionSort (· ≤ ·)

/-- The fractional rank `index` of `Statistics::percentile`. -/
def rank (s : Statistics K) (p : K) : K :=
  (p / 100) * ((s.sorted.length - 1 : Nat) : K)

/-- Model of `Statistics::percentile` over exact arithmetic (`percentile_fl` has
the rounding of the machine as an argument).  `sorted[i]` is
`List.getD sorted i 0`; the indices are shown to be in range separately. -/
def percentile (s : Statistics K) (p : K) : K :=
  match s.values_ with
  | [] => 0
  | _ :: _ =>
    if p ≤ 0 then s.min
    else if 100 ≤ p then s.max
    else
      let sorted := s.sorted
      let index := (p / 100) * ((sorted.length - 1 : Nat) : K)
      let lower := Int.toNat ⌊index⌋
      let upper := Int.toNat ⌈index⌉
      if lower = upper then sorted.getD lower 0
      else
        let weight := index - (lower : K)
        sorted.getD lower 0 * (1 - weight) + sorted.getD upper 0 * weight

/-- Rounding to the nearest integer, ties to the even one. -/
def round_half_even (x : K) : Int :=
  let f := ⌊x⌋
  let r := x - (f : K)
  if 2 * r < 1 then f
  else if 1 < 2 * r then f + 1
  else if f % 2 = 0 then f else f + 1

/-- The rounding of IEEE 754 binary64 (`double`) in the default mode, round to
nearest with ties to even: the value is scaled so that its significand is an
integer of 53 bits, rounded, and scaled back.  The exponent range is taken as
unbounded (no overflow to infinity, no subnormal numbers). -/
def round_double (x : K) : K :=
  if x = 0 then 0
  else
    let e := Int.log 2 |x|
    (round_half_even (x / (2 : K) ^ (e - 52)) : K) * (2 : K) ^ (e - 52)

/-- The rank `index` as `Statistics::percentile` computes it when `fl` is the
rounding of the machine: the quotient `p / 100.0`, the conversion of
`sorted.size() - 1` and the product are rounded. -/
def rank_fl (fl : K → K) (s : Statistics K) (p : K) : K :=
  fl (fl (p / 100) * fl ((s.sorted.length - 1 : Nat) : K))

/-- Model of `Statistics::percentile` with the arithmetic of the machine made
explicit: `fl` is the rounding applied to the result of every floating-point
operation and of every conversion of a `size_t` to `double` (`round_double`
for the program as compiled, the identity for exact arithmetic).  The second
component is the object after the call: the member function is `const`,
`sorted` is a copy of `values_`, and only the copy is sorted.  The product
and the sum of the last line are rounded one by one (no fused multiply-add). -/
def percentile_fl (fl : K → K) (s : Statistics K) (p : K) : K × Statistics K :=
  match s.values_ with
  | [] => (0, s)
  | _ :: _ =>
    if p ≤ 0 then (s.min, s)
    else if 100 ≤ p then (s.max, s)
    else
      let sorted := s.values_
      let sorted := sorted.insertionSort (· ≤ ·)
      let index := fl (fl (p / 100) * fl ((sorted.length - 1 : Nat) : K))
      let lower := Int.toNat ⌊index⌋
      let upper := Int.toNat ⌈index⌉
      if lower = upper then (sorted.getD lower 0, s)
      else
        let weight := fl (index - fl (lower : K))
        (fl (fl (sorted.getD lower 0 * fl (1 - weight)) + fl (sorted.getD upper 0 * weight)), s)

/-- Model of `Statistics::median`. -/
def median (s : Statistics K) : K :=
  s.percentile 50

/-- The loop of `Statistics::jitter`: the sum of `|values_[i] - values_[i-1]|`
for `i = 1 .. size-1`. -/
def sum_diff : List K → K
  | x :: y :: rest => |y - x| + sum_diff (y :: rest)
  | _ => 0

/-- Model of `Statistics::jitter`. -/
def jitter (s : Statistics K) : K :=
  if s.values_.length < 2 then 0
  else sum_diff s.values_ / ((s.values_.length - 1 : Nat) : K)

/-- One call on a `Statistics` object that changes it. -/
inductive Op (K : Type) where
  | add (value : K)
  | reset

/-- Apply one mutating call. -/
def applyOp (s : Statistics K) : Op K → Statistics K
  | Op.add v => s.add v
  | Op.reset => s.reset

/-- Apply a finite sequence of `add` and `reset` calls to a fresh object. -/
def run (ops : List (Op K)) : Statistics K :=
  ops.foldl applyOp fresh

/-- The series obtained by adding the given samples, in order, to a fresh object. -/
def ofList (xs : List K) : Statistics K :=
  xs.foldl add fresh

/-- Whether a call is an `add`. -/
def Op.is_add : Op K → Bool
  | Op.add _ => true
  | Op.reset => false

/-- The argument of an `add` call. -/
def Op.value? : Op K → Option K
  | Op.add v => some v
  | Op.reset => none

/-- The values added since the last `reset` of a call sequence, in the order of
the calls, as the specification names them; not taken from the code. -/
def added_since_reset (ops : List (Op K)) : List K :=
  ((ops.reverse.takeWhile Op.is_add).reverse).filterMap Op.value?

/-- The sum of the absolute differences of consecutive entries of a list,
written with indices as in the specification; not taken from the code. -/
def consecutive_abs_sum (xs : List K) : K :=
  ((List.range (xs.length - 1)).map (fun i => |xs.getD (i + 1) 0 - xs.getD i 0|)).sum

/-- The running aggregates agree with the stored samples. -/
def Consistent (s : Statistics K) : Prop :=
  s.sum_ = s.values_.sum ∧ s.sum_sq_ = (s.values_.map (fun x => x * x)).sum

end Defs

end Statistics

/-! ## ICMP checksum and echo probe (`src/commands/ping.cpp`, `src/socket.cpp`)

A buffer is a list of bytes (`Nat`, each below 256).  The host byte order is a
parameter `be` (`false`: little-endian, `true`: big-endian), because `checksum`
reads the buffer through a `const uint16_t*`. -/

namespace Ping

/-- The value `*buf` of a `const uint16_t* buf` that points at the bytes `b0 b1`. -/
def word16 (be : Bool) (b0 b1 : Nat) : Nat :=
  if be then 256 * b0 + b1 else b0 + 256 * b1

/-- The accumulation part of `checksum`: the loop `while (len > 1)` and the
statement `if (len == 1)`, from the value `sum` of the `uint32_t` accumulator. -/
def accumulate (be : Bool) (sum : Nat) : List Nat → Nat
  | b0 :: b1 :: rest => accumulate be ((sum + word16 be b0 b1) % 2 ^ 32) rest
  | [b] => (sum + b) % 2 ^ 32
  | [] => sum

/-- The two folding statements of `checksum`:
`sum = (sum >> 16) + (sum & 0xFFFF); sum += (sum >> 16);` on `uint32_t`. -/
def fold16 (sum : Nat) : Nat :=
  let sum1 := ((sum >>> 16) + (sum &&& 0xFFFF)) % 2 ^ 32
  (sum1 + (sum1 >>> 16)) % 2 ^ 32

/-- The value of the accumulator `sum` of `checksum` just before `return ~sum`. -/
def folded_sum (be : Bool) (data : List Nat) : Nat :=
  fold16 (accumulate be 0 data)

/-- Model of `checksum`: the complement `~sum` of the `uint32_t` accumulator, converted
to the `uint16_t` return type. -/
def checksum (be : Bool) (data : List Nat) : Nat :=
  (2 ^ 32 - 1 - folded_sum be data) % 2 ^ 16

/-- Store the `uint16_t` value `v` at byte offset `off` of a buffer, in host byte order. -/
def store16 (be : Bool) (pkt : List Nat) (off v : Nat) : List Nat :=
  if be then (pkt.set off (v / 256 % 256)).set (off + 1) (v % 256)
  else (pkt.set off (v % 256)).set (off + 1) (v / 256 % 256)

/-- The two statements `field = 0; field = checksum(&packet, sizeof(packet));`
of `send_ping`, for a checksum field at byte offset `off`. -/
def insert_checksum (be : Bool) (pkt : List Nat) (off : Nat) : List Nat :=
  let zeroed := store16 be pkt off 0
  store16 be zeroed off (checksum be zeroed)

/-- The 16-bit words `checksum` reads from a buffer: consecutive byte pairs in
host order, and a trailing single byte as its own value. -/
def words (be : Bool) : List Nat → List Nat
  | b0 :: b1 :: rest => word16 be b0 b1 :: words be rest
  | [b] => [b]
  | [] => []

/-- Ones-complement addition of two 16-bit values (addition with end-around
carry), as the specification names it; not taken from the code. -/
def ones_add (a b : Nat) : Nat :=
  if a + b > 0xFFFF then a + b - 0xFFFF else a + b

/-- The ones-complement sum of a list of 16-bit words, as the specification
names it; not taken from the code. -/
def ones_sum (ws : List Nat) : Nat :=
  ws.foldl ones_add 0

/-- The fields of `struct ICMPPacket` that the code reads or writes: the
`icmphdr` (type, code, checksum, echo identifier, echo sequence) and `data[56]`. -/
structure ICMPPacket where
  type : Nat
  code : Nat
  checksum : Nat
  id : Nat
  sequence : Nat
  data : List Nat
deriving DecidableEq, Repr

/-- Model of `ICMP_ECHO` (from `<netinet/ip_icmp.h>`). -/
def ICMP_ECHO : Nat := 8

/-- Model of `ICMP_ECHOREPLY` (from `<netinet/ip_icmp.h>`). -/
def ICMP_ECHOREPLY : Nat := 0

/-- The two bytes of a `uint16_t` in host order. -/
def bytes16 (be : Bool) (v : Nat) : List Nat :=
  if be then [v / 256 % 256, v % 256] else [v % 256, v / 256 % 256]

/-- The object representation of an `ICMPPacket` (64 bytes when `data` has 56). -/
def ICMPPacket.bytes (be : Bool) (p : ICMPPacket) : List Nat :=
  [p.type, p.code] ++ bytes16 be p.checksum ++ bytes16 be p.id ++ bytes16 be p.sequence ++ p.data

/-- The packet of `send_ping` after lines 40--51: header fields and payload
set, checksum field zero.  `pid` is the value of `getpid()`, `seq` the
argument; both are converted to `uint16_t` when stored. -/
def echo_request_zeroed (pid seq : Nat) : ICMPPacket :=
  { type := ICMP_ECHO, code := 0, checksum := 0, id := pid % 2 ^ 16, sequence := seq % 2 ^ 16
    data := (List.range 56).map (fun i => i % 256) }

/-- The request `send_ping` sends: the packet above with
`packet.header.checksum = checksum(&packet, sizeof(packet))` (line 52). -/
def echo_request (be : Bool) (pid seq : Nat) : ICMPPacket :=
  { echo_request_zeroed pid seq with
    checksum := checksum be ((echo_request_zeroed pid seq).bytes be) }

/-- Model of `Socket::sendto`: `sent` is the return value of `::sendto`, `strerror` the
text of `std::strerror(errno)`. -/
def Socket_sendto (sent : Int) (strerror : String) : Except String Nat :=
  if sent < 0 then Except.error ("Sendto failed: " ++ strerror) else Except.ok sent.toNat

/-- Model of `Socket::recvfrom`: `received` is the return value of `::recvfrom`,
`strerror` the text of `std::strerror(errno)`. -/
def Socket_recvfrom (received : Int) (strerror : String) : Except String Nat :=
  if received < 0 then Except.error ("Recvfrom failed: " ++ strerror)
  else Except.ok received.toNat

/-- What the operating system does during one `send_ping`: the return values
of `::sendto` and `::recvfrom` with their error texts, the content of `reply`
after the receive, and the elapsed time in milliseconds. -/
structure Exchange (K : Type) where
  sent : Int
  send_strerror : String
  received : Int
  recv_strerror : String
  reply : ICMPPacket
  rtt : K

/-- Model of `send_ping`.  The parameter `seq` is a `uint16_t`; `pid` is `getpid()`,
an `int`, compared as such with the promoted identifier of the reply. -/
def send_ping {K : Type} (pid : Nat) (seq : Nat) (x : Exchange K) : Except String K :=
  let seq := seq % 2 ^ 16
  match Socket_sendto x.sent x.send_strerror with
  | Except.error e => Except.error e
  | Except.ok _ =>
    match Socket_recvfrom x.received x.recv_strerror with
    | Except.error e => Except.error e
    | Except.ok _ =>
      if x.reply.type ≠ ICMP_ECHOREPLY ∨ x.reply.id ≠ pid ∨ x.reply.sequence ≠ seq then
        Except.error "Invalid ICMP reply"
      else Except.ok x.rtt

/-- The variables of the loop of `ping`: `stats`, `transmitted`, `received`, and,
as a record for the statements only, the requests built so far in order. -/
structure PingState (K : Type) where
  stats : Statistics K
  transmitted : Nat
  received : Nat
  requests : List ICMPPacket

/-- The state before the loop of `ping`. -/
def ping_init {K : Type} [LinearOrderedField K] : PingState K :=
  { stats := Statistics.fresh, transmitted := 0, received := 0, requests := [] }

/-- One iteration `i` of the loop of `ping` (lines 145--171): `transmitted++`,
`send_ping(sock, addr, i + 1)`, and on success `received++` and
`stats.add(rtt)`.  `exchange i` is what the operating system does during
probe `i`. -/
def ping_step {K : Type} [LinearOrderedField K] (be : Bool) (pid : Nat)
    (exchange : Nat → Exchange K) (st : PingState K) (i : Nat) : PingState K :=
  let st1 : PingState K :=
    { st with transmitted := st.transmitted + 1
              requests := st.requests ++ [echo_request be pid (i + 1)] }
  match send_ping pid (i + 1) (exchange i) with
  | Except.ok rtt => { st1 with received := st1.received + 1, stats := st1.stats.add rtt }
  | Except.error _ => st1

/-- The loop `for (size_t i = 0; i < count; ++i)` of `ping`. -/
def ping_loop {K : Type} [LinearOrderedField K] (be : Bool) (pid : Nat)
    (exchange : Nat → Exchange K) (count : Nat) : PingState K :=
  (List.range count).foldl (ping_step be pid exchange) ping_init

/-- The value `loss` of `ping` (lines 173--175).  `received` never exceeds
`transmitted`, so the `size_t` subtraction does not wrap. -/
def loss {K : Type} [LinearOrderedField K] (transmitted received : Nat) : K :=
  if transmitted > 0 then 100 * ((transmitted - received : Nat) : K) / (transmitted : K) else 0

/-- The round-trip time of a successful probe, nothing for a failed one. -/
def rtt_of {K : Type} (r : Except String K) : Option K :=
  match r with
  | Except.ok rtt => some rtt
  | Except.error _ => none

/-- An exchange in which the request is sent and the receive times out. -/
def lost_exchange : Exchange ℚ :=
  { sent := 64, send_strerror := "", received := -1
    recv_strerror := "Resource temporarily unavailable"
    reply := echo_request_zeroed 0 0, rtt := 0 }

end Ping

/-! ## Port-scan dispatch (`src/commands/scan.cpp`)

The worker threads are modelled as a transition system.  A worker is either
about to execute `next_port.fetch_add(1)`, or holds a claimed index whose
probe outcome it is about to record under `results_mutex`, or has left its
loop.  An interleaving is a schedule: the list of the worker numbers in the
order in which they take their next step.  The counter `completed` and the
progress bar only drive the display and are left out. -/

namespace Scan

/-- Model of `struct ScanResult`; the member `open` is named `is_open` here. -/
structure ScanResult where
  port : Nat
  is_open : Bool
  service : String
deriving DecidableEq, Repr

/-- Model of `get_service_name`. -/
def get_service_name (port : Nat) : String :=
  match port with
  | 20 => "ftp-data" | 21 => "ftp" | 22 => "ssh" | 23 => "telnet"
  | 25 => "smtp" | 53 => "dns" | 80 => "http" | 110 => "pop3"
  | 143 => "imap" | 443 => "https" | 465 => "smtps" | 587 => "smtp"
  | 993 => "imaps" | 995 => "pop3s" | 3306 => "mysql" | 5432 => "postgresql"
  | 6379 => "redis" | 27017 => "mongodb" | 8080 => "http-alt" | 8443 => "https-alt"
  | _ => "unknown"

/-- The control state of one thread running `scan_worker`. -/
inductive Worker where
  | fetching
  | holding (idx : Nat)
  | stopped
deriving DecidableEq, Repr

/-- The shared state of the dispatch: the atomic cursor `next_port`, the
vector `results`, the control state of every worker, and, as a record for the
statements only, the list `claims` of (worker, index) pairs in claiming order. -/
structure State where
  next_port : Nat
  workers : List Worker
  results : List ScanResult
  claims : List (Nat × Nat)

/-- The state when the threads are created: `next_port{0}`, no results. -/
def init (num_threads : Nat) : State :=
  { next_port := 0, workers := List.replicate num_threads Worker.fetching,
    results := [], claims := [] }

/-- One step of worker `w` of `scan_worker`.  A fetching worker executes
`idx = next_port.fetch_add(1)` (on `size_t`) and the test `idx >= ports.size()`;
a holding worker probes `ports[idx]` and appends to `results` when the port is
open.  A stopped or non-existent worker does nothing. -/
def step (ports : List Nat) (scan_port : Nat → Bool) (s : State) (w : Nat) : State :=
  match s.workers[w]? with
  | some Worker.fetching =>
    let idx := s.next_port
    if idx ≥ ports.length then
      { s with next_port := (idx + 1) % 2 ^ 64, workers := s.workers.set w Worker.stopped }
    else
      { s with next_port := (idx + 1) % 2 ^ 64, workers := s.workers.set w (Worker.holding idx),
               claims := s.claims ++ [(w, idx)] }
  | some (Worker.holding idx) =>
    let port := ports.getD idx 0
    let is_open := scan_port port
    { s with workers := s.workers.set w Worker.fetching,
             results := if is_open then s.results ++ [⟨port, true, get_service_name port⟩]
                        else s.results }
  | _ => s

/-- The state after the workers have taken their steps in the order `sched`. -/
def run (ports : List Nat) (scan_port : Nat → Bool) (num_threads : Nat) (sched : List Nat) :
    State :=
  sched.foldl (step ports scan_port) (init num_threads)

/-- Every thread has left `scan_worker`, so every `join` returns. -/
def joined (s : State) : Bool :=
  s.workers.all (fun w => decide (w = Worker.stopped))

/-- The `std::sort` of `results` with the comparison `a.port < b.port`.  Entries
with equal ports are equal records, so the order among them does not matter. -/
def sort_results (results : List ScanResult) : List ScanResult :=
  results.insertionSort (fun a b => a.port ≤ b.port)

/-- The sorted `results` that `scan` reports after the schedule `sched`. -/
def scan_results (ports : List Nat) (scan_port : Nat → Bool) (num_threads : Nat)
    (sched : List Nat) : List ScanResult :=
  sort_results (run ports scan_port num_threads sched).results

/-- The number of workers that have left their loop. -/
def stopped_count (ws : List Worker) : Nat :=
  (ws.map (fun w => if w = Worker.stopped then 1 else 0)).sum

/-- The port a worker is about to append to `results`, if any. -/
def pending_of (ports : List Nat) (scan_port : Nat → Bool) : Worker → List Nat
  | Worker.holding idx => if scan_port (ports.getD idx 0) then [ports.getD idx 0] else []
  | _ => []

/-- The ports that holding workers are about to append to `results`. -/
def pending (ports : List Nat) (scan_port : Nat → Bool) (ws : List Worker) : Multiset Nat :=
  (ws.map (fun w => (pending_of ports scan_port w : Multiset Nat))).sum

/-- The number of indices worker `w` has claimed. -/
def claims_by (w : Nat) (claims : List (Nat × Nat)) : Nat :=
  claims.countP (fun c => c.1 == w)

/-- The invariant of the dispatch after the schedule `sched`, for `num_threads` workers. -/
structure Inv (ports : List Nat) (scan_port : Nat → Bool) (num_threads : Nat)
    (sched : List Nat) (s : State) : Prop where
  len : s.workers.length = num_threads
  idx : s.claims.map Prod.snd = List.range s.claims.length
  le : s.claims.length ≤ ports.length
  cursor : s.next_port = s.claims.length + stopped_count s.workers
  full : 0 < stopped_count s.workers → s.claims.length = ports.length
  who : ∀ c ∈ s.claims, c.1 < num_threads
  res : ((s.results.map ScanResult.port : List Nat) : Multiset Nat)
          + pending ports scan_port s.workers
        = (((ports.take s.claims.length).filter scan_port : List Nat) : Multiset Nat)
  shape : ∀ r ∈ s.results, r.is_open = true ∧ r.service = get_service_name r.port
  fetch : ∀ w, s.workers[w]? = some Worker.fetching → sched.count w = 2 * claims_by w s.claims
  hold : ∀ w i, s.workers[w]? = some (Worker.holding i) →
    sched.count w + 1 = 2 * claims_by w s.claims

/-! ### The port specification (`scan`, lines 74--100)

A `std::string` is a list of characters.  A call that throws (`std::stoi` on
text without a number or out of the range of `int`) gives `none`. -/

/-- The search of `std::string::find(c, pos)` through the characters from
index `i` on. -/
def find_from (c : Char) : List Char → Nat → Option Nat
  | [], _ => none
  | x :: xs, i => if x = c then some i else find_from c xs (i + 1)

/-- Model of `std::string::find(c, pos)`; `none` is `npos`. -/
def find (s : List Char) (c : Char) (pos : Nat) : Option Nat :=
  find_from c (s.drop pos) pos

/-- Model of `std::string::substr(pos, n)` for `pos` within the string. -/
def substr (s : List Char) (pos n : Nat) : List Char :=
  (s.drop pos).take n

/-- Model of `isspace` in the C locale. -/
def isspace (c : Char) : Bool :=
  c.toNat == 32 || (9 ≤ c.toNat && c.toNat ≤ 13)

/-- The value of a decimal digit character. -/
def digit_value (c : Char) : Nat :=
  c.toNat - 48

/-- The accumulation of `strtol` over a run of digits: `acc = acc * 10 + digit`. -/
def digits_value (ds : List Char) : Nat :=
  ds.foldl (fun acc d => acc * 10 + digit_value d) 0

/-- Model of `std::stoi(str)` in base 10: leading white space, an optional sign, then
the longest run of digits; `none` when there is no digit (`invalid_argument`)
or the value does not fit an `int` (`out_of_range`). -/
def stoi (s : List Char) : Option Int :=
  let s1 := s.dropWhile isspace
  let signed : Bool × List Char :=
    match s1 with
    | '-' :: r => (true, r)
    | '+' :: r => (false, r)
    | _ => (false, s1)
  let ds := signed.2.takeWhile Char.isDigit
  if ds.isEmpty then none
  else
    let v : Int := if signed.1 then -(digits_value ds : Int) else (digits_value ds : Int)
    if v < -2147483648 ∨ 2147483647 < v then none else some v

/-- The conversion of an `int` to `uint16_t` at `ports.push_back`. -/
def to_uint16 (p : Int) : Nat :=
  (p % 65536).toNat

/-- The loop `for (int p = start; p <= end && p <= 65535; ++p) ports.push_back(p)`
with `fuel` iterations allowed. -/
def range_loop (end_ : Int) : Nat → Int → List Nat → List Nat
  | 0, _, ports => ports
  | fuel + 1, p, ports =>
    if p ≤ end_ ∧ p ≤ 65535 then range_loop end_ fuel (p + 1) (ports ++ [to_uint16 p])
    else ports

/-- The loop `while (pos < port_spec.length())` of the list branch, with `fuel`
iterations allowed; every iteration moves `pos` forward. -/
def list_loop (s : List Char) : Nat → Nat → List Nat → Option (List Nat)
  | 0, _, ports => some ports
  | fuel + 1, pos, ports =>
    if pos < s.length then
      let comma := (find s ',' pos).getD s.length
      match stoi (substr s pos (comma - pos)) with
      | none => none
      | some port => list_loop s fuel (comma + 1) (ports ++ [to_uint16 port])
    else some ports

/-- The parsing of the port specification in `scan` (lines 74--100): the vector
`ports`, or `none` when `std::stoi` throws.  The range loop runs at most
`65536 - start` times and the list loop at most once per character, which is
the fuel given. -/
def expand_ports (port_spec : List Char) : Option (List Nat) :=
  match find port_spec '-' 0 with
  | some dash_pos =>
    match stoi (substr port_spec 0 dash_pos) with
    | none => none
    | some start =>
      match stoi (port_spec.drop (dash_pos + 1)) with
      | none => none
      | some end_ => some (range_loop end_ (65536 - start).toNat start [])
  | none =>
    match find port_spec ',' 0 with
    | some _ => list_loop port_spec (port_spec.length + 1) 0 []
    | none =>
      match stoi port_spec with
      | none => none
      | some port => some [to_uint16 port]

/-- A decimal numeral: a non-empty run of digit characters. -/
def IsNumeral (ds : List Char) : Prop :=
  ds ≠ [] ∧ ∀ c ∈ ds, c.isDigit = true

/-- The number a decimal numeral denotes, most significant digit first, as the
specification reads it; not taken from the code. -/
def numeral_value (ds : List Char) : Nat :=
  Nat.ofDigits 10 (ds.reverse.map (fun c => c.toNat - '0'.toNat))

/-- Numerals written one after the other with commas in between. -/
def join_commas : List (List Char) → List Char
  | [] => []
  | [t] => t
  | t :: rest => t ++ ',' :: join_commas rest

end Scan

/-! ## Hop discovery (`src/commands/trace.cpp`)

An IPv4 address is a `Nat`.  The text `hop_addr` is either the sentinel `"*"`
(`none`) or the `inet_ntop` text of a responder (`some addr`); `inet_ntop`
never yields `"*"` and is injective, so comparing the texts is comparing the
addresses.  The outcome of the call `probe_hop(dest, ttl)` for query `q` is
given by an oracle: `none` for an error result, `some (addr, rtt)` otherwise. -/

namespace Trace

/-- What one iteration of the outer loop of `trace` leaves: `ttl`, `hop_addr`, `rtts`. -/
structure Hop (K : Type) where
  ttl : Nat
  hop_addr : Option Nat
  rtts : List K

/-- The inner loop `for (q = 0; q < queries; ++q)` of `trace` at one `ttl`:
every successful probe overwrites `hop_addr` and appends to `rtts`. -/
def probe_queries {K : Type} (probe : Nat → Nat → Option (Nat × K)) (ttl queries : Nat) :
    Option Nat × List K :=
  (List.range queries).foldl
    (fun acc q =>
      match probe ttl q with
      | some (addr, rtt) => (some addr, acc.2 ++ [rtt])
      | none => acc)
    (none, [])

/-- The outer loop of `trace` from `ttl` on, with `fuel` iterations left
before `ttl <= max_hops` fails. -/
def trace_from {K : Type} (probe : Nat → Nat → Option (Nat × K)) (dest queries : Nat) :
    Nat → Nat → List (Hop K)
  | 0, _ => []
  | fuel + 1, ttl =>
    let r := probe_queries probe ttl queries
    let row : Hop K := { ttl := ttl, hop_addr := r.1, rtts := r.2 }
    if r.1 = some dest then [row]
    else if r.1 = none ∧ ttl > 10 then [row]
    else row :: trace_from probe dest queries fuel (ttl + 1)

/-- The loop `for (ttl = 1; ttl <= max_hops; ++ttl)` of `trace`: the list of
the iterations it executes. -/
def trace {K : Type} (probe : Nat → Nat → Option (Nat × K)) (dest queries max_hops : Nat) :
    List (Hop K) :=
  trace_from probe dest queries max_hops 1

/-- The probes issued by a run of `trace`, as (ttl, query) pairs in order:
each executed iteration issues `queries` probes at its `ttl`. -/
def probes_issued {K : Type} (rows : List (Hop K)) (queries : Nat) : List (Nat × Nat) :=
  rows.flatMap (fun row => (List.range queries).map (fun q => (row.ttl, q)))

/-- The average a table row shows (lines 138--143): `none` stands for `"*"`. -/
def average {K : Type} [LinearOrderedField K] (rtts : List K) : Option K :=
  if rtts.isEmpty then none
  else some (rtts.foldl (fun acc x => acc + x) 0 / (rtts.length : K))

/-- The value of `ICMP_TIME_EXCEEDED` (from `<netinet/ip_icmp.h>`). -/
def ICMP_TIME_EXCEEDED : Nat := 11

/-- The value of `ICMP_DEST_UNREACH` (from `<netinet/ip_icmp.h>`). -/
def ICMP_DEST_UNREACH : Nat := 3

/-- The value of `ICMP_PORT_UNREACH` (from `<netinet/ip_icmp.h>`). -/
def ICMP_PORT_UNREACH : Nat := 3

/-- What the operating system does during one `probe_hop`: the descriptors
returned for the UDP and the raw ICMP socket, the return value of `::sendto`
with its error text, the return value of `::recvfrom` on the ICMP socket, the
sender address `from.sin_addr` and the ICMP type and code of the message
received, and the elapsed time in milliseconds. -/
structure HopExchange (K : Type) where
  udp_fd : Int
  icmp_fd : Int
  sent : Int
  send_strerror : String
  received : Int
  recv_strerror : String
  from_addr : Nat
  icmp_type : Nat
  icmp_code : Nat
  rtt : K

/-- Model of `probe_hop`.  The results of `set_ttl` and `set_timeout` are not looked at,
and the bytes received into `buffer` are not read. -/
def probe_hop {K : Type} (x : HopExchange K) : Except String (Nat × K) :=
  if x.udp_fd < 0 then Except.error "Failed to create UDP socket"
  else if x.icmp_fd < 0 then Except.error "Failed to create ICMP socket"
  else
    match Ping.Socket_sendto x.sent x.send_strerror with
    | Except.error e => Except.error e
    | Except.ok _ =>
      match Ping.Socket_recvfrom x.received x.recv_strerror with
      | Except.error _ => Except.error "Timeout"
      | Except.ok _ => Except.ok (x.from_addr, x.rtt)

/-- Whether a message is one of the two notifications a hop probe waits for:
ICMP time exceeded, or destination unreachable with code port unreachable. -/
def is_hop_notification (icmp_type icmp_code : Nat) : Bool :=
  icmp_type == ICMP_TIME_EXCEEDED ||
    (icmp_type == ICMP_DEST_UNREACH && icmp_code == ICMP_PORT_UNREACH)

end Trace

/-! ## Socket handle (`src/socket.h`, `src/socket.cpp`)

A `Socket` object holds one descriptor `fd_`.  The effect of a member function
on the operating system is made explicit: `Socket::close` takes and returns
the list of descriptors passed to `::close` so far, and the functions that
issue system calls read the outcome of each call from an `OS` record.  The
objects that exist at one time are a store: a map from object addresses
(`Nat`) to `Socket` values. -/

namespace Sock

/-- The data member of `class Socket`, `int fd_ = -1`. -/
structure Socket where
  fd_ : Int := -1
deriving DecidableEq, Repr

/-- Model of `Socket::is_valid`. -/
def Socket.is_valid (s : Socket) : Bool :=
  decide (s.fd_ ≥ 0)

/-- Model of `Socket::close`; `closed` lists the descriptors passed to `::close` so far. -/
def Socket.close (s : Socket) (closed : List Int) : Socket × List Int :=
  if s.fd_ ≥ 0 then ({ fd_ := -1 }, closed ++ [s.fd_]) else (s, closed)

/-- The destructor `Socket::~Socket`, which calls `close()`: the descriptors
passed to `::close` once the object is gone. -/
def Socket.destroy (s : Socket) (closed : List Int) : List Int :=
  (s.close closed).2

/-- A number of explicit `close()` calls in a row on one object. -/
def close_times : Nat → Socket → List Int → Socket × List Int
  | 0, s, closed => (s, closed)
  | n + 1, s, closed => close_times n (s.close closed).1 (s.close closed).2

/-- The move constructor `Socket::Socket(Socket&& other)`: the object at address
`new_` is constructed from the object at address `other`. -/
def move_construct (store : Nat → Socket) (new_ other : Nat) : Nat → Socket :=
  let store1 := Function.update store new_ { fd_ := (store other).fd_ }
  Function.update store1 other { fd_ := -1 }

/-- The move assignment `Socket::operator=(Socket&& other)` on the object at
address `this_`. -/
def move_assign (store : Nat → Socket) (closed : List Int) (this_ other : Nat) :
    (Nat → Socket) × List Int :=
  if this_ ≠ other then
    let r := (store this_).close closed
    let store1 := Function.update store this_ r.1
    let store2 := Function.update store1 this_ { fd_ := (store1 other).fd_ }
    (Function.update store2 other { fd_ := -1 }, r.2)
  else (store, closed)

/-- No open descriptor is held by two objects of the store. -/
def Exclusive (store : Nat → Socket) : Prop :=
  ∀ i j, i ≠ j → 0 ≤ (store i).fd_ → (store i).fd_ ≠ (store j).fd_

/-- The system calls issued by the member functions of `Socket`. -/
inductive Call where
  | connect | bind | listen | accept | send | recv | sendto | recvfrom
  | fcntl_getfl | fcntl_setfl | select | getsockopt_so_error
  | setsockopt_reuseaddr | setsockopt_reuseport
  | setsockopt_rcvtimeo | setsockopt_sndtimeo | setsockopt_ttl
deriving DecidableEq, Repr

/-- The outcome of the system calls, per call and descriptor: the return value,
the value of `errno` after a failed call, the value `getsockopt(SO_ERROR)`
stores in `error`, and the text of `std::strerror`. -/
structure OS where
  ret : Call → Int → Int
  errno : Call → Int → Int
  so_error : Int → Int
  strerror : Int → String

/-- The value of `EBADF` (from `<errno.h>`). -/
def EBADF : Int := 9

/-- The value of `EINPROGRESS` (from `<errno.h>`). -/
def EINPROGRESS : Int := 115

/-- What POSIX guarantees for a descriptor that is not open, such as -1: every
call on it fails (returns -1) with `errno == EBADF`. -/
def OS.rejects_bad_descriptors (os : OS) : Prop :=
  ∀ (c : Call) (fd : Int), fd < 0 → os.ret c fd = -1 ∧ os.errno c fd = EBADF

/-- Model of `Socket::set_nonblocking`; the second component is the `O_NONBLOCK` flag of
the descriptor after the call, `nonblock` the flag before. -/
def Socket.set_nonblocking (os : OS) (s : Socket) (nonblock : Bool) (enabled : Bool) :
    Except String Unit × Bool :=
  if os.ret Call.fcntl_getfl s.fd_ < 0 then (Except.error "Failed to get socket flags", nonblock)
  else if os.ret Call.fcntl_setfl s.fd_ < 0 then
    (Except.error "Failed to set non-blocking mode", nonblock)
  else (Except.ok (), enabled)

/-- The `timeval` built from a timeout in milliseconds (`tv_sec`, `tv_usec`),
as in `Socket::connect` and `Socket::set_timeout`. -/
def timeval (timeout : Int) : Int × Int :=
  (Int.tdiv timeout 1000, Int.tmod timeout 1000 * 1000)

/-- Model of `Socket::connect`.  `resolve` stands for `Socket::resolve`, `timeout` is
`timeout.count()`, `errno0` the value of `errno` before `::connect` is called
(`errno` keeps it when the call succeeds), `nonblock` the `O_NONBLOCK` flag
before the call.  The second component is the `O_NONBLOCK` flag afterwards. -/
def Socket.connect (os : OS) (resolve : String → Nat → Except String Nat) (errno0 : Int)
    (s : Socket) (nonblock : Bool) (host : String) (port : Nat) (timeout : Int) :
    Except String Unit × Bool :=
  match resolve host port with
  | Except.error e => (Except.error e, nonblock)
  | Except.ok _addr =>
    let r1 := if timeout > 0 then s.set_nonblocking os nonblock true else (Except.ok (), nonblock)
    match r1 with
    | (Except.error e, flag) => (Except.error e, flag)
    | (Except.ok _, flag) =>
      let result := os.ret Call.connect s.fd_
      let errno := if result < 0 then os.errno Call.connect s.fd_ else errno0
      if result < 0 ∧ errno ≠ EINPROGRESS then
        (Except.error ("Connect failed: " ++ os.strerror errno), flag)
      else if timeout > 0 ∧ errno = EINPROGRESS then
        if os.ret Call.select s.fd_ ≤ 0 then (Except.error "Connection timeout", flag)
        else if os.ret Call.getsockopt_so_error s.fd_ < 0 ∨ os.so_error s.fd_ ≠ 0 then
          (Except.error ("Connection failed: " ++ os.strerror (os.so_error s.fd_)), flag)
        else (Except.ok (), (s.set_nonblocking os flag false).2)
      else (Except.ok (), flag)

/-- Model of `Socket::bind`. -/
def Socket.bind (os : OS) (s : Socket) : Except String Unit :=
  if os.ret Call.bind s.fd_ < 0 then
    Except.error ("Bind failed: " ++ os.strerror (os.errno Call.bind s.fd_))
  else Except.ok ()

/-- Model of `Socket::listen`. -/
def Socket.listen (os : OS) (s : Socket) : Except String Unit :=
  if os.ret Call.listen s.fd_ < 0 then
    Except.error ("Listen failed: " ++ os.strerror (os.errno Call.listen s.fd_))
  else Except.ok ()

/-- Model of `Socket::accept`. -/
def Socket.accept (os : OS) (s : Socket) : Except String Socket :=
  if os.ret Call.accept s.fd_ < 0 then
    Except.error ("Accept failed: " ++ os.strerror (os.errno Call.accept s.fd_))
  else Except.ok { fd_ := os.ret Call.accept s.fd_ }

/-- Model of `Socket::send`. -/
def Socket.send (os : OS) (s : Socket) : Except String Nat :=
  if os.ret Call.send s.fd_ < 0 then
    Except.error ("Send failed: " ++ os.strerror (os.errno Call.send s.fd_))
  else Except.ok (os.ret Call.send s.fd_).toNat

/-- Model of `Socket::recv`. -/
def Socket.recv (os : OS) (s : Socket) : Except String Nat :=
  if os.ret Call.recv s.fd_ < 0 then
    Except.error ("Recv failed: " ++ os.strerror (os.errno Call.recv s.fd_))
  else Except.ok (os.ret Call.recv s.fd_).toNat

/-- Model of `Socket::sendto`. -/
def Socket.sendto (os : OS) (s : Socket) : Except String Nat :=
  if os.ret Call.sendto s.fd_ < 0 then
    Except.error ("Sendto failed: " ++ os.strerror (os.errno Call.sendto s.fd_))
  else Except.ok (os.ret Call.sendto s.fd_).toNat

/-- Model of `Socket::recvfrom`. -/
def Socket.recvfrom (os : OS) (s : Socket) : Except String Nat :=
  if os.ret Call.recvfrom s.fd_ < 0 then
    Except.error ("Recvfrom failed: " ++ os.strerror (os.errno Call.recvfrom s.fd_))
  else Except.ok (os.ret Call.recvfrom s.fd_).toNat

/-- Model of `Socket::set_reuse_addr`. -/
def Socket.set_reuse_addr (os : OS) (s : Socket) : Except String Unit :=
  if os.ret Call.setsockopt_reuseaddr s.fd_ < 0 then Except.error "Failed to set SO_REUSEADDR"
  else Except.ok ()

/-- Model of `Socket::set_reuse_port`. -/
def Socket.set_reuse_port (os : OS) (s : Socket) : Except String Unit :=
  if os.ret Call.setsockopt_reuseport s.fd_ < 0 then Except.error "Failed to set SO_REUSEPORT"
  else Except.ok ()

/-- Model of `Socket::set_timeout`. -/
def Socket.set_timeout (os : OS) (s : Socket) : Except String Unit :=
  if os.ret Call.setsockopt_rcvtimeo s.fd_ < 0 then Except.error "Failed to set receive timeout"
  else if os.ret Call.setsockopt_sndtimeo s.fd_ < 0 then
    Except.error "Failed to set send timeout"
  else Except.ok ()

/-- Model of `Socket::set_ttl`. -/
def Socket.set_ttl (os : OS) (s : Socket) : Except String Unit :=
  if os.ret Call.setsockopt_ttl s.fd_ < 0 then Except.error "Failed to set TTL"
  else Except.ok ()

/-- Whether a result holds an error. -/
def is_error {α : Type} (r : Except String α) : Bool :=
  match r with
  | Except.error _ => true
  | Except.ok _ => false

/-- An operating system used for concrete runs: calls on a negative descriptor
fail with `EBADF`; on other descriptors `::connect` returns `connect_ret` with
`errno` set to `connect_errno`, `select` reports one ready descriptor, and
every other call returns 0; the pending socket error is 0. -/
def os_with_connect (connect_ret connect_errno : Int) : OS :=
  { ret := fun c fd =>
      if fd < 0 then -1
      else
        match c with
        | Call.connect => connect_ret
        | Call.select => 1
        | _ => 0
    errno := fun c fd =>
      if fd < 0 then EBADF
      else
        match c with
        | Call.connect => connect_errno
        | _ => 0
    so_error := fun _ => 0
    strerror := fun e => if e = EBADF then "Bad file descriptor" else "error" }

/-- A resolver that resolves every host. -/
def resolve_any (_host : String) (_port : Nat) : Except String Nat :=
  Except.ok 0

end Sock

/-! ## Readiness multiplexer (`src/async_io.h`, `src/async_io.cpp`)

A callback is identified by a number; running `run_once` yields the list of
callback invocations in order.  The outcome of `epoll_wait` (the count `nfds`
and the filled part of the array `events`) is an argument.  Callbacks are
taken not to change the registrations while `run_once` iterates. -/

namespace Async

/-- The `enum class Event` of `AsyncIO`. -/
inductive Event where
  | READ
  | WRITE
  | ERROR
deriving DecidableEq, Repr

/-- The `struct EventData`: a descriptor and its callback. -/
structure EventData where
  fd : Int
  callback : Nat
deriving DecidableEq, Repr

/-- The members of `class AsyncIO`. -/
structure AsyncIO where
  epoll_fd_ : Int
  running_ : Bool
  events_ : List EventData

/-- The fields `events` and `data.u64` of a `struct epoll_event`. -/
structure epoll_event where
  events : Nat
  data : Nat
deriving DecidableEq, Repr

/-- The value of `EPOLLIN` (from `<sys/epoll.h>`). -/
def EPOLLIN : Nat := 1

/-- The value of `EPOLLOUT` (from `<sys/epoll.h>`). -/
def EPOLLOUT : Nat := 4

/-- The value of `EPOLLERR` (from `<sys/epoll.h>`). -/
def EPOLLERR : Nat := 8

/-- The value of `EPOLLHUP` (from `<sys/epoll.h>`). -/
def EPOLLHUP : Nat := 16

/-- One call `callback(fd, event)`. -/
structure Invocation where
  callback : Nat
  fd : Int
  event : Event
deriving DecidableEq, Repr

/-- The `event_type` chosen in the loop body of `run_once` (lines 119--126). -/
def event_type (events : Nat) : Event :=
  if events &&& EPOLLIN ≠ 0 then Event.READ
  else if events &&& EPOLLOUT ≠ 0 then Event.WRITE
  else if events &&& (EPOLLERR ||| EPOLLHUP) ≠ 0 then Event.ERROR
  else Event.READ

/-- Model of `AsyncIO::run_once`: the invocations made for the outcome `nfds`, `events` of
`epoll_wait`. -/
def run_once (a : AsyncIO) (nfds : Int) (events : List epoll_event) : List Invocation :=
  if a.epoll_fd_ < 0 then []
  else if nfds < 0 then []
  else
    (events.take nfds.toNat).filterMap (fun ev =>
      match a.events_[ev.data]? with
      | none => none
      | some e => some { callback := e.callback, fd := e.fd, event := event_type ev.events })

/-- One entry of the interest list the kernel keeps for the epoll instance: the
descriptor, the event mask and the user data (`ev.data.u64`) given to
`epoll_ctl`. -/
structure Interest where
  fd : Int
  events : Nat
  data : Nat
deriving DecidableEq, Repr

/-- An `AsyncIO` object together with the interest list of its epoll instance. -/
structure Loop where
  io : AsyncIO
  interest : List Interest

/-- The mask `ev.events` built by `add` and `modify` from the requested events
(`READ = 1`, `WRITE = 2`). -/
def epoll_mask (events : Nat) : Nat :=
  (if events &&& 1 ≠ 0 then EPOLLIN else 0) ||| (if events &&& 2 ≠ 0 then EPOLLOUT else 0)

/-- Model of `AsyncIO::add`.  `epoll_ctl(EPOLL_CTL_ADD)` fails for a descriptor that is
not open (negative here) or already in the interest list. -/
def add (l : Loop) (fd : Int) (events : Nat) (callback : Nat) : Except String Unit × Loop :=
  if l.io.epoll_fd_ < 0 then (Except.error "AsyncIO not initialized", l)
  else
    let index := l.io.events_.length
    if fd < 0 then (Except.error "epoll_ctl ADD failed: Bad file descriptor", l)
    else if l.interest.any (fun r => r.fd == fd) then
      (Except.error "epoll_ctl ADD failed: File exists", l)
    else
      (Except.ok (),
        { io := { l.io with events_ := l.io.events_ ++ [{ fd := fd, callback := callback }] }
          interest := l.interest ++ [{ fd := fd, events := epoll_mask events, data := index }] })

/-- Model of `AsyncIO::remove`.  `epoll_ctl(EPOLL_CTL_DEL)` fails for a descriptor that
is not in the interest list; otherwise the first entry of `events_` with that
descriptor is erased. -/
def remove (l : Loop) (fd : Int) : Except String Unit × Loop :=
  if l.io.epoll_fd_ < 0 then (Except.error "AsyncIO not initialized", l)
  else if ¬ l.interest.any (fun r => r.fd == fd) then
    (Except.error "epoll_ctl DEL failed: No such file or directory", l)
  else
    (Except.ok (),
      { io := { l.io with events_ := l.io.events_.eraseP (fun e => e.fd == fd) }
        interest := l.interest.filter (fun r => r.fd != fd) })

/-- The event `epoll_wait` returns for a registered descriptor that is ready
with the conditions `ready`: the kernel hands back the user data stored at
registration. -/
def ready_event (l : Loop) (fd : Int) (ready : Nat) : Option epoll_event :=
  (l.interest.find? (fun r => r.fd == fd)).map (fun r => { events := ready, data := r.data })

/-- A call of `add` or `remove`. -/
inductive Request where
  | add (fd : Int) (events : Nat) (callback : Nat)
  | remove (fd : Int)
deriving DecidableEq, Repr

/-- A freshly constructed `AsyncIO` whose `epoll_create1` returned `epoll_fd`. -/
def fresh (epoll_fd : Int) : Loop :=
  { io := { epoll_fd_ := epoll_fd, running_ := false, events_ := [] }, interest := [] }

/-- Apply a sequence of `add` and `remove` calls; the first component tells
whether every call returned success. -/
def apply_all (l : Loop) : List Request → Bool × Loop
  | [] => (true, l)
  | Request.add fd events callback :: rest =>
    match add l fd events callback with
    | (Except.ok _, l2) => apply_all l2 rest
    | (Except.error _, l2) => (false, (apply_all l2 rest).2)
  | Request.remove fd :: rest =>
    match remove l fd with
    | (Except.ok _, l2) => apply_all l2 rest
    | (Except.error _, l2) => (false, (apply_all l2 rest).2)

/-- Whether a call is an `add`. -/
def Request.is_add : Request → Bool
  | Request.add _ _ _ => true
  | Request.remove _ => false

/-- The callback registered together with a descriptor by a sequence of `add`
calls, as the specification names it (not taken from the code): the callback
of the first `add` for that descriptor; an `add` for a descriptor that is
already registered fails and registers nothing. -/
def registered : List Request → Int → Option Nat
  | [], _ => none
  | Request.add f _ callback :: rest, fd => if f = fd then some callback else registered rest fd
  | Request.remove _ :: rest, fd => registered rest fd

/-- The array `events` that `epoll_wait` fills when the descriptors `ready`
(each with the conditions reported for it) are ready: one event per ready
descriptor of the interest list. -/
def wait_events (l : Loop) (ready : List (Int × Nat)) : List epoll_event :=
  ready.filterMap (fun rd => ready_event l rd.1 rd.2)

/-- The link between the interest list of the kernel and `events_` that holds
as long as only `add` has been called: the entry found for a descriptor
carries the position of that descriptor in `events_`, and `bound` gives the
callback stored there. -/
structure Bound (l : Loop) (bound : Int → Option Nat) : Prop where
  found : ∀ (fd : Int) (r : Interest), l.interest.find? (fun r => r.fd == fd) = some r →
    ∃ e, l.io.events_[r.data]? = some e ∧ e.fd = fd ∧ bound fd = some e.callback
  listed : ∀ fd : Int, 0 ≤ fd → (bound fd).isSome = true →
    l.interest.any (fun r => r.fd == fd) = true

end Async

/-! ## HTTP benchmark (`src/commands/bench.cpp`) -/

namespace Bench

/-- The value `error_rate` of `bench` (lines 152--154); `total_requests` counts the
successful requests, `errors` the failed ones. -/
def error_rate {K : Type} [LinearOrderedField K] (total_requests errors : Nat) : K :=
  if total_requests > 0 then (100 * (errors : K)) / ((total_requests + errors : Nat) : K) else 0

/-- The ratio of failures to attempts in percent, 0 without attempts, as the
specification names it; not taken from the code. -/
def failure_percentage {K : Type} [LinearOrderedField K] (failures attempts : Nat) : K :=
  if attempts = 0 then 0 else 100 * (failures : K) / (attempts : K)

end Bench

/-! ## The use of the resolver (`socket.cpp`, `scan.cpp`, `bench.cpp`, `ping.cpp`, `trace.cpp`)

The invocations of `Socket::resolve` are recorded in a log, the list of the
(host, port) pairs passed to it in call order.  The log is threaded through
the functions that lie between a command and the resolver; each of them is
the model given above with the log as an additional argument and result. -/

namespace Resolve

/-- One call `Socket::resolve(host, port)`: its result, and the log with the
call recorded. -/
def resolve_logged (resolve : String → Nat → Except String Nat) (host : String) (port : Nat)
    (log : List (String × Nat)) : Except String Nat × List (String × Nat) :=
  (resolve host port, log ++ [(host, port)])

/-- Model of `Socket::connect(host, port, timeout)` (socket.cpp lines 66--113)
with the log: the statements of `Sock.Socket.connect`, the first of which
is the call of the resolver. -/
def connect_logged (os : Sock.OS) (resolve : String → Nat → Except String Nat) (errno0 : Int)
    (s : Sock.Socket) (nonblock : Bool) (host : String) (port : Nat) (timeout : Int)
    (log : List (String × Nat)) : (Except String Unit × Bool) × List (String × Nat) :=
  match resolve_logged resolve host port log with
  | (Except.error e, log1) => ((Except.error e, nonblock), log1)
  | (Except.ok _addr, log1) =>
    let r1 :=
      if timeout > 0 then s.set_nonblocking os nonblock true else (Except.ok (), nonblock)
    match r1 with
    | (Except.error e, flag) => ((Except.error e, flag), log1)
    | (Except.ok _, flag) =>
      let result := os.ret Sock.Call.connect s.fd_
      let errno := if result < 0 then os.errno Sock.Call.connect s.fd_ else errno0
      if result < 0 ∧ errno ≠ Sock.EINPROGRESS then
        ((Except.error ("Connect failed: " ++ os.strerror errno), flag), log1)
      else if timeout > 0 ∧ errno = Sock.EINPROGRESS then
        if os.ret Sock.Call.select s.fd_ ≤ 0 then ((Except.error "Connection timeout", flag), log1)
        else if os.ret Sock.Call.getsockopt_so_error s.fd_ < 0 ∨ os.so_error s.fd_ ≠ 0 then
          ((Except.error ("Connection failed: " ++ os.strerror (os.so_error s.fd_)), flag), log1)
        else ((Except.ok (), (s.set_nonblocking os flag false).2), log1)
      else ((Except.ok (), flag), log1)

/-- What a command meets outside the program when it connects: the outcome of
the system calls, the resolver, the value of `errno` before `::connect`, and
the descriptor `::socket` returns for the TCP socket constructed for a port
(in a scan) or for a request number (in a benchmark), negative when the
socket could not be created. -/
structure ConnectEnv where
  os : Sock.OS
  resolve : String → Nat → Except String Nat
  errno0 : Int
  fd : Nat → Int

/-- Whether the TCP socket for a port (of a scan) or a request (of a
benchmark) could be created. -/
def ConnectEnv.created (env : ConnectEnv) (i : Nat) : Bool :=
  decide (0 ≤ env.fd i)

/-- Model of `scan_port` (scan.cpp lines 36--44) with the log. -/
def scan_port_logged (env : ConnectEnv) (host : String) (port : Nat) (timeout : Int)
    (log : List (String × Nat)) : Bool × List (String × Nat) :=
  if env.fd port < 0 then (false, log)
  else
    let r := connect_logged env.os env.resolve env.errno0 { fd_ := env.fd port } false host port
      timeout log
    (!Sock.is_error r.1.1, r.2)

/-- The outcome of `scan_port` for a port, as the dispatch of `scan` sees it. -/
def scan_port_of (env : ConnectEnv) (host : String) (timeout : Int) (port : Nat) : Bool :=
  (scan_port_logged env host port timeout []).1

/-- One step of worker `w` of `scan_worker`, as `Scan.step`, with the log: the
step of a holding worker is the call of `scan_port`. -/
def scan_step_logged (env : ConnectEnv) (host : String) (timeout : Int) (ports : List Nat)
    (sl : Scan.State × List (String × Nat)) (w : Nat) : Scan.State × List (String × Nat) :=
  match sl.1.workers[w]? with
  | some Scan.Worker.fetching =>
    let idx := sl.1.next_port
    if idx ≥ ports.length then
      ({ sl.1 with next_port := (idx + 1) % 2 ^ 64,
                   workers := sl.1.workers.set w Scan.Worker.stopped }, sl.2)
    else
      ({ sl.1 with next_port := (idx + 1) % 2 ^ 64,
                   workers := sl.1.workers.set w (Scan.Worker.holding idx),
                   claims := sl.1.claims ++ [(w, idx)] }, sl.2)
  | some (Scan.Worker.holding idx) =>
    let port := ports.getD idx 0
    let r := scan_port_logged env host port timeout sl.2
    ({ sl.1 with workers := sl.1.workers.set w Scan.Worker.fetching,
                 results := if r.1 then
                              sl.1.results ++ [⟨port, true, Scan.get_service_name port⟩]
                            else sl.1.results }, r.2)
  | _ => sl

/-- The threads of `scan` after the schedule `sched`, as `Scan.run`, with the
log of the whole scan; `scan` itself does not call the resolver. -/
def scan_logged (env : ConnectEnv) (host : String) (timeout : Int) (ports : List Nat)
    (num_threads : Nat) (sched : List Nat) : Scan.State × List (String × Nat) :=
  sched.foldl (scan_step_logged env host timeout ports) (Scan.init num_threads, [])

/-- The loop `while (true)` of `http_request` that receives the response:
`recvs` lists the return values of the successive `::recv` calls; the loop
ends at the first failed or empty receive. -/
def recv_loop : List Int → Nat → Nat
  | [], total_bytes => total_bytes
  | r :: rest, total_bytes =>
    if r ≤ 0 then total_bytes else recv_loop rest (total_bytes + r.toNat)

/-- Model of `http_request` (bench.cpp lines 17--58) with the log, for request
number `i` of a run: `env.fd i` is the descriptor of its socket, `recvs` the
return values of its `::recv` calls, `latency` the elapsed time. -/
def http_request_logged {K : Type} (env : ConnectEnv) (host : String) (port : Nat) (i : Nat)
    (recvs : List Int) (latency : K) (log : List (String × Nat)) :
    Except String (Nat × K) × List (String × Nat) :=
  if env.fd i < 0 then (Except.error "Failed to create socket", log)
  else
    let r := connect_logged env.os env.resolve env.errno0 { fd_ := env.fd i } false host port
      2000 log
    match r.1.1 with
    | Except.error e => (Except.error e, r.2)
    | Except.ok _ =>
      match Sock.Socket.send env.os { fd_ := env.fd i } with
      | Except.error e => (Except.error e, r.2)
      | Except.ok _ => (Except.ok (recv_loop recvs 0, latency), r.2)

/-- The counters of `bench` and the log. -/
structure BenchState where
  total_requests : Nat
  errors : Nat
  log : List (String × Nat)

/-- One iteration of the loop of a `worker` of `bench`: the call of
`http_request` number `i` and the update of the counters. -/
def bench_step {K : Type} (env : ConnectEnv) (host : String) (port : Nat)
    (recvs : Nat → List Int) (latency : Nat → K) (st : BenchState) (i : Nat) : BenchState :=
  let r := http_request_logged env host port i (recvs i) (latency i) st.log
  match r.1 with
  | Except.ok _ => { total_requests := st.total_requests + 1, errors := st.errors, log := r.2 }
  | Except.error _ => { total_requests := st.total_requests, errors := st.errors + 1, log := r.2 }

/-- A run of `bench` in which the workers issue `requests` calls of
`http_request` in total, numbered in the order in which they are made;
`bench` itself does not call the resolver. -/
def bench_logged {K : Type} (env : ConnectEnv) (host : String) (port : Nat)
    (recvs : Nat → List Int) (latency : Nat → K) (requests : Nat) : BenchState :=
  (List.range requests).foldl (bench_step env host port recvs latency)
    { total_requests := 0, errors := 0, log := [] }

/-- Model of `send_ping` with the log: `send_ping` is handed the resolved
address and calls `sendto`, `recvfrom`, the clock and `getpid` only. -/
def send_ping_logged {K : Type} (pid seq : Nat) (x : Ping.Exchange K)
    (log : List (String × Nat)) : Except String K × List (String × Nat) :=
  (Ping.send_ping pid seq x, log)

/-- One iteration of the loop of `ping`, as `Ping.ping_step`, with the log. -/
def ping_step_logged {K : Type} [LinearOrderedField K] (be : Bool) (pid : Nat)
    (exchange : Nat → Ping.Exchange K) (sl : Ping.PingState K × List (String × Nat)) (i : Nat) :
    Ping.PingState K × List (String × Nat) :=
  let st1 : Ping.PingState K :=
    { sl.1 with transmitted := sl.1.transmitted + 1
                requests := sl.1.requests ++ [Ping.echo_request be pid (i + 1)] }
  match send_ping_logged pid (i + 1) (exchange i) sl.2 with
  | (Except.ok rtt, log) =>
    ({ st1 with received := st1.received + 1, stats := st1.stats.add rtt }, log)
  | (Except.error _, log) => (st1, log)

/-- Model of `ping` from the resolution of the host argument on (ping.cpp
lines 116--171) with the log: `none` stands for the early `return 1` after
a failed resolution or a failed creation of the raw socket (`icmp_fd < 0`). -/
def ping_logged {K : Type} [LinearOrderedField K] (resolve : String → Nat → Except String Nat)
    (icmp_fd : Int) (be : Bool) (pid : Nat) (exchange : Nat → Ping.Exchange K) (host : String)
    (count : Nat) : Option (Ping.PingState K) × List (String × Nat) :=
  match resolve_logged resolve host 0 [] with
  | (Except.error _, log1) => (none, log1)
  | (Except.ok _addr, log1) =>
    if icmp_fd < 0 then (none, log1)
    else
      let r := (List.range count).foldl (ping_step_logged be pid exchange) (Ping.ping_init, log1)
      (some r.1, r.2)

/-- Model of `probe_hop` with the log: `probe_hop` is handed the resolved
address and calls the socket functions and the clock only. -/
def probe_hop_logged {K : Type} (x : Trace.HopExchange K) (log : List (String × Nat)) :
    Except String (Nat × K) × List (String × Nat) :=
  (Trace.probe_hop x, log)

/-- The inner loop of `trace`, as `Trace.probe_queries`, with the log;
`hop ttl q` is what the operating system does during query `q` at `ttl`. -/
def probe_queries_logged {K : Type} (hop : Nat → Nat → Trace.HopExchange K) (ttl queries : Nat)
    (log : List (String × Nat)) : (Option Nat × List K) × List (String × Nat) :=
  (List.range queries).foldl
    (fun acc q =>
      match probe_hop_logged (hop ttl q) acc.2 with
      | (Except.ok (addr, rtt), log1) => ((some addr, acc.1.2 ++ [rtt]), log1)
      | (Except.error _, log1) => (acc.1, log1))
    ((none, []), log)

/-- The outer loop of `trace`, as `Trace.trace_from`, with the log. -/
def trace_from_logged {K : Type} (hop : Nat → Nat → Trace.HopExchange K) (dest queries : Nat) :
    Nat → Nat → List (String × Nat) → List (Trace.Hop K) × List (String × Nat)
  | 0, _, log => ([], log)
  | fuel + 1, ttl, log =>
    let r := probe_queries_logged hop ttl queries log
    let row : Trace.Hop K := { ttl := ttl, hop_addr := r.1.1, rtts := r.1.2 }
    if r.1.1 = some dest then ([row], r.2)
    else if r.1.1 = none ∧ ttl > 10 then ([row], r.2)
    else
      let rest := trace_from_logged hop dest queries fuel (ttl + 1) r.2
      (row :: rest.1, rest.2)

/-- The outcome of `probe_hop` as the loop of `trace` uses it. -/
def probe_of {K : Type} (hop : Nat → Nat → Trace.HopExchange K) (ttl q : Nat) : Option (Nat × K) :=
  match Trace.probe_hop (hop ttl q) with
  | Except.ok r => some r
  | Except.error _ => none

/-- Model of `trace` from the resolution of the host argument on (trace.cpp
lines 91--160) with the log: `none` stands for the early `return 1` after a
failed resolution; the resolved address is the destination of the loop. -/
def trace_logged {K : Type} (resolve : String → Nat → Except String Nat)
    (hop : Nat → Nat → Trace.HopExchange K) (host : String) (queries max_hops : Nat) :
    Option (List (Trace.Hop K)) × List (String × Nat) :=
  match resolve_logged resolve host 33434 [] with
  | (Except.error _, log1) => (none, log1)
  | (Except.ok dest, log1) =>
    let r := trace_from_logged hop dest queries max_hops 1 log1
    (some r.1, r.2)

/-- An environment for concrete runs: every socket is created with descriptor
3, every host resolves, and `::connect` succeeds at once. -/
def env_ok : ConnectEnv :=
  { os := Sock.os_with_connect 0 0, resolve := Sock.resolve_any, errno0 := 0, fd := fun _ => 3 }

/-- A hop probe for concrete runs: both sockets are created, the datagram is
sent, and the receive times out. -/
def silent_hop : Trace.HopExchange ℚ :=
  { udp_fd := 3, icmp_fd := 4, sent := 1, send_strerror := "", received := -1,
    recv_strerror := "Resource temporarily unavailable", from_addr := 0, icmp_type := 0,
    icmp_code := 0, rtt := 0 }

end Resolve

namespace Statistics

section Lemmas

variable {K : Type} [LinearOrderedField K] [FloorRing K]

theorem min_element_mem (x : K) (xs : List K) : min_element x xs ∈ x :: xs := by
  induction xs generalizing x with
  | nil => simp [min_element]
  | cons y ys ih =>
    have h := ih (if y < x then y else x)
    simp only [min_element, List.foldl_cons, List.mem_cons] at h ⊢
    split_ifs at h ⊢ <;> tauto

theorem min_element_le_head (x : K) (xs : List K) : min_element x xs ≤ x := by
  induction xs generalizing x with
  | nil => simp [min_element]
  | cons y ys ih =>
    have h := ih (if y < x then y else x)
    simp only [min_element, List.foldl_cons] at h ⊢
    split_ifs at h ⊢ with hyx
    · exact le_trans h hyx.le
    · exact h

theorem min_element_le (x : K) (xs : List K) : ∀ y ∈ x :: xs, min_element x xs ≤ y := by
  induction xs generalizing x with
  | nil => simp [min_element]
  | cons z zs ih =>
    intro y hy
    have h := ih (if z < x then z else x)
    have hh := min_element_le_head (if z < x then z else x) zs
    simp only [min_element, List.foldl_cons] at h hh ⊢
    simp only [List.mem_cons] at hy h
    rcases hy with rfl | rfl | hy
    · split_ifs at hh ⊢ with hzx
      · exact le_trans hh hzx.le
      · exact hh
    · split_ifs at hh ⊢ with hzx
      · exact hh
      · exact le_trans hh (not_lt.mp hzx)
    · exact h y (Or.inr hy)

theorem max_element_mem (x : K) (xs : List K) : max_element x xs ∈ x :: xs := by
  induction xs generalizing x with
  | nil => simp [max_element]
  | cons y ys ih =>
    have h := ih (if x < y then y else x)
    simp only [max_element, List.foldl_cons, List.mem_cons] at h ⊢
    split_ifs at h ⊢ <;> tauto

theorem head_le_max_element (x : K) (xs : List K) : x ≤ max_element x xs := by
  induction xs generalizing x with
  | nil => simp [max_element]
  | cons y ys ih =>
    have h := ih (if x < y then y else x)
    simp only [max_element, List.foldl_cons] at h ⊢
    split_ifs at h ⊢ with hxy
    · exact le_trans hxy.le h
    · exact h

theorem le_max_element (x : K) (xs : List K) : ∀ y ∈ x :: xs, y ≤ max_element x xs := by
  induction xs generalizing x with
  | nil => simp [max_element]
  | cons z zs ih =>
    intro y hy
    have h := ih (if x < z then z else x)
    have hh := head_le_max_element (if x < z then z else x) zs
    simp only [max_element, List.foldl_cons] at h hh ⊢
    simp only [List.mem_cons] at hy h
    rcases hy with rfl | rfl | hy
    · split_ifs at hh ⊢ with hxz
      · exact le_trans hxz.le hh
      · exact hh
    · split_ifs at hh ⊢ with hxz
      · exact hh
      · exact le_trans (not_lt.mp hxz) hh
    · exact h y (Or.inr hy)

theorem min_mem (s : Statistics K) (h : s.values_ ≠ []) : s.min ∈ s.values_ := by
  unfold Statistics.min
  cases hv : s.values_ with
  | nil => exact absurd hv h
  | cons x xs => exact min_element_mem x xs

theorem min_le (s : Statistics K) : ∀ y ∈ s.values_, s.min ≤ y := by
  unfold Statistics.min
  cases hv : s.values_ with
  | nil => simp
  | cons x xs => exact min_element_le x xs

theorem max_mem (s : Statistics K) (h : s.values_ ≠ []) : s.max ∈ s.values_ := by
  unfold Statistics.max
  cases hv : s.values_ with
  | nil => exact absurd hv h
  | cons x xs => exact max_element_mem x xs

theorem le_max (s : Statistics K) : ∀ y ∈ s.values_, y ≤ s.max := by
  unfold Statistics.max
  cases hv : s.values_ with
  | nil => simp
  | cons x xs => exact le_max_element x xs

theorem sorted_perm (s : Statistics K) : s.sorted.Perm s.values_ :=
  List.perm_insertionSort _ _

theorem sorted_sorted (s : Statistics K) : s.sorted.Sorted (· ≤ ·) :=
  List.sorted_insertionSort _ _

theorem sorted_length (s : Statistics K) : s.sorted.length = s.values_.length :=
  (sorted_perm s).length_eq

theorem mem_sorted (s : Statistics K) (x : K) : x ∈ s.sorted ↔ x ∈ s.values_ :=
  (sorted_perm s).mem_iff

/-- The fractional rank lies between 0 and `n - 1` when `0 ≤ p ≤ 100`. -/
theorem rank_bounds (s : Statistics K) (p : K) (hp0 : 0 ≤ p) (hp1 : p ≤ 100) :
    0 ≤ s.rank p ∧ s.rank p ≤ ((s.values_.length - 1 : Nat) : K) := by
  unfold rank
  rw [sorted_length]
  have hn : (0 : K) ≤ ((s.values_.length - 1 : Nat) : K) := Nat.cast_nonneg _
  have h1 : 0 ≤ p / 100 := div_nonneg hp0 (by norm_num)
  have h2 : p / 100 ≤ 1 := by rw [div_le_one (by norm_num)]; exact hp1
  exact ⟨mul_nonneg h1 hn, by nlinarith⟩

/-- Both bracketing indices of `percentile` are valid indices of the sorted snapshot. -/
theorem indices_lt (s : Statistics K) (p : K) (h : s.values_ ≠ []) (hp0 : 0 ≤ p)
    (hp1 : p ≤ 100) :
    Int.toNat ⌊s.rank p⌋ < s.sorted.length ∧ Int.toNat ⌈s.rank p⌉ < s.sorted.length := by
  obtain ⟨h0, h1⟩ := rank_bounds s p hp0 hp1
  have hpos : 0 < s.values_.length := List.length_pos.mpr h
  rw [sorted_length]
  have hc : ⌈s.rank p⌉ ≤ ((s.values_.length - 1 : Nat) : Int) := by
    rw [Int.ceil_le]; exact_mod_cast h1
  have hf : ⌊s.rank p⌋ ≤ ⌈s.rank p⌉ := Int.floor_le_ceil _
  constructor <;> omega

/-- Between the two guards `percentile` is the interpolation between the two
bracketing entries of the sorted snapshot, with weight the fractional part of the rank. -/
theorem percentile_mid (s : Statistics K) (p : K) (h : s.values_ ≠ []) (hp0 : 0 < p)
    (hp1 : p < 100) :
    s.percentile p =
      s.sorted.getD (Int.toNat ⌊s.rank p⌋) 0 * (1 - Int.fract (s.rank p))
        + s.sorted.getD (Int.toNat ⌈s.rank p⌉) 0 * Int.fract (s.rank p) := by
  obtain ⟨h0, -⟩ := rank_bounds s p hp0.le hp1.le
  have hfl : (0 : Int) ≤ ⌊s.rank p⌋ := Int.floor_nonneg.mpr h0
  have hcast : ((Int.toNat ⌊s.rank p⌋ : Nat) : K) = ((⌊s.rank p⌋ : Int) : K) := by
    have : ((Int.toNat ⌊s.rank p⌋ : Nat) : Int) = ⌊s.rank p⌋ := Int.toNat_of_nonneg hfl
    exact_mod_cast congrArg (fun z : Int => (z : K)) this
  unfold percentile
  cases hv : s.values_ with
  | nil => exact absurd hv h
  | cons x xs =>
    simp only [not_le.mpr hp0, not_le.mpr hp1, if_false]
    change (if Int.toNat ⌊s.rank p⌋ = Int.toNat ⌈s.rank p⌉ then
        s.sorted.getD (Int.toNat ⌊s.rank p⌋) 0
      else s.sorted.getD (Int.toNat ⌊s.rank p⌋) 0 * (1 - (s.rank p - ((Int.toNat ⌊s.rank p⌋ : Nat) : K)))
        + s.sorted.getD (Int.toNat ⌈s.rank p⌉) 0 * (s.rank p - ((Int.toNat ⌊s.rank p⌋ : Nat) : K))) = _
    split_ifs with heq
    · have hce : ⌈s.rank p⌉ = ⌊s.rank p⌋ := by
        have hc0 : (0 : Int) ≤ ⌈s.rank p⌉ := le_trans hfl (Int.floor_le_ceil _)
        omega
      have hfr : Int.fract (s.rank p) = 0 := by
        have h1 : s.rank p ≤ ((⌊s.rank p⌋ : Int) : K) := by rw [← hce]; exact Int.le_ceil _
        have h2 : ((⌊s.rank p⌋ : Int) : K) ≤ s.rank p := Int.floor_le _
        unfold Int.fract
        linarith
      rw [← heq, hfr]; ring
    · rw [hcast]; rfl

theorem percentile_low (s : Statistics K) (p : K) (h : s.values_ ≠ []) (hp : p ≤ 0) :
    s.percentile p = s.min := by
  unfold percentile
  cases hv : s.values_ with
  | nil => exact absurd hv h
  | cons x xs => simp only [hp, if_true]

theorem percentile_high (s : Statistics K) (p : K) (h : s.values_ ≠ []) (hp : 100 ≤ p) :
    s.percentile p = s.max := by
  have hp0 : ¬ p ≤ 0 := not_le.mpr (lt_of_lt_of_le (by norm_num) hp)
  unfold percentile
  cases hv : s.values_ with
  | nil => exact absurd hv h
  | cons x xs => simp only [hp0, hp, if_true, if_false]

theorem getD_sorted_mem (s : Statistics K) (i : Nat) (hi : i < s.sorted.length) :
    s.sorted.getD i 0 ∈ s.values_ := by
  rw [← mem_sorted, List.getD_eq_getElem _ _ hi]
  exact List.getElem_mem hi

theorem min_le_max (s : Statistics K) (h : s.values_ ≠ []) : s.min ≤ s.max :=
  min_le s _ (max_mem s h)

theorem consistent_fresh : Consistent (fresh : Statistics K) := by
  simp [Consistent, fresh]

theorem consistent_applyOp (s : Statistics K) (op : Op K) (h : Consistent s) :
    Consistent (applyOp s op) := by
  cases op with
  | add v =>
    obtain ⟨h1, h2⟩ := h
    simp [Consistent, applyOp, add, h1, h2]
  | reset => simp [Consistent, applyOp, reset]

theorem consistent_foldl (ops : List (Op K)) (s : Statistics K) (h : Consistent s) :
    Consistent (ops.foldl applyOp s) := by
  induction ops generalizing s with
  | nil => exact h
  | cons op rest ih => exact ih _ (consistent_applyOp s op h)

theorem consistent_run (ops : List (Op K)) : Consistent (run ops) :=
  consistent_foldl ops fresh consistent_fresh

/-- The sum of squared deviations from any centre `m`, expanded. -/
theorem sum_sq_dev (l : List K) (m : K) :
    (l.map (fun x => (x - m) ^ 2)).sum
      = (l.map (fun x => x * x)).sum - 2 * m * l.sum + (l.length : K) * m ^ 2 := by
  induction l with
  | nil => simp
  | cons x xs ih =>
    simp only [List.map_cons, List.sum_cons, List.length_cons, Nat.cast_add, Nat.cast_one, ih]
    ring

/-- The one-pass variance expression equals the sample variance about the mean. -/
theorem variance_eq (l : List K) (h : 2 ≤ l.length) :
    ((l.map (fun x => x * x)).sum - l.sum * l.sum / (l.length : K)) / ((l.length - 1 : Nat) : K)
      = (l.map (fun x => (x - l.sum / (l.length : K)) ^ 2)).sum / ((l.length - 1 : Nat) : K) := by
  have hn : (l.length : K) ≠ 0 := by
    have : 0 < l.length := by omega
    exact_mod_cast this.ne'
  congr 1
  rw [sum_sq_dev]
  field_simp
  ring

theorem variance_nonneg (l : List K) :
    0 ≤ (l.map (fun x => (x - l.sum / (l.length : K)) ^ 2)).sum / ((l.length - 1 : Nat) : K) := by
  apply div_nonneg _ (Nat.cast_nonneg _)
  apply List.sum_nonneg
  intro y hy
  obtain ⟨x, -, rfl⟩ := List.mem_map.mp hy
  exact sq_nonneg _

theorem foldl_add_values (xs : List K) (s : Statistics K) :
    (xs.foldl add s).values_ = s.values_ ++ xs := by
  induction xs generalizing s with
  | nil => simp
  | cons x rest ih => rw [List.foldl_cons, ih]; simp [add]

theorem ofList_values (xs : List K) : (ofList xs).values_ = xs := by
  unfold ofList
  rw [foldl_add_values]
  simp [fresh]

theorem run_append_op (ops : List (Op K)) (op : Op K) :
    run (ops ++ [op]) = applyOp (run ops) op := by
  simp [run, List.foldl_append]

/-- The stored samples are the values added since the last reset. -/
theorem run_values (ops : List (Op K)) : (run ops).values_ = added_since_reset ops := by
  induction ops using List.reverseRecOn with
  | nil => simp [run, fresh, added_since_reset]
  | append_singleton ops op ih =>
    rw [run_append_op]
    cases op with
    | add v =>
      simp only [applyOp, add, ih, added_since_reset, List.reverse_append, List.reverse_cons,
        List.reverse_nil, List.nil_append, List.singleton_append, List.takeWhile_cons,
        Op.is_add, if_true, List.filterMap_append, List.filterMap_cons, List.filterMap_nil,
        Op.value?]
    | reset =>
      simp [applyOp, reset, added_since_reset, Op.is_add]

/-- The loop of `jitter` adds the absolute differences of consecutive samples. -/
theorem sum_diff_eq (xs : List K) : sum_diff xs = consecutive_abs_sum xs := by
  unfold consecutive_abs_sum
  induction xs with
  | nil => simp [sum_diff]
  | cons x rest ih =>
    cases rest with
    | nil => simp [sum_diff]
    | cons y rest2 =>
      rw [sum_diff, ih]
      simp only [List.length_cons, Nat.add_sub_cancel]
      rw [List.range_succ_eq_map (rest2.length), List.map_cons, List.sum_cons, List.map_map]
      simp [List.getD_cons_succ, List.getD_cons_zero, Function.comp_def]

theorem sorted_getD_mono (s : Statistics K) (i j : Nat) (hij : i ≤ j)
    (hj : j < s.sorted.length) : s.sorted.getD i 0 ≤ s.sorted.getD j 0 := by
  have hi : i < s.sorted.length := lt_of_le_of_lt hij hj
  rw [List.getD_eq_getElem _ _ hi, List.getD_eq_getElem _ _ hj]
  have h := (sorted_sorted s).rel_get_of_le (a := ⟨i, hi⟩) (b := ⟨j, hj⟩) hij
  simpa using h

/-- The interpolated value lies between the two bracketing entries. -/
theorem interp_between (s : Statistics K) (p : K) (h : s.values_ ≠ []) (hp0 : 0 ≤ p)
    (hp1 : p ≤ 100) :
    s.sorted.getD (Int.toNat ⌊s.rank p⌋) 0 ≤
        s.sorted.getD (Int.toNat ⌊s.rank p⌋) 0 * (1 - Int.fract (s.rank p))
          + s.sorted.getD (Int.toNat ⌈s.rank p⌉) 0 * Int.fract (s.rank p) ∧
    s.sorted.getD (Int.toNat ⌊s.rank p⌋) 0 * (1 - Int.fract (s.rank p))
          + s.sorted.getD (Int.toNat ⌈s.rank p⌉) 0 * Int.fract (s.rank p)
      ≤ s.sorted.getD (Int.toNat ⌈s.rank p⌉) 0 := by
  obtain ⟨-, hhi⟩ := indices_lt s p h hp0 hp1
  have hfc : Int.toNat ⌊s.rank p⌋ ≤ Int.toNat ⌈s.rank p⌉ :=
    Int.toNat_le_toNat (Int.floor_le_ceil _)
  have hab := sorted_getD_mono s _ _ hfc hhi
  have hw0 : 0 ≤ Int.fract (s.rank p) := Int.fract_nonneg _
  have hw1 : Int.fract (s.rank p) < 1 := Int.fract_lt_one _
  constructor <;> nlinarith

/-- For a non-empty series and `0 ≤ p ≤ 100` the percentile lies between the
smallest and the largest sample. -/
theorem percentile_in_range (s : Statistics K) (p : K) (h : s.values_ ≠ []) (hp0 : 0 ≤ p)
    (hp1 : p ≤ 100) : s.min ≤ s.percentile p ∧ s.percentile p ≤ s.max := by
  rcases hp0.eq_or_lt with h0 | h0
  · rw [percentile_low s p h (le_of_eq h0.symm)]
    exact ⟨le_refl _, min_le_max s h⟩
  rcases hp1.eq_or_lt with h1 | h1
  · rw [percentile_high s p h (le_of_eq h1.symm)]
    exact ⟨min_le_max s h, le_refl _⟩
  obtain ⟨hlo, hhi⟩ := indices_lt s p h hp0 hp1
  obtain ⟨hb1, hb2⟩ := interp_between s p h hp0 hp1
  rw [percentile_mid s p h h0 h1]
  exact ⟨le_trans (min_le s _ (getD_sorted_mem s _ hlo)) hb1,
    le_trans hb2 (le_max s _ (getD_sorted_mem s _ hhi))⟩

theorem rank_mono (s : Statistics K) (p q : K) (hpq : p ≤ q) : s.rank p ≤ s.rank q := by
  unfold rank
  have hn : (0 : K) ≤ ((s.sorted.length - 1 : Nat) : K) := Nat.cast_nonneg _
  have : p / 100 ≤ q / 100 := div_le_div_of_nonneg_right hpq (by norm_num)
  exact mul_le_mul_of_nonneg_right this hn

/-- Between the guards the percentile is monotone. -/
theorem percentile_mid_mono (s : Statistics K) (p q : K) (h : s.values_ ≠ []) (hp0 : 0 < p)
    (hpq : p ≤ q) (hq1 : q < 100) : s.percentile p ≤ s.percentile q := by
  have hq0 : 0 < q := lt_of_lt_of_le hp0 hpq
  have hp1 : p < 100 := lt_of_le_of_lt hpq hq1
  rw [percentile_mid s p h hp0 hp1, percentile_mid s q h hq0 hq1]
  have hr := rank_mono s p q hpq
  obtain ⟨hr0, -⟩ := rank_bounds s p hp0.le hp1.le
  obtain ⟨hplo, hphi⟩ := indices_lt s p h hp0.le hp1.le
  obtain ⟨hqlo, hqhi⟩ := indices_lt s q h hq0.le hq1.le
  obtain ⟨hp_lb, hp_ub⟩ := interp_between s p h hp0.le hp1.le
  obtain ⟨hq_lb, hq_ub⟩ := interp_between s q h hq0.le hq1.le
  have hfl : ⌊s.rank p⌋ ≤ ⌊s.rank q⌋ := Int.floor_le_floor hr
  have hfp0 : (0 : Int) ≤ ⌊s.rank p⌋ := Int.floor_nonneg.mpr hr0
  rcases hfl.eq_or_lt with heq | hlt
  · -- same segment
    have hwp0 : 0 ≤ Int.fract (s.rank p) := Int.fract_nonneg _
    have hwq1 : Int.fract (s.rank q) < 1 := Int.fract_lt_one _
    have hw : Int.fract (s.rank p) ≤ Int.fract (s.rank q) := by
      unfold Int.fract
      rw [← heq]
      linarith
    rcases hwp0.eq_or_lt with hz | hpos
    · rw [← hz, heq]
      have : s.sorted.getD (Int.toNat ⌊s.rank q⌋) 0 * (1 - 0)
          + s.sorted.getD (Int.toNat ⌈s.rank p⌉) 0 * 0
          = s.sorted.getD (Int.toNat ⌊s.rank q⌋) 0 := by ring
      rw [this]
      exact hq_lb
    · have hcp : ⌈s.rank p⌉ = ⌊s.rank p⌋ + 1 := by
        rw [Int.ceil_eq_iff]
        constructor
        · have : ((⌊s.rank p⌋ : Int) : K) < s.rank p := by
            unfold Int.fract at hpos
            linarith
          push_cast
          linarith
        · push_cast
          exact (Int.lt_floor_add_one _).le
      have hqpos : 0 < Int.fract (s.rank q) := lt_of_lt_of_le hpos hw
      have hcq : ⌈s.rank q⌉ = ⌊s.rank q⌋ + 1 := by
        rw [Int.ceil_eq_iff]
        constructor
        · have : ((⌊s.rank q⌋ : Int) : K) < s.rank q := by
            unfold Int.fract at hqpos
            linarith
          push_cast
          linarith
        · push_cast
          exact (Int.lt_floor_add_one _).le
      have hcc : ⌈s.rank p⌉ = ⌈s.rank q⌉ := by rw [hcp, hcq, heq]
      have hfc : Int.toNat ⌊s.rank q⌋ ≤ Int.toNat ⌈s.rank q⌉ :=
        Int.toNat_le_toNat (Int.floor_le_ceil _)
      have hab := sorted_getD_mono s _ _ hfc hqhi
      rw [hcc, heq]
      nlinarith
  · -- different segments
    have hc : ⌈s.rank p⌉ ≤ ⌊s.rank q⌋ := by
      have := Int.ceil_le_floor_add_one (s.rank p)
      omega
    have hmid := sorted_getD_mono s _ _ (Int.toNat_le_toNat hc) hqlo
    exact le_trans hp_ub (le_trans hmid hq_lb)

end Lemmas

end Statistics

/-! ## Lemmas on the rounding of `double` and on `percentile` with rounding -/

namespace Statistics

section RoundLemmas

variable {K : Type} [LinearOrderedField K] [FloorRing K]

/-- A value strictly within one half of an integer rounds to that integer. -/
theorem round_half_even_of_near (y : K) (m : Int) (h1 : (m : K) - 1 / 2 < y)
    (h2 : y < (m : K) + 1 / 2) : round_half_even y = m := by
  unfold round_half_even
  by_cases hge : (m : K) ≤ y
  · have hf : ⌊y⌋ = m := by
      rw [Int.floor_eq_iff]
      constructor
      · exact hge
      · linarith
    simp only [hf]
    rw [if_pos (by linarith)]
  · have hlt : y < (m : K) := not_le.mp hge
    have hf : ⌊y⌋ = m - 1 := by
      rw [Int.floor_eq_iff]
      push_cast
      constructor
      · linarith
      · linarith
    simp only [hf]
    push_cast
    rw [if_neg (by linarith), if_pos (by linarith)]
    ring

/-- The binary exponent of a positive value lying between two consecutive
powers of two. -/
theorem log_two_eq (x : K) (e : Int) (hx : 0 < x) (h1 : (2 : K) ^ e ≤ x)
    (h2 : x < (2 : K) ^ (e + 1)) : Int.log 2 x = e := by
  have hb : 1 < (2 : Nat) := by decide
  have c : ((2 : Nat) : K) = 2 := by norm_num
  apply le_antisymm
  · have := (Int.lt_zpow_iff_log_lt hb hx (x := e + 1)).mp (by rw [c]; exact h2)
    omega
  · exact (Int.zpow_le_iff_le_log hb hx).mp (by rw [c]; exact h1)

/-- The rounding of a positive value `x` with `2^e ≤ x < 2^(e+1)` whose scaled
value `x / 2^(e-52)` lies strictly within one half of the integer `m`. -/
theorem round_double_of (x : K) (e m : Int) (hx : 0 < x) (h1 : (2 : K) ^ e ≤ x)
    (h2 : x < (2 : K) ^ (e + 1)) (h3 : (m : K) - 1 / 2 < x / (2 : K) ^ (e - 52))
    (h4 : x / (2 : K) ^ (e - 52) < (m : K) + 1 / 2) :
    round_double x = (m : K) * (2 : K) ^ (e - 52) := by
  unfold round_double
  rw [if_neg hx.ne.symm]
  simp only [abs_of_pos hx, log_two_eq x e hx h1 h2, round_half_even_of_near _ m h3 h4]

/-- A positive value with a significand of at most 53 bits is not changed by
the rounding. -/
theorem round_double_exact (x : K) (e m : Int) (hx : 0 < x) (h1 : (2 : K) ^ e ≤ x)
    (h2 : x < (2 : K) ^ (e + 1)) (hm : x = (m : K) * (2 : K) ^ (e - 52)) :
    round_double x = x := by
  have hpos : (0 : K) < (2 : K) ^ (e - 52) := zpow_pos (by norm_num) _
  have hq : x / (2 : K) ^ (e - 52) = (m : K) := by
    rw [hm, mul_div_assoc, div_self hpos.ne.symm, mul_one]
  rw [round_double_of x e m hx h1 h2 (by rw [hq]; linarith) (by rw [hq]; linarith), ← hm]

/-- With the identity as rounding, `percentile_fl` is `percentile`. -/
theorem percentile_fl_id (s : Statistics K) (p : K) :
    percentile_fl id s p = (s.percentile p, s) := by
  unfold percentile_fl percentile sorted
  cases s.values_ with
  | nil => rfl
  | cons x xs =>
    simp only [id]
    split_ifs <;> rfl

/-- The object is the same after a call of `percentile`, whatever the rounding. -/
theorem percentile_fl_state (fl : K → K) (s : Statistics K) (p : K) :
    (percentile_fl fl s p).2 = s := by
  unfold percentile_fl
  cases s.values_ with
  | nil => rfl
  | cons x xs =>
    simp only
    split_ifs <;> rfl

/-- The result of `percentile` with rounding for `0 < p < 100` on a non-empty
series, in terms of the computed rank. -/
theorem percentile_fl_mid (fl : K → K) (s : Statistics K) (p : K) (h : s.values_ ≠ [])
    (hp0 : 0 < p) (hp1 : p < 100) :
    (percentile_fl fl s p).1 =
      if Int.toNat ⌊rank_fl fl s p⌋ = Int.toNat ⌈rank_fl fl s p⌉ then
        s.sorted.getD (Int.toNat ⌊rank_fl fl s p⌋) 0
      else
        fl (fl (s.sorted.getD (Int.toNat ⌊rank_fl fl s p⌋) 0
                * fl (1 - fl (rank_fl fl s p - fl ((Int.toNat ⌊rank_fl fl s p⌋ : Nat) : K))))
            + fl (s.sorted.getD (Int.toNat ⌈rank_fl fl s p⌉) 0
                * fl (rank_fl fl s p - fl ((Int.toNat ⌊rank_fl fl s p⌋ : Nat) : K)))) := by
  unfold percentile_fl rank_fl sorted
  cases hv : s.values_ with
  | nil => exact absurd hv h
  | cons x xs =>
    simp only [not_le.mpr hp0, not_le.mpr hp1, if_false]
    split_ifs <;> rfl

/-- An ascending series is its own sorted snapshot. -/
theorem sorted_of_sorted (xs : List K) (h : xs.Sorted (· ≤ ·)) : (ofList xs).sorted = xs := by
  unfold sorted
  rw [ofList_values]
  exact List.Sorted.insertionSort_eq h

/-- The series 0, 1, ..., n-1 is ascending. -/
theorem range_cast_sorted (n : Nat) :
    ((List.range n).map (fun i : Nat => (i : K))).Sorted (· ≤ ·) := by
  unfold List.Sorted
  rw [List.pairwise_map]
  exact (List.pairwise_lt_range n).imp (fun h => by exact_mod_cast h.le)

theorem range_cast_getD (n i : Nat) (h : i < n) :
    ((List.range n).map (fun i : Nat => (i : K))).getD i 0 = (i : K) := by
  rw [List.getD_eq_getElem?_getD, List.getElem?_map, List.getElem?_range h]
  rfl

end RoundLemmas

section RoundRat

theorem round_double_7_100 :
    round_double ((7 : ℚ) / 100) = 5044031582654956 / 72057594037927936 := by
  rw [round_double_of ((7 : ℚ) / 100) (-4) 5044031582654956 (by norm_num) (by norm_num)
    (by norm_num) (by norm_num) (by norm_num)]
  norm_num

theorem round_double_100 : round_double (100 : ℚ) = 100 :=
  round_double_exact (100 : ℚ) 6 7036874417766400 (by norm_num) (by norm_num) (by norm_num)
    (by norm_num)

theorem round_double_7 : round_double (7 : ℚ) = 7 :=
  round_double_exact (7 : ℚ) 2 7881299347898368 (by norm_num) (by norm_num) (by norm_num)
    (by norm_num)

/-- The product `fl(7/100) * 100` rounds to the double next above 7. -/
theorem round_double_rank_7 :
    round_double ((5044031582654956 : ℚ) / 72057594037927936 * 100)
      = 7881299347898369 / 1125899906842624 := by
  rw [round_double_of ((5044031582654956 : ℚ) / 72057594037927936 * 100) 2 7881299347898369
    (by norm_num) (by norm_num) (by norm_num) (by norm_num) (by norm_num)]
  norm_num

theorem round_double_weight :
    round_double ((1 : ℚ) / 1125899906842624) = 1 / 1125899906842624 :=
  round_double_exact ((1 : ℚ) / 1125899906842624) (-50) 4503599627370496 (by norm_num)
    (by norm_num) (by norm_num) (by norm_num)

theorem round_double_one_sub_weight :
    round_double ((1125899906842623 : ℚ) / 1125899906842624)
      = 1125899906842623 / 1125899906842624 :=
  round_double_exact ((1125899906842623 : ℚ) / 1125899906842624) (-1) 9007199254740984
    (by norm_num) (by norm_num) (by norm_num) (by norm_num)

theorem round_double_lower_term :
    round_double ((7881299347898361 : ℚ) / 1125899906842624)
      = 7881299347898361 / 1125899906842624 :=
  round_double_exact ((7881299347898361 : ℚ) / 1125899906842624) 2 7881299347898361
    (by norm_num) (by norm_num) (by norm_num) (by norm_num)

theorem round_double_upper_term :
    round_double ((8 : ℚ) / 1125899906842624) = 8 / 1125899906842624 :=
  round_double_exact ((8 : ℚ) / 1125899906842624) (-47) 4503599627370496 (by norm_num)
    (by norm_num) (by norm_num) (by norm_num)

theorem round_double_result :
    round_double ((7881299347898369 : ℚ) / 1125899906842624)
      = 7881299347898369 / 1125899906842624 :=
  round_double_exact ((7881299347898369 : ℚ) / 1125899906842624) 2 7881299347898369
    (by norm_num) (by norm_num) (by norm_num) (by norm_num)

end RoundRat

end Statistics

/-! ## Lemmas on the checksum -/

namespace Ping

theorem fold16_eq (T : Nat) :
    fold16 T = ((T / 65536 + T % 65536) % 4294967296
      + (T / 65536 + T % 65536) % 4294967296 / 65536) % 4294967296 := by
  have h : T &&& 0xFFFF = T % 65536 := Nat.and_pow_two_sub_one_eq_mod T 16
  simp only [fold16, Nat.shiftRight_eq_div_pow, h]
  norm_num

theorem fold16_split (q r : Nat) (hq : q < 65536) (hr : r < 65536) :
    fold16 (65536 * q + r) = q + r + (q + r) / 65536 := by
  rw [fold16_eq]
  have h1 : (65536 * q + r) / 65536 = q := by omega
  have h2 : (65536 * q + r) % 65536 = r := by omega
  rw [h1, h2]
  omega

/-- Adding the complement of the folded sum to a 32-bit accumulator value does
not overflow, and the result folds to all-ones in its low 16 bits. -/
theorem fold16_complement (T : Nat) (hT : T < 4294967296) :
    T + (4294967295 - fold16 T) % 65536 < 4294967296 ∧
    fold16 (T + (4294967295 - fold16 T) % 65536) % 65536 = 65535 ∧
    (4294967295 - fold16 (T + (4294967295 - fold16 T) % 65536)) % 65536 = 0 := by
  obtain ⟨q, r, rfl, hq, hr⟩ : ∃ q r, T = 65536 * q + r ∧ q < 65536 ∧ r < 65536 :=
    ⟨T / 65536, T % 65536, by omega, by omega, by omega⟩
  rw [fold16_split q r hq hr]
  by_cases hs : q + r < 65536
  · have hc : (4294967295 - (q + r + (q + r) / 65536)) % 65536 = 65535 - (q + r) := by omega
    have hT2 : 65536 * q + r + (65535 - (q + r)) = 65536 * q + (65535 - q) := by omega
    rw [hc, hT2, fold16_split q (65535 - q) hq (by omega)]
    omega
  · have hc : (4294967295 - (q + r + (q + r) / 65536)) % 65536 = 131070 - (q + r) := by omega
    by_cases hq2 : q = 65535
    · subst hq2
      have hT2 : 65536 * 65535 + r + (131070 - (65535 + r)) = 65536 * 65535 + 65535 := by omega
      rw [hc, hT2, fold16_split 65535 65535 (by omega) (by omega)]
      omega
    · have hT2 : 65536 * q + r + (131070 - (q + r)) = 65536 * (q + 1) + (65534 - q) := by
        omega
      rw [hc, hT2, fold16_split (q + 1) (65534 - q) (by omega) (by omega)]
      omega

/-- A 32-bit value whose folded sum is all-ones is a non-zero multiple of 65535. -/
theorem fold16_all_ones (S : Nat) (hS : S < 4294967296) (h : fold16 S % 65536 = 65535) :
    S % 65535 = 0 ∧ S ≠ 0 := by
  obtain ⟨q, r, rfl, hq, hr⟩ : ∃ q r, S = 65536 * q + r ∧ q < 65536 ∧ r < 65536 :=
    ⟨S / 65536, S % 65536, by omega, by omega, by omega⟩
  rw [fold16_split q r hq hr] at h
  by_cases hs : q + r < 65536
  · have h1 : 65536 * q + r = 65535 * (q + 1) := by omega
    rw [h1, Nat.mul_mod_right]
    omega
  · have h1 : 65536 * q + r = 65535 * (q + 2) := by omega
    rw [h1, Nat.mul_mod_right]
    omega

/-- The accumulator after the loop is the sum of the words modulo `2^32`. -/
theorem accumulate_eq (be : Bool) :
    ∀ (data : List Nat) (acc : Nat), acc < 4294967296 →
      accumulate be acc data = (acc + (words be data).sum) % 4294967296
  | [], acc, h => by simp [accumulate, words, Nat.mod_eq_of_lt h]
  | [b], acc, _ => by simp [accumulate, words]
  | b0 :: b1 :: rest, acc, _ => by
    rw [accumulate, words, List.sum_cons]
    have h2 : (acc + word16 be b0 b1) % 2 ^ 32 < 4294967296 := Nat.mod_lt _ (by norm_num)
    rw [accumulate_eq be rest _ h2]
    norm_num
    omega

theorem word16_bytes (be : Bool) (v : Nat) (hv : v < 65536) :
    (if be then word16 be (v / 256 % 256) (v % 256) else word16 be (v % 256) (v / 256 % 256))
      = v := by
  cases be <;> simp [word16] <;> omega

theorem store16_zero_off (be : Bool) (b0 b1 : Nat) (rest : List Nat) (v : Nat) :
    store16 be (b0 :: b1 :: rest) 0 v
      = if be then (v / 256 % 256) :: (v % 256) :: rest
        else (v % 256) :: (v / 256 % 256) :: rest := by
  cases be <;> simp [store16]

theorem store16_succ_off (be : Bool) (b0 b1 : Nat) (rest : List Nat) (k v : Nat) :
    store16 be (b0 :: b1 :: rest) (2 * (k + 1)) v = b0 :: b1 :: store16 be rest (2 * k) v := by
  have h : 2 * (k + 1) = 2 * k + 1 + 1 := by ring
  cases be <;> simp [store16, h]

/-- Storing `v` in the field of a buffer adds `v` to the word sum of the buffer
with the field zeroed. -/
theorem words_sum_store16 (be : Bool) (v : Nat) (hv : v < 65536) :
    ∀ (k : Nat) (pkt : List Nat), 2 * k + 1 < pkt.length →
      (words be (store16 be pkt (2 * k) v)).sum
        = (words be (store16 be pkt (2 * k) 0)).sum + v
  | _, [], h => by simp at h
  | _, [_], h => by simp at h
  | 0, b0 :: b1 :: rest, _ => by
    rw [Nat.mul_zero, store16_zero_off, store16_zero_off]
    cases be <;> simp [words, word16] <;> omega
  | k + 1, b0 :: b1 :: rest, h => by
    rw [store16_succ_off, store16_succ_off, words, words, List.sum_cons, List.sum_cons,
      words_sum_store16 be v hv k rest (by simp at h; omega)]
    omega

theorem store16_store16 (be : Bool) (v : Nat) :
    ∀ (k : Nat) (pkt : List Nat), 2 * k + 1 < pkt.length →
      store16 be (store16 be pkt (2 * k) 0) (2 * k) v = store16 be pkt (2 * k) v
  | _, [], h => by simp at h
  | _, [_], h => by simp at h
  | 0, b0 :: b1 :: rest, _ => by
    rw [Nat.mul_zero, store16_zero_off, store16_zero_off]
    cases be <;> simp [store16]
  | k + 1, b0 :: b1 :: rest, h => by
    rw [store16_succ_off, store16_succ_off, store16_succ_off,
      store16_store16 be v k rest (by simp at h; omega)]

theorem checksum_lt (be : Bool) (data : List Nat) : checksum be data < 65536 := by
  unfold checksum
  exact Nat.mod_lt _ (by norm_num)

theorem accumulate_lt (be : Bool) (data : List Nat) : accumulate be 0 data < 4294967296 := by
  rw [accumulate_eq be data 0 (by norm_num)]
  exact Nat.mod_lt _ (by norm_num)

/-- The accumulator value for a buffer with the checksum inserted. -/
theorem accumulate_insert (be : Bool) (k : Nat) (pkt : List Nat) (h : 2 * k + 1 < pkt.length) :
    accumulate be 0 (insert_checksum be pkt (2 * k))
      = accumulate be 0 (store16 be pkt (2 * k) 0)
        + (4294967295 - fold16 (accumulate be 0 (store16 be pkt (2 * k) 0))) % 65536 := by
  have hc := checksum_lt be (store16 be pkt (2 * k) 0)
  have hT := accumulate_lt be (store16 be pkt (2 * k) 0)
  have hno := (fold16_complement _ hT).1
  have hck : checksum be (store16 be pkt (2 * k) 0)
      = (4294967295 - fold16 (accumulate be 0 (store16 be pkt (2 * k) 0))) % 65536 := by
    simp [checksum, folded_sum]
  unfold insert_checksum
  simp only []
  rw [store16_store16 be _ k pkt h, accumulate_eq be _ 0 (by norm_num),
    words_sum_store16 be _ hc k pkt h, hck]
  rw [accumulate_eq be _ 0 (by norm_num)] at hno ⊢
  omega

theorem ones_foldl (ws : List Nat) :
    ∀ a, a ≤ 65535 → (∀ w ∈ ws, w ≤ 65535) →
      ws.foldl ones_add a ≤ 65535 ∧
      (ws.foldl ones_add a) % 65535 = (a + ws.sum) % 65535 ∧
      (ws.foldl ones_add a = 0 ↔ a + ws.sum = 0) := by
  induction ws with
  | nil => intro a ha _; simp [ha]
  | cons w ws ih =>
    intro a ha hws
    have hw : w ≤ 65535 := hws w (List.mem_cons_self _ _)
    have h1 : ones_add a w ≤ 65535 := by unfold ones_add; split_ifs <;> omega
    have h2 : ones_add a w = a + w ∨ (ones_add a w = a + w - 65535 ∧ 65535 < a + w) := by
      unfold ones_add; split_ifs <;> omega
    obtain ⟨i1, i2, i3⟩ := ih (ones_add a w) h1 (fun x hx => hws x (List.mem_cons_of_mem _ hx))
    simp only [List.foldl_cons, List.sum_cons]
    refine ⟨i1, ?_, ?_⟩
    · rw [i2]; omega
    · rw [i3]; omega

theorem words_sum_le (be : Bool) :
    ∀ data : List Nat, (∀ b ∈ data, b < 256) →
      (∀ w ∈ words be data, w ≤ 65535) ∧ (words be data).sum ≤ 65535 * ((data.length + 1) / 2)
  | [], _ => by simp [words]
  | [b], h => by
    have hb : b < 256 := h b (by simp)
    simp [words]; omega
  | b0 :: b1 :: rest, h => by
    have h0 : b0 < 256 := h b0 (by simp)
    have h1 : b1 < 256 := h b1 (by simp)
    obtain ⟨i1, i2⟩ := words_sum_le be rest (fun b hb => h b (by simp [hb]))
    have hw : word16 be b0 b1 ≤ 65535 := by cases be <;> simp [word16] <;> omega
    refine ⟨?_, ?_⟩
    · intro w hw2
      simp only [words, List.mem_cons] at hw2
      rcases hw2 with rfl | hw2
      · exact hw
      · exact i1 w hw2
    · simp only [words, List.sum_cons, List.length_cons]
      omega

theorem store16_bytes (be : Bool) (pkt : List Nat) (off v : Nat) (h : ∀ b ∈ pkt, b < 256) :
    ∀ b ∈ store16 be pkt off v, b < 256 := by
  intro b hb
  unfold store16 at hb
  cases be
  · simp only [Bool.false_eq_true, if_false] at hb
    rcases List.mem_or_eq_of_mem_set hb with hb | rfl
    · rcases List.mem_or_eq_of_mem_set hb with hb | rfl
      · exact h b hb
      · omega
    · omega
  · simp only [if_true] at hb
    rcases List.mem_or_eq_of_mem_set hb with hb | rfl
    · rcases List.mem_or_eq_of_mem_set hb with hb | rfl
      · exact h b hb
      · omega
    · omega

theorem store16_length (be : Bool) (pkt : List Nat) (off v : Nat) :
    (store16 be pkt off v).length = pkt.length := by
  cases be <;> simp [store16]

theorem invalid_ne_recvfrom (e : String) : "Invalid ICMP reply" ≠ "Recvfrom failed: " ++ e := by
  intro h
  have h2 := congrArg String.data h
  rw [String.data_append] at h2
  have h3 := congrArg List.head? h2
  simp at h3

theorem send_ping_recv_failed {K : Type} (pid seq : Nat) (y : Exchange K) (hs : 0 ≤ y.sent)
    (hr : y.received < 0) :
    send_ping pid seq y = Except.error ("Recvfrom failed: " ++ y.recv_strerror) := by
  simp [send_ping, Socket_sendto, Socket_recvfrom, not_lt.mpr hs, hr]

theorem send_ping_received {K : Type} (pid seq : Nat) (x : Exchange K) (hs : 0 ≤ x.sent)
    (hr : 0 ≤ x.received) :
    send_ping pid seq x =
      if x.reply.type ≠ ICMP_ECHOREPLY ∨ x.reply.id ≠ pid ∨ x.reply.sequence ≠ seq % 2 ^ 16 then
        Except.error "Invalid ICMP reply"
      else Except.ok x.rtt := by
  simp [send_ping, Socket_sendto, Socket_recvfrom, not_lt.mpr hs, not_lt.mpr hr]

/-- The bytes of the request of `send_ping` are the bytes of the packet with a
zero checksum field, with the checksum inserted at byte offset 2. -/
theorem echo_request_bytes (be : Bool) (pid seq : Nat) :
    (echo_request be pid seq).bytes be
      = insert_checksum be ((echo_request_zeroed pid seq).bytes be) (2 * 1) := by
  cases be <;>
    simp [echo_request, echo_request_zeroed, insert_checksum, store16, ICMPPacket.bytes, bytes16]

/-- The request `send_ping` sends carries a checksum that verifies. -/
theorem echo_request_checksum (be : Bool) (pid seq : Nat) :
    checksum be ((echo_request be pid seq).bytes be) = 0 := by
  rw [echo_request_bytes]
  have hoff : 2 * 1 + 1 < ((echo_request_zeroed pid seq).bytes be).length := by
    cases be <;> simp [echo_request_zeroed, ICMPPacket.bytes, bytes16]
  have hT := accumulate_lt be (store16 be ((echo_request_zeroed pid seq).bytes be) (2 * 1) 0)
  unfold checksum folded_sum
  rw [accumulate_insert be 1 _ hoff]
  exact (fold16_complement _ hT).2.2

theorem ping_loop_succ {K : Type} [LinearOrderedField K] (be : Bool) (pid : Nat)
    (exchange : Nat → Exchange K) (n : Nat) :
    ping_loop be pid exchange (n + 1)
      = ping_step be pid exchange (ping_loop be pid exchange n) n := by
  simp [ping_loop, List.range_succ, List.foldl_append]

/-- The invariant of the loop of `ping`. -/
theorem ping_loop_inv {K : Type} [LinearOrderedField K] (be : Bool) (pid : Nat)
    (exchange : Nat → Exchange K) (n : Nat) :
    (ping_loop be pid exchange n).transmitted = n ∧
    (ping_loop be pid exchange n).requests
      = (List.range n).map (fun i => echo_request be pid (i + 1)) ∧
    (ping_loop be pid exchange n).stats.values_
      = (List.range n).filterMap (fun i => rtt_of (send_ping pid (i + 1) (exchange i))) ∧
    (ping_loop be pid exchange n).received
      = (ping_loop be pid exchange n).stats.values_.length := by
  induction n with
  | zero => simp [ping_loop, ping_init, Statistics.fresh]
  | succ n ih =>
    obtain ⟨h1, h2, h3, h4⟩ := ih
    rw [ping_loop_succ]
    cases hs : send_ping pid (n + 1) (exchange n) with
    | error e =>
      simp only [ping_step, hs, h1, h2, h3, h4, List.range_succ, List.map_append, List.map_cons,
        List.map_nil, List.filterMap_append, List.filterMap_cons, List.filterMap_nil, rtt_of,
        List.append_nil, and_self]
    | ok rtt =>
      simp only [ping_step, hs, h1, h2, h3, h4, List.range_succ, List.map_append, List.map_cons,
        List.map_nil, List.filterMap_append, List.filterMap_cons, List.filterMap_nil, rtt_of,
        Statistics.add, List.length_append, List.length_cons, List.length_nil, and_self]

/-- The request of probe `i` (counted from 0) carries the sequence number
`(i + 1) mod 2^16`. -/
theorem ping_loop_sequence {K : Type} [LinearOrderedField K] (be : Bool) (pid : Nat)
    (exchange : Nat → Exchange K) (count i : Nat) (hi : i < count) :
    ((ping_loop be pid exchange count).requests[i]?).map ICMPPacket.sequence
      = some ((i + 1) % 2 ^ 16) := by
  rw [(ping_loop_inv be pid exchange count).2.1, List.getElem?_map,
    List.getElem?_range hi]
  rfl

/-- For a process identifier that fits 16 bits, a reply of type echo-reply
that carries the identifier and the sequence number of the request is
accepted. -/
theorem send_ping_accepts {K : Type} (be : Bool) (pid seq : Nat) (x : Exchange K)
    (hpid : pid < 2 ^ 16) (hs : 0 ≤ x.sent) (hr : 0 ≤ x.received)
    (ht : x.reply.type = ICMP_ECHOREPLY) (hid : x.reply.id = (echo_request be pid seq).id)
    (hseq : x.reply.sequence = (echo_request be pid seq).sequence) :
    send_ping pid seq x = Except.ok x.rtt := by
  rw [send_ping_received pid seq x hs hr]
  simp only [echo_request, echo_request_zeroed] at hid hseq
  rw [Nat.mod_eq_of_lt hpid] at hid
  rw [if_neg]
  simp [ht, hid, hseq]

theorem length_filterMap_isSome {α β : Type} (f : α → Option β) (l : List α) :
    (l.filterMap f).length = (l.filter (fun a => (f a).isSome)).length := by
  induction l with
  | nil => rfl
  | cons a rest ih =>
    cases h : f a with
    | none => simp [List.filterMap_cons, List.filter_cons, h, ih]
    | some b => simp [List.filterMap_cons, List.filter_cons, h, ih]

end Ping

/-! ## Lemmas on the port-scan dispatch -/

namespace Scan

/-- Replacing one entry of a list changes a sum over the list by the difference
of the two summands. -/
theorem sum_map_set {M : Type} [AddCommMonoid M] (f : Worker → M) :
    ∀ (l : List Worker) (w : Nat) (a b : Worker), l[w]? = some a →
      ((l.set w b).map f).sum + f a = (l.map f).sum + f b
  | [], w, a, b, h => by simp at h
  | x :: xs, 0, a, b, h => by
    simp only [List.getElem?_cons_zero, Option.some.injEq] at h
    subst h
    simp only [List.set_cons_zero, List.map_cons, List.sum_cons]
    abel
  | x :: xs, w + 1, a, b, h => by
    simp only [List.getElem?_cons_succ] at h
    have ih := sum_map_set f xs w a b h
    simp only [List.set_cons_succ, List.map_cons, List.sum_cons]
    rw [add_assoc, ih, add_assoc]

theorem stopped_count_set (l : List Worker) (w : Nat) (a b : Worker) (h : l[w]? = some a) :
    stopped_count (l.set w b) + (if a = Worker.stopped then 1 else 0)
      = stopped_count l + (if b = Worker.stopped then 1 else 0) :=
  sum_map_set (fun x => if x = Worker.stopped then 1 else 0) l w a b h

theorem pending_set (ports : List Nat) (scan_port : Nat → Bool) (l : List Worker) (w : Nat)
    (a b : Worker) (h : l[w]? = some a) :
    pending ports scan_port (l.set w b) + (pending_of ports scan_port a : Multiset Nat)
      = pending ports scan_port l + (pending_of ports scan_port b : Multiset Nat) :=
  sum_map_set (fun x => (pending_of ports scan_port x : Multiset Nat)) l w a b h

theorem stopped_count_le (l : List Worker) : stopped_count l ≤ l.length := by
  induction l with
  | nil => simp [stopped_count]
  | cons x xs ih =>
    simp only [stopped_count, List.map_cons, List.sum_cons, List.length_cons] at ih ⊢
    split_ifs <;> omega

theorem run_snoc (ports : List Nat) (scan_port : Nat → Bool) (K : Nat) (sched : List Nat)
    (w : Nat) :
    run ports scan_port K (sched ++ [w]) = step ports scan_port (run ports scan_port K sched) w := by
  simp [run, List.foldl_append]

theorem inv_init (ports : List Nat) (scan_port : Nat → Bool) (K : Nat) :
    Inv ports scan_port K [] (init K) := by
  have hsc : ∀ n, stopped_count (List.replicate n Worker.fetching) = 0 := by
    intro n
    induction n with
    | zero => simp [stopped_count]
    | succ n ih => simp [stopped_count, List.replicate_succ]
  have hpe : ∀ n, pending ports scan_port (List.replicate n Worker.fetching) = 0 := by
    intro n
    induction n with
    | zero => simp [pending]
    | succ n ih => simp [pending, List.replicate_succ, pending_of]
  refine
    { len := by simp [init]
      idx := by simp [init]
      le := by simp [init]
      cursor := by simp [init, hsc]
      full := by simp [init, hsc]
      who := by simp [init]
      res := by simp [init, hpe]
      shape := by simp [init]
      fetch := by simp [init, claims_by]
      hold := ?_ }
  intro w i h
  simp only [init, List.getElem?_replicate] at h
  split_ifs at h
  simp at h

theorem count_snoc (sched : List Nat) (w v : Nat) :
    (sched ++ [w]).count v = sched.count v + (if w = v then 1 else 0) := by
  rw [List.count_append, List.count_singleton]
  simp

theorem claims_by_snoc (claims : List (Nat × Nat)) (w idx v : Nat) :
    claims_by v (claims ++ [(w, idx)]) = claims_by v claims + (if w = v then 1 else 0) := by
  unfold claims_by
  rw [List.countP_append]
  by_cases h : w = v <;> simp [List.countP_cons, h]

theorem claims_by_le (claims : List (Nat × Nat)) (v : Nat) :
    claims_by v claims ≤ claims.length :=
  List.countP_le_length _

/-- A step of a worker that does not exist or has stopped. -/
theorem inv_step_idle (ports : List Nat) (scan_port : Nat → Bool) (K : Nat) (sched : List Nat)
    (s : State) (w : Nat) (h : Inv ports scan_port K sched s)
    (hw : s.workers[w]? = none ∨ s.workers[w]? = some Worker.stopped) :
    Inv ports scan_port K (sched ++ [w]) (step ports scan_port s w) := by
  have hs : step ports scan_port s w = s := by
    rcases hw with hw | hw <;> simp [step, hw]
  rw [hs]
  refine { h with fetch := ?_, hold := ?_ }
  · intro v hv
    have hne : w ≠ v := by
      rintro rfl
      rcases hw with hw | hw <;> rw [hw] at hv <;> simp at hv
    rw [count_snoc, if_neg hne, Nat.add_zero]
    exact h.fetch v hv
  · intro v i hv
    have hne : w ≠ v := by
      rintro rfl
      rcases hw with hw | hw <;> rw [hw] at hv <;> simp at hv
    rw [count_snoc, if_neg hne, Nat.add_zero]
    exact h.hold v i hv

/-- A fetch that finds the cursor past the end: the worker stops. -/
theorem inv_step_stop (ports : List Nat) (scan_port : Nat → Bool) (K : Nat) (sched : List Nat)
    (s : State) (w : Nat) (hsz : ports.length + K < 2 ^ 64) (h : Inv ports scan_port K sched s)
    (hw : s.workers[w]? = some Worker.fetching) (hidx : s.next_port ≥ ports.length) :
    Inv ports scan_port K (sched ++ [w]) (step ports scan_port s w) := by
  have hsc := stopped_count_set s.workers w _ Worker.stopped hw
  have hpe := pending_set ports scan_port s.workers w _ Worker.stopped hw
  have hle := stopped_count_le (s.workers.set w Worker.stopped)
  rw [List.length_set, h.len] at hle
  simp only [reduceCtorEq, if_true, if_false, Nat.add_zero] at hsc
  simp only [pending_of, Multiset.coe_nil, add_zero] at hpe
  have hwl : w < s.workers.length := by
    rcases List.getElem?_eq_some_iff.mp hw with ⟨hlt, -⟩
    exact hlt
  have hcur := h.cursor
  have hfull := h.full
  have hlen := h.le
  have hmod : (s.next_port + 1) % 2 ^ 64 = s.next_port + 1 := by
    apply Nat.mod_eq_of_lt
    omega
  have hs : step ports scan_port s w
      = { s with next_port := s.next_port + 1, workers := s.workers.set w Worker.stopped } := by
    simp only [step, hw, hidx, if_true, hmod]
  rw [hs]
  refine
    { len := by simp [h.len]
      idx := h.idx
      le := h.le
      cursor := by simp only []; omega
      full := by
        intro _
        simp only []
        by_cases hp : 0 < stopped_count s.workers
        · exact hfull hp
        · omega
      who := h.who
      res := by simp only []; rw [hpe]; exact h.res
      shape := h.shape
      fetch := ?_
      hold := ?_ }
  · intro v hv
    simp only [List.getElem?_set] at hv
    by_cases hne : w = v
    · subst hne; simp [hwl] at hv
    · rw [if_neg hne] at hv
      rw [count_snoc, if_neg hne, Nat.add_zero]
      exact h.fetch v hv
  · intro v i hv
    simp only [List.getElem?_set] at hv
    by_cases hne : w = v
    · subst hne; simp [hwl] at hv
    · rw [if_neg hne] at hv
      rw [count_snoc, if_neg hne, Nat.add_zero]
      exact h.hold v i hv

/-- A fetch that claims an index. -/
theorem inv_step_claim (ports : List Nat) (scan_port : Nat → Bool) (K : Nat) (sched : List Nat)
    (s : State) (w : Nat) (hsz : ports.length + K < 2 ^ 64) (h : Inv ports scan_port K sched s)
    (hw : s.workers[w]? = some Worker.fetching) (hidx : ¬ s.next_port ≥ ports.length) :
    Inv ports scan_port K (sched ++ [w]) (step ports scan_port s w) := by
  have hsc := stopped_count_set s.workers w _ (Worker.holding s.next_port) hw
  have hpe := pending_set ports scan_port s.workers w _ (Worker.holding s.next_port) hw
  simp only [reduceCtorEq, if_false, Nat.add_zero] at hsc
  simp only [pending_of, Multiset.coe_nil, add_zero] at hpe
  have hwl : w < s.workers.length := by
    rcases List.getElem?_eq_some_iff.mp hw with ⟨hlt, -⟩
    exact hlt
  have hcur := h.cursor
  have hfull := h.full
  have hlen := h.le
  have hwK := h.len
  have hsc0 : stopped_count s.workers = 0 := by
    by_cases hp : 0 < stopped_count s.workers
    · have := hfull hp
      omega
    · omega
  have hnp : s.next_port = s.claims.length := by omega
  have hmod : (s.next_port + 1) % 2 ^ 64 = s.next_port + 1 := by
    apply Nat.mod_eq_of_lt
    omega
  have hs : step ports scan_port s w
      = { s with next_port := s.next_port + 1,
                 workers := s.workers.set w (Worker.holding s.next_port),
                 claims := s.claims ++ [(w, s.next_port)] } := by
    simp only [step, hw, hidx, if_false, hmod]
  have hlt : s.claims.length < ports.length := by omega
  have htake : (ports.take (s.claims.length + 1)).filter scan_port
      = (ports.take s.claims.length).filter scan_port
        ++ (if scan_port (ports.getD s.claims.length 0) then [ports.getD s.claims.length 0]
            else []) := by
    rw [List.take_succ, List.getElem?_eq_getElem hlt, List.getD_eq_getElem _ _ hlt,
      List.filter_append]
    by_cases hp : scan_port ports[s.claims.length] = true <;> simp [hp]
  rw [hs]
  refine
    { len := by simp [h.len]
      idx := by
        simp only [List.map_append, List.map_cons, List.map_nil, List.length_append,
          List.length_cons, List.length_nil, h.idx, hnp]
        rw [List.range_succ]
      le := by simp only [List.length_append, List.length_cons, List.length_nil]; omega
      cursor := by
        simp only [List.length_append, List.length_cons, List.length_nil]; omega
      full := by
        intro hp
        simp only [] at hp
        omega
      who := by
        intro c hc
        simp only [List.mem_append, List.mem_singleton] at hc
        rcases hc with hc | rfl
        · exact h.who c hc
        · simp only []; omega
      res := by
        simp only [List.length_append, List.length_cons, List.length_nil]
        rw [Nat.zero_add, htake, ← Multiset.coe_add, ← h.res, hpe, hnp, add_assoc]
      shape := h.shape
      fetch := ?_
      hold := ?_ }
  · intro v hv
    simp only [List.getElem?_set] at hv
    by_cases hne : w = v
    · subst hne; simp [hwl] at hv
    · rw [if_neg hne] at hv
      rw [count_snoc, claims_by_snoc, if_neg hne, Nat.add_zero, Nat.add_zero]
      exact h.fetch v hv
  · intro v i hv
    simp only [List.getElem?_set] at hv
    by_cases hne : w = v
    · subst hne
      have := h.fetch w hw
      rw [count_snoc, claims_by_snoc, if_pos rfl]
      omega
    · rw [if_neg hne] at hv
      rw [count_snoc, claims_by_snoc, if_neg hne, Nat.add_zero, Nat.add_zero]
      exact h.hold v i hv

/-- The step that records the probe outcome of a claimed index. -/
theorem inv_step_record (ports : List Nat) (scan_port : Nat → Bool) (K : Nat) (sched : List Nat)
    (s : State) (w i : Nat) (h : Inv ports scan_port K sched s)
    (hw : s.workers[w]? = some (Worker.holding i)) :
    Inv ports scan_port K (sched ++ [w]) (step ports scan_port s w) := by
  have hsc := stopped_count_set s.workers w _ Worker.fetching hw
  have hpe := pending_set ports scan_port s.workers w _ Worker.fetching hw
  simp only [reduceCtorEq, if_false, Nat.add_zero] at hsc
  simp only [pending_of, Multiset.coe_nil, add_zero] at hpe
  have hwl : w < s.workers.length := by
    rcases List.getElem?_eq_some_iff.mp hw with ⟨hlt, -⟩
    exact hlt
  have hs : step ports scan_port s w
      = { s with workers := s.workers.set w Worker.fetching,
                 results := if scan_port (ports.getD i 0) then
                     s.results ++ [⟨ports.getD i 0, true, get_service_name (ports.getD i 0)⟩]
                   else s.results } := by
    simp only [step, hw]
  have hmap : (((if scan_port (ports.getD i 0) then
        s.results ++ [⟨ports.getD i 0, true, get_service_name (ports.getD i 0)⟩]
      else s.results).map ScanResult.port : List Nat) : Multiset Nat)
      = ((s.results.map ScanResult.port : List Nat) : Multiset Nat)
        + (((if scan_port (ports.getD i 0) then [ports.getD i 0] else []) : List Nat) :
            Multiset Nat) := by
    generalize ports.getD i 0 = p
    by_cases hp : scan_port p = true
    · rw [if_pos hp, if_pos hp, List.map_append, Multiset.coe_add]
      rfl
    · rw [if_neg hp, if_neg hp]
      simp
  rw [hs]
  refine
    { len := by simp [h.len]
      idx := h.idx
      le := h.le
      cursor := by simp only []; rw [hsc]; exact h.cursor
      full := by simp only []; rw [hsc]; exact h.full
      who := h.who
      res := by
        simp only []
        rw [hmap, add_assoc, add_comm _ (pending ports scan_port _), hpe]
        exact h.res
      shape := by
        intro r hr
        simp only [] at hr
        split_ifs at hr
        · simp only [List.mem_append, List.mem_singleton] at hr
          rcases hr with hr | rfl
          · exact h.shape r hr
          · exact ⟨rfl, rfl⟩
        · exact h.shape r hr
      fetch := ?_
      hold := ?_ }
  · intro v hv
    simp only [List.getElem?_set] at hv
    by_cases hne : w = v
    · subst hne
      have := h.hold w i hw
      rw [count_snoc, if_pos rfl]
      show _ = 2 * claims_by w s.claims
      omega
    · rw [if_neg hne] at hv
      rw [count_snoc, if_neg hne, Nat.add_zero]
      exact h.fetch v hv
  · intro v j hv
    simp only [List.getElem?_set] at hv
    by_cases hne : w = v
    · subst hne; simp [hwl] at hv
    · rw [if_neg hne] at hv
      rw [count_snoc, if_neg hne, Nat.add_zero]
      exact h.hold v j hv

/-- The invariant holds after every schedule. -/
theorem inv_run (ports : List Nat) (scan_port : Nat → Bool) (K : Nat)
    (hsz : ports.length + K < 2 ^ 64) (sched : List Nat) :
    Inv ports scan_port K sched (run ports scan_port K sched) := by
  induction sched using List.reverseRecOn with
  | nil => exact inv_init ports scan_port K
  | append_singleton sched w ih =>
    rw [run_snoc]
    cases hw : (run ports scan_port K sched).workers[w]? with
    | none => exact inv_step_idle ports scan_port K sched _ w ih (Or.inl hw)
    | some x =>
      cases x with
      | fetching =>
        by_cases hidx : (run ports scan_port K sched).next_port ≥ ports.length
        · exact inv_step_stop ports scan_port K sched _ w hsz ih hw hidx
        · exact inv_step_claim ports scan_port K sched _ w hsz ih hw hidx
      | holding i => exact inv_step_record ports scan_port K sched _ w i ih hw
      | stopped => exact inv_step_idle ports scan_port K sched _ w ih (Or.inr hw)

theorem joined_iff (s : State) : joined s = true ↔ ∀ x ∈ s.workers, x = Worker.stopped := by
  simp [joined, List.all_eq_true]

theorem stopped_count_all (ws : List Worker) (h : ∀ x ∈ ws, x = Worker.stopped) :
    stopped_count ws = ws.length := by
  induction ws with
  | nil => simp [stopped_count]
  | cons x xs ih =>
    have hx : x = Worker.stopped := h x (List.mem_cons_self _ _)
    have ih2 := ih (fun y hy => h y (List.mem_cons_of_mem _ hy))
    simp only [stopped_count, List.map_cons, List.sum_cons, List.length_cons, hx, if_true] at ih2 ⊢
    omega

theorem pending_all (ports : List Nat) (scan_port : Nat → Bool) (ws : List Worker)
    (h : ∀ x ∈ ws, x = Worker.stopped) : pending ports scan_port ws = 0 := by
  induction ws with
  | nil => simp [pending]
  | cons x xs ih =>
    have hx : x = Worker.stopped := h x (List.mem_cons_self _ _)
    have ih2 := ih (fun y hy => h y (List.mem_cons_of_mem _ hy))
    simp only [pending, List.map_cons, List.sum_cons, hx, pending_of, Multiset.coe_nil,
      zero_add] at ih2 ⊢
    exact ih2

/-- Once every worker has stopped, every index has been claimed. -/
theorem claims_length_of_joined (ports : List Nat) (scan_port : Nat → Bool) (K : Nat)
    (sched : List Nat) (s : State) (hK : 1 ≤ K) (h : Inv ports scan_port K sched s)
    (hj : joined s = true) : s.claims.length = ports.length := by
  have hall := (joined_iff s).mp hj
  have hc := stopped_count_all s.workers hall
  have hlen := h.len
  exact h.full (by omega)

/-- A worker scheduled more than `2 * N` times has stopped. -/
theorem joined_of_fair (ports : List Nat) (scan_port : Nat → Bool) (K : Nat)
    (sched : List Nat) (s : State) (h : Inv ports scan_port K sched s)
    (hfair : ∀ w < K, 2 * ports.length < sched.count w) : joined s = true := by
  rw [joined_iff]
  intro x hx
  obtain ⟨w, hw⟩ := List.getElem?_of_mem hx
  have hwK : w < K := by
    rcases List.getElem?_eq_some_iff.mp hw with ⟨hlt, -⟩
    rw [h.len] at hlt
    exact hlt
  have hf := hfair w hwK
  have hcb := claims_by_le s.claims w
  have hle := h.le
  cases x with
  | fetching =>
    have := h.fetch w hw
    omega
  | holding i =>
    have := h.hold w i hw
    omega
  | stopped => rfl

theorem filter_snd_singleton (l : List (Nat × Nat)) (hnd : (l.map Prod.snd).Nodup)
    (c : Nat × Nat) (hc : c ∈ l) : l.filter (fun x => x.2 == c.2) = [c] := by
  induction l with
  | nil => simp at hc
  | cons x xs ih =>
    rw [List.map_cons, List.nodup_cons] at hnd
    obtain ⟨hx, hxs⟩ := hnd
    rcases List.mem_cons.mp hc with rfl | hc2
    · have hnil : xs.filter (fun y => y.2 == c.2) = [] := by
        rw [List.filter_eq_nil_iff]
        intro y hy hyc
        exact hx (List.mem_map.mpr ⟨y, hy, by simpa using hyc⟩)
      simp [List.filter_cons, hnil]
    · have hne : ¬ x.2 = c.2 := by
        intro he
        exact hx (List.mem_map.mpr ⟨c, hc2, he.symm⟩)
      simp [List.filter_cons, hne, ih hxs hc2]

/-- In a claim list whose indices are `0 .. N-1`, every index below `N` occurs
in exactly one claim. -/
theorem exactly_once (claims : List (Nat × Nat)) (N : Nat)
    (h : claims.map Prod.snd = List.range N) (i : Nat) (hi : i < N) :
    ∃ w, claims.filter (fun c => c.2 == i) = [(w, i)] := by
  have hnd : (claims.map Prod.snd).Nodup := by rw [h]; exact List.nodup_range N
  have hmem : i ∈ claims.map Prod.snd := by rw [h]; exact List.mem_range.mpr hi
  obtain ⟨c, hc, hci⟩ := List.mem_map.mp hmem
  obtain ⟨w, j⟩ := c
  simp only at hci
  subst hci
  exact ⟨w, filter_snd_singleton claims hnd (w, j) hc⟩

theorem map_port_sort_results (rs : List ScanResult) :
    (sort_results rs).map ScanResult.port = (rs.map ScanResult.port).insertionSort (· ≤ ·) := by
  unfold sort_results
  exact List.map_insertionSort _ _ _ _ (fun a _ b _ => Iff.rfl)

/-! ### Lemmas on the port specification -/

theorem find_from_skip (c : Char) (pre rest : List Char) (h : ∀ x ∈ pre, x ≠ c) (i : Nat) :
    find_from c (pre ++ c :: rest) i = some (i + pre.length) := by
  induction pre generalizing i with
  | nil => simp [find_from]
  | cons x xs ih =>
    have hx : x ≠ c := h x (List.mem_cons_self _ _)
    rw [List.cons_append, find_from, if_neg hx, ih (fun y hy => h y (List.mem_cons_of_mem _ hy))]
    simp only [List.length_cons]
    congr 1
    omega

theorem find_from_none (c : Char) (s : List Char) (h : ∀ x ∈ s, x ≠ c) (i : Nat) :
    find_from c s i = none := by
  induction s generalizing i with
  | nil => rfl
  | cons x xs ih =>
    rw [find_from, if_neg (h x (List.mem_cons_self _ _))]
    exact ih (fun y hy => h y (List.mem_cons_of_mem _ hy)) (i + 1)

theorem digit_ne_dash (c : Char) (h : c.isDigit = true) : c ≠ '-' := by
  rintro rfl
  exact absurd h (by decide)

theorem digit_ne_comma (c : Char) (h : c.isDigit = true) : c ≠ ',' := by
  rintro rfl
  exact absurd h (by decide)

theorem digit_ne_plus (c : Char) (h : c.isDigit = true) : c ≠ '+' := by
  rintro rfl
  exact absurd h (by decide)

theorem digit_not_space (c : Char) (h : c.isDigit = true) : isspace c = false := by
  have h2 : 48 ≤ c.toNat ∧ c.toNat ≤ 57 := by
    simp only [Char.isDigit, Bool.and_eq_true, decide_eq_true_eq] at h
    have h1 : (48 : UInt32) ≤ c.val := h.1
    have h3 : c.val ≤ (57 : UInt32) := h.2
    exact ⟨h1, h3⟩
  simp only [isspace, Bool.or_eq_false_iff, Bool.and_eq_false_iff, beq_eq_false_iff_ne,
    decide_eq_false_iff_not]
  omega

theorem digits_value_append (l1 l2 : List Char) :
    digits_value (l1 ++ l2) = digits_value l1 * 10 ^ l2.length + digits_value l2 := by
  induction l2 using List.reverseRecOn with
  | nil => simp [digits_value]
  | append_singleton l2 d ih =>
    have h1 : digits_value (l1 ++ (l2 ++ [d])) = digits_value (l1 ++ l2) * 10 + digit_value d := by
      rw [← List.append_assoc]
      simp [digits_value, List.foldl_append]
    have h2 : digits_value (l2 ++ [d]) = digits_value l2 * 10 + digit_value d := by
      simp [digits_value, List.foldl_append]
    rw [h1, h2, ih, List.length_append, List.length_singleton, pow_succ]
    ring

/-- The accumulation of `strtol` yields the number the numeral denotes. -/
theorem digits_value_eq (ds : List Char) : digits_value ds = numeral_value ds := by
  induction ds using List.reverseRecOn with
  | nil => simp [digits_value, numeral_value]
  | append_singleton ds d ih =>
    have h2 : digits_value (ds ++ [d]) = digits_value ds * 10 + digit_value d := by
      simp [digits_value, List.foldl_append]
    rw [h2, ih]
    simp only [numeral_value, List.reverse_append, List.reverse_cons, List.reverse_nil,
      List.nil_append, List.singleton_append, List.map_cons, Nat.ofDigits_cons, digit_value]
    have : '0'.toNat = 48 := rfl
    rw [this]
    ring

/-- A numeral within the range of `int` is converted by `stoi` to its value. -/
theorem stoi_numeral (ds : List Char) (h : IsNumeral ds) (hv : numeral_value ds ≤ 2147483647) :
    stoi ds = some (numeral_value ds : Int) := by
  obtain ⟨hne, hdig⟩ := h
  cases ds with
  | nil => exact absurd rfl hne
  | cons d rest =>
    have hd : d.isDigit = true := hdig d (List.mem_cons_self _ _)
    have hsp : isspace d = false := digit_not_space d hd
    have h1 : (d :: rest).dropWhile isspace = d :: rest := by
      rw [List.dropWhile_cons, hsp]
      rfl
    have h2 : (d :: rest).takeWhile Char.isDigit = d :: rest :=
      List.takeWhile_eq_self_iff.mpr hdig
    have hdash : d ≠ '-' := digit_ne_dash d hd
    have hplus : d ≠ '+' := digit_ne_plus d hd
    have h3 : (match d :: rest with
        | '-' :: r => (true, r)
        | '+' :: r => (false, r)
        | _ => (false, d :: rest)) = (false, d :: rest) := by
      split
      · rename_i heq
        exact absurd (List.cons.inj heq).1 hdash
      · rename_i heq
        exact absurd (List.cons.inj heq).1 hplus
      · rfl
    unfold stoi
    simp only [h1, h3, h2, List.isEmpty_cons, Bool.false_eq_true, if_false, digits_value_eq]
    rw [if_neg]
    omega

theorem to_uint16_small (a : Nat) (h : a ≤ 65535) : to_uint16 (a : Int) = a := by
  unfold to_uint16
  omega

/-- The range loop with enough fuel appends every integer from the start to the end. -/
theorem range_loop_eq (b : Nat) (hb : b ≤ 65535) (n : Nat) :
    ∀ (fuel a : Nat) (ports : List Nat), a + n = b + 1 → n ≤ fuel →
      range_loop (b : Int) fuel (a : Int) ports = ports ++ List.range' a n := by
  induction n with
  | zero =>
    intro fuel a ports ha _
    cases fuel with
    | zero => simp [range_loop]
    | succ f =>
      rw [range_loop, if_neg]
      · simp
      · omega
  | succ n ih =>
    intro fuel a ports ha hf
    cases fuel with
    | zero => omega
    | succ f =>
      rw [range_loop, if_pos (by omega), to_uint16_small a (by omega)]
      have hc : (a : Int) + 1 = ((a + 1 : Nat) : Int) := by push_cast; rfl
      rw [hc, ih f (a + 1) (ports ++ [a]) (by omega) (by omega)]
      simp [List.range'_succ]

theorem join_commas_cons2 (t t2 : List Char) (rest : List (List Char)) :
    join_commas (t :: t2 :: rest) = t ++ ',' :: join_commas (t2 :: rest) := rfl

theorem join_commas_no_dash (toks : List (List Char)) (h : ∀ t ∈ toks, IsNumeral t) :
    ∀ x ∈ join_commas toks, x ≠ '-' := by
  induction toks with
  | nil => intro x hx; simp [join_commas] at hx
  | cons t rest ih =>
    cases rest with
    | nil =>
      intro x hx
      exact digit_ne_dash x ((h t (List.mem_cons_self _ _)).2 x hx)
    | cons t2 rest2 =>
      intro x hx
      rw [join_commas_cons2, List.mem_append, List.mem_cons] at hx
      rcases hx with hx | hx | hx
      · exact digit_ne_dash x ((h t (List.mem_cons_self _ _)).2 x hx)
      · rw [hx]; decide
      · exact ih (fun u hu => h u (List.mem_cons_of_mem _ hu)) x hx

/-- The comma loop with enough fuel converts every token of a comma-separated list. -/
theorem list_loop_eq (toks : List (List Char))
    (h : ∀ t ∈ toks, IsNumeral t ∧ numeral_value t ≤ 65535) :
    ∀ (pre : List Char) (ports : List Nat) (fuel : Nat), (join_commas toks).length < fuel →
      list_loop (pre ++ join_commas toks) fuel pre.length ports =
        some (ports ++ toks.map numeral_value) := by
  induction toks with
  | nil =>
    intro pre ports fuel hf
    cases fuel with
    | zero => omega
    | succ f => simp [join_commas, list_loop]
  | cons t rest ih =>
    intro pre ports fuel hf
    obtain ⟨ht, htv⟩ := h t (List.mem_cons_self _ _)
    have hst : stoi t = some (numeral_value t : Int) := stoi_numeral t ht (by omega)
    have htl : 0 < t.length := List.length_pos.mpr ht.1
    have hcomma : ∀ x ∈ t, x ≠ ',' := fun x hx => digit_ne_comma x (ht.2 x hx)
    cases fuel with
    | zero => omega
    | succ f =>
      cases rest with
      | nil =>
        have hfind : find (pre ++ t) ',' pre.length = none := by
          unfold find
          rw [List.drop_left]
          exact find_from_none ',' t hcomma _
        have hsub : substr (pre ++ t) pre.length ((pre ++ t).length - pre.length) = t := by
          unfold substr
          rw [List.drop_left, List.length_append, Nat.add_sub_cancel_left, List.take_length]
        rw [show join_commas [t] = t from rfl, list_loop,
          if_pos (by rw [List.length_append]; omega)]
        simp only [hfind, Option.getD_none, hsub, hst, to_uint16_small _ htv]
        cases f with
        | zero => simp [list_loop]
        | succ g => simp [list_loop]
      | cons t2 rest2 =>
        have hfind : find (pre ++ (t ++ ',' :: join_commas (t2 :: rest2))) ',' pre.length =
            some (pre.length + t.length) := by
          unfold find
          rw [List.drop_left]
          exact find_from_skip ',' t _ hcomma _
        have hsub : substr (pre ++ (t ++ ',' :: join_commas (t2 :: rest2))) pre.length
            (pre.length + t.length - pre.length) = t := by
          unfold substr
          rw [List.drop_left, Nat.add_sub_cancel_left, List.take_left]
        rw [join_commas_cons2, list_loop, if_pos (by simp only [List.length_append]; omega)]
        simp only [hfind, Option.getD_some, hsub, hst, to_uint16_small _ htv]
        have hpre : pre ++ (t ++ ',' :: join_commas (t2 :: rest2)) =
            (pre ++ t ++ [',']) ++ join_commas (t2 :: rest2) := by simp
        have hlen : pre.length + t.length + 1 = (pre ++ t ++ [',']).length := by
          simp only [List.length_append, List.length_singleton]
        rw [hpre, hlen, ih (fun u hu => h u (List.mem_cons_of_mem _ hu)) _ _ f ?_]
        · simp
        · rw [join_commas_cons2] at hf
          simp only [List.length_append, List.length_cons] at hf
          omega

/-- A range specification of two numerals expands to every port between them. -/
theorem expand_ports_range (da db : List Char) (ha : IsNumeral da) (hb : IsNumeral db)
    (hab : numeral_value da ≤ numeral_value db) (hb2 : numeral_value db ≤ 65535) :
    expand_ports (da ++ '-' :: db) =
      some (List.range' (numeral_value da) (numeral_value db - numeral_value da + 1)) := by
  have hfind : find (da ++ '-' :: db) '-' 0 = some da.length := by
    unfold find
    rw [List.drop_zero, find_from_skip '-' da db (fun x hx => digit_ne_dash x (ha.2 x hx)) 0,
      Nat.zero_add]
  have hsub : substr (da ++ '-' :: db) 0 da.length = da := by
    unfold substr
    rw [List.drop_zero, List.take_left]
  have hdrop : (da ++ '-' :: db).drop (da.length + 1) = db := by
    have e : da ++ '-' :: db = (da ++ ['-']) ++ db := by simp
    have l : da.length + 1 = (da ++ ['-']).length := by
      simp only [List.length_append, List.length_singleton]
    rw [e, l, List.drop_left]
  have key := range_loop_eq (numeral_value db) hb2 (numeral_value db - numeral_value da + 1)
    (65536 - (numeral_value da : Int)).toNat (numeral_value da) [] (by omega) (by omega)
  unfold expand_ports
  simp only [hfind, hsub, hdrop, stoi_numeral da ha (by omega), stoi_numeral db hb (by omega), key,
    List.nil_append]

/-- A comma-separated list of numerals expands to exactly the listed ports, in order. -/
theorem expand_ports_list (toks : List (List Char)) (hne : toks ≠ [])
    (h : ∀ t ∈ toks, IsNumeral t ∧ numeral_value t ≤ 65535) :
    expand_ports (join_commas toks) = some (toks.map numeral_value) := by
  have hdash : find (join_commas toks) '-' 0 = none := by
    unfold find
    rw [List.drop_zero]
    exact find_from_none '-' _ (join_commas_no_dash toks (fun t ht => (h t ht).1)) 0
  cases toks with
  | nil => exact absurd rfl hne
  | cons t rest =>
    obtain ⟨ht, htv⟩ := h t (List.mem_cons_self _ _)
    have hcomma : ∀ x ∈ t, x ≠ ',' := fun x hx => digit_ne_comma x (ht.2 x hx)
    cases rest with
    | nil =>
      have hc : find (join_commas [t]) ',' 0 = none := by
        unfold find
        rw [List.drop_zero]
        exact find_from_none ',' t hcomma 0
      have hst : stoi (join_commas [t]) = some (numeral_value t : Int) :=
        stoi_numeral t ht (by omega)
      unfold expand_ports
      simp only [hdash, hc, hst, to_uint16_small _ htv, List.map_cons, List.map_nil]
    | cons t2 rest2 =>
      have hc : find (join_commas (t :: t2 :: rest2)) ',' 0 = some t.length := by
        unfold find
        rw [List.drop_zero, join_commas_cons2, find_from_skip ',' t _ hcomma 0, Nat.zero_add]
      have key := list_loop_eq (t :: t2 :: rest2) h [] []
        ((join_commas (t :: t2 :: rest2)).length + 1) (Nat.lt_succ_self _)
      simp only [List.nil_append, List.length_nil] at key
      unfold expand_ports
      simp only [hdash, hc, key]

theorem digitChar_spec :
    ∀ k, k < 10 → (Nat.digitChar k).isDigit = true ∧ digit_value (Nat.digitChar k) = k := by
  decide

theorem digits_value_cons (d : Char) (ds : List Char) :
    digits_value (d :: ds) = digit_value d * 10 ^ ds.length + digits_value ds := by
  have h := digits_value_append [d] ds
  simpa [digits_value] using h

theorem toDigitsCore_spec : ∀ (fuel n : Nat) (ds : List Char), n < fuel →
    (∀ c ∈ ds, c.isDigit = true) →
    (∀ c ∈ Nat.toDigitsCore 10 fuel n ds, c.isDigit = true) ∧
      Nat.toDigitsCore 10 fuel n ds ≠ [] ∧
      digits_value (Nat.toDigitsCore 10 fuel n ds) = n * 10 ^ ds.length + digits_value ds := by
  intro fuel
  induction fuel with
  | zero => intro n ds hn; omega
  | succ f ih =>
    intro n ds hn hds
    obtain ⟨hd1, hd2⟩ := digitChar_spec (n % 10) (Nat.mod_lt _ (by decide))
    have hcons : ∀ c ∈ Nat.digitChar (n % 10) :: ds, c.isDigit = true := by
      intro c hc
      rcases List.mem_cons.mp hc with hc | hc
      · rw [hc]; exact hd1
      · exact hds c hc
    rw [Nat.toDigitsCore]
    by_cases h0 : n / 10 = 0
    · simp only [h0, if_true]
      refine ⟨hcons, List.cons_ne_nil _ _, ?_⟩
      rw [digits_value_cons, hd2]
      have : n % 10 = n := by omega
      rw [this]
    · simp only [h0, if_false]
      obtain ⟨i1, i2, i3⟩ := ih (n / 10) (Nat.digitChar (n % 10) :: ds) (by omega) hcons
      refine ⟨i1, i2, ?_⟩
      rw [i3, digits_value_cons, hd2, List.length_cons, pow_succ]
      have hn10 : n = n / 10 * 10 + n % 10 := by omega
      nth_rewrite 3 [hn10]
      ring

/-- The decimal representation of a natural number is a numeral denoting that number. -/
theorem repr_numeral (n : Nat) :
    IsNumeral (Nat.repr n).toList ∧ numeral_value (Nat.repr n).toList = n := by
  obtain ⟨h1, h2, h3⟩ := toDigitsCore_spec (n + 1) n [] (Nat.lt_succ_self n)
    (fun c hc => absurd hc (List.not_mem_nil c))
  have e : (Nat.repr n).toList = Nat.toDigitsCore 10 (n + 1) n [] := rfl
  rw [e]
  refine ⟨⟨h2, h1⟩, ?_⟩
  rw [← digits_value_eq, h3]
  simp [digits_value]

end Scan

/-! ## Lemmas on hop discovery -/

namespace Trace

theorem probe_queries_succ {K : Type} (probe : Nat → Nat → Option (Nat × K)) (ttl n : Nat) :
    probe_queries probe ttl (n + 1)
      = match probe ttl n with
        | some (addr, rtt) => (some addr, (probe_queries probe ttl n).2 ++ [rtt])
        | none => probe_queries probe ttl n := by
  simp only [probe_queries, List.range_succ, List.foldl_append, List.foldl_cons, List.foldl_nil]

/-- The round-trip times kept for a hop are those of the answered probes, in
query order. -/
theorem probe_queries_rtts {K : Type} (probe : Nat → Nat → Option (Nat × K)) (ttl : Nat) :
    ∀ n, (probe_queries probe ttl n).2
      = (List.range n).filterMap (fun q => (probe ttl q).map Prod.snd) := by
  intro n
  induction n with
  | zero => simp [probe_queries]
  | succ n ih =>
    rw [probe_queries_succ, List.range_succ, List.filterMap_append]
    cases hp : probe ttl n with
    | none => simp [ih, hp]
    | some ar =>
      obtain ⟨a, r⟩ := ar
      simp [ih, hp]

/-- The address kept for a hop is the sentinel when no probe is answered. -/
theorem probe_queries_unanswered {K : Type} (probe : Nat → Nat → Option (Nat × K))
    (ttl : Nat) :
    ∀ n, (∀ q, q < n → probe ttl q = none) → (probe_queries probe ttl n).1 = none := by
  intro n
  induction n with
  | zero => intro _; simp [probe_queries]
  | succ n ih =>
    intro h
    rw [probe_queries_succ, h n (by omega)]
    exact ih (fun q hq => h q (by omega))

/-- Every iteration of the loop records the outcome of the queries at its distance. -/
theorem trace_from_rows {K : Type} (probe : Nat → Nat → Option (Nat × K))
    (dest queries : Nat) :
    ∀ fuel ttl, ∀ row ∈ trace_from probe dest queries fuel ttl,
      row.hop_addr = (probe_queries probe row.ttl queries).1 ∧
      row.rtts = (probe_queries probe row.ttl queries).2 := by
  intro fuel
  induction fuel with
  | zero => intro ttl row hrow; simp [trace_from] at hrow
  | succ fuel ih =>
    intro ttl row hrow
    simp only [trace_from] at hrow
    split_ifs at hrow with h1 h2
    · rw [List.mem_singleton] at hrow; subst hrow; exact ⟨rfl, rfl⟩
    · rw [List.mem_singleton] at hrow; subst hrow; exact ⟨rfl, rfl⟩
    · rcases List.mem_cons.mp hrow with rfl | hrow
      · exact ⟨rfl, rfl⟩
      · exact ih (ttl + 1) row hrow

theorem average_nil {K : Type} [LinearOrderedField K] : average ([] : List K) = none := by
  simp [average]

theorem average_of_ne_nil {K : Type} [LinearOrderedField K] (rtts : List K) (h : rtts ≠ []) :
    average rtts = some (rtts.sum / (rtts.length : K)) := by
  unfold average
  rw [if_neg (by simpa using h), List.sum_eq_foldl]

theorem probe_hop_received {K : Type} (x : HopExchange K) (h1 : 0 ≤ x.udp_fd)
    (h2 : 0 ≤ x.icmp_fd) (h3 : 0 ≤ x.sent) (h4 : 0 ≤ x.received) :
    probe_hop x = Except.ok (x.from_addr, x.rtt) := by
  simp [probe_hop, Ping.Socket_sendto, Ping.Socket_recvfrom, not_lt.mpr h1, not_lt.mpr h2,
    not_lt.mpr h3, not_lt.mpr h4]

theorem probe_hop_not_received {K : Type} (x : HopExchange K) (h1 : 0 ≤ x.udp_fd)
    (h2 : 0 ≤ x.icmp_fd) (h3 : 0 ≤ x.sent) (h4 : x.received < 0) :
    probe_hop x = Except.error "Timeout" := by
  simp [probe_hop, Ping.Socket_sendto, Ping.Socket_recvfrom, not_lt.mpr h1, not_lt.mpr h2,
    not_lt.mpr h3, h4]

/-- No iteration lies beyond a distance above 10 at which no probe is answered. -/
theorem trace_from_le_unanswered {K : Type} (probe : Nat → Nat → Option (Nat × K))
    (dest queries t : Nat) (ht : (probe_queries probe t queries).1 = none) (h10 : 10 < t) :
    ∀ fuel ttl, ttl ≤ t → ∀ row ∈ trace_from probe dest queries fuel ttl, row.ttl ≤ t := by
  intro fuel
  induction fuel with
  | zero => intro ttl _ row hrow; simp [trace_from] at hrow
  | succ fuel ih =>
    intro ttl hle row hrow
    simp only [trace_from] at hrow
    split_ifs at hrow with h1 h2
    · rw [List.mem_singleton] at hrow; subst hrow; exact hle
    · rw [List.mem_singleton] at hrow; subst hrow; exact hle
    · rcases List.mem_cons.mp hrow with rfl | hrow
      · exact hle
      · have hne : ttl ≠ t := by
          rintro rfl
          exact h2 ⟨ht, h10⟩
        exact ih (ttl + 1) (by omega) row hrow

/-- Every iteration executed from `ttl` on has a distance of at least `ttl`. -/
theorem trace_from_ge {K : Type} (probe : Nat → Nat → Option (Nat × K)) (dest queries : Nat) :
    ∀ fuel ttl, ∀ row ∈ trace_from probe dest queries fuel ttl, ttl ≤ row.ttl := by
  intro fuel
  induction fuel with
  | zero => intro ttl row hrow; simp [trace_from] at hrow
  | succ fuel ih =>
    intro ttl row hrow
    simp only [trace_from] at hrow
    split_ifs at hrow with h1 h2
    · rw [List.mem_singleton] at hrow; subst hrow; exact le_refl _
    · rw [List.mem_singleton] at hrow; subst hrow; exact le_refl _
    · rcases List.mem_cons.mp hrow with rfl | hrow
      · exact le_refl _
      · exact le_trans (Nat.le_succ _) (ih (ttl + 1) row hrow)

/-- With an iteration left, the loop probes the distance it starts from. -/
theorem trace_from_head {K : Type} (probe : Nat → Nat → Option (Nat × K))
    (dest queries fuel ttl : Nat) :
    ∃ row ∈ trace_from probe dest queries (fuel + 1) ttl, row.ttl = ttl := by
  simp only [trace_from]
  split_ifs
  · exact ⟨_, List.mem_singleton.mpr rfl, rfl⟩
  · exact ⟨_, List.mem_singleton.mpr rfl, rfl⟩
  · exact ⟨_, List.mem_cons_self _ _, rfl⟩

/-- The distance after one at which the loop does not stop is probed as well,
as long as it is within `max_hops`. -/
theorem trace_from_next {K : Type} (probe : Nat → Nat → Option (Nat × K))
    (dest queries t : Nat) (hd : (probe_queries probe t queries).1 ≠ some dest)
    (hs : ¬ ((probe_queries probe t queries).1 = none ∧ t > 10)) :
    ∀ fuel ttl, (∃ row ∈ trace_from probe dest queries fuel ttl, row.ttl = t) →
      t + 1 < ttl + fuel → ∃ row ∈ trace_from probe dest queries fuel ttl, row.ttl = t + 1 := by
  intro fuel
  induction fuel with
  | zero => intro ttl h; simp [trace_from] at h
  | succ fuel ih =>
    intro ttl hex hlt
    obtain ⟨row, hrow, hrt⟩ := hex
    have hge : ttl ≤ t := by
      rw [← hrt]
      exact trace_from_ge probe dest queries (fuel + 1) ttl row hrow
    simp only [trace_from] at hrow ⊢
    by_cases heq : ttl = t
    · subst heq
      rw [if_neg hd, if_neg hs]
      cases fuel with
      | zero => omega
      | succ f =>
        obtain ⟨row2, hrow2, hrt2⟩ := trace_from_head probe dest queries f (ttl + 1)
        exact ⟨row2, List.mem_cons_of_mem _ hrow2, hrt2⟩
    · split_ifs at hrow ⊢ with h1 h2
      · rw [List.mem_singleton] at hrow; subst hrow; exact absurd hrt heq
      · rw [List.mem_singleton] at hrow; subst hrow; exact absurd hrt heq
      · rcases List.mem_cons.mp hrow with rfl | hrow
        · exact absurd hrt heq
        · obtain ⟨row2, hrow2, hrt2⟩ := ih (ttl + 1) ⟨row, hrow, hrt⟩ (by omega)
          exact ⟨row2, List.mem_cons_of_mem _ hrow2, hrt2⟩

/-- On a path on which no probe is ever answered the loop visits the distances
from `ttl` to 11. -/
theorem trace_from_silent {K : Type} (probe : Nat → Nat → Option (Nat × K))
    (dest queries : Nat) (hsilent : ∀ ttl q, probe ttl q = none) :
    ∀ fuel ttl, ttl ≤ 11 → 12 ≤ ttl + fuel →
      (trace_from probe dest queries fuel ttl).map Hop.ttl = List.range' ttl (12 - ttl) := by
  intro fuel
  induction fuel with
  | zero => intro ttl h1 h2; omega
  | succ fuel ih =>
    intro ttl h1 h2
    have hq : (probe_queries probe ttl queries).1 = none :=
      probe_queries_unanswered probe ttl queries (fun q _ => hsilent ttl q)
    simp only [trace_from, hq, reduceCtorEq, if_false, true_and]
    by_cases h11 : ttl = 11
    · subst h11
      simp
    · have hlt : ¬ ttl > 10 := by omega
      rw [if_neg hlt, List.map_cons, ih (ttl + 1) (by omega) (by omega)]
      have h12 : 12 - ttl = (12 - (ttl + 1)) + 1 := by omega
      rw [h12, List.range'_succ]

/-- The result of `probe_hop` does not depend on the message received: when
both sockets were created and the datagram was sent, it is success with the
sender address for every ICMP type and code, and the failure "Timeout"
exactly when the receive fails. -/
theorem probe_hop_any_message {K : Type} (x : HopExchange K) (h1 : 0 ≤ x.udp_fd)
    (h2 : 0 ≤ x.icmp_fd) (h3 : 0 ≤ x.sent) :
    (0 ≤ x.received → probe_hop x = Except.ok (x.from_addr, x.rtt)) ∧
    (x.received < 0 → probe_hop x = Except.error "Timeout") ∧
    (∀ t c : Nat, probe_hop { x with icmp_type := t, icmp_code := c } = probe_hop x) :=
  ⟨probe_hop_received x h1 h2 h3, probe_hop_not_received x h1 h2 h3, fun _ _ => rfl⟩

/-- A time-exceeded notification from the router 9 is reported as well. -/
theorem probe_hop_time_exceeded_example :
    probe_hop ({ udp_fd := 3, icmp_fd := 4, sent := 1, send_strerror := "", received := 56,
                 recv_strerror := "", from_addr := 9, icmp_type := 11, icmp_code := 0,
                 rtt := 5 } : HopExchange ℚ) = Except.ok (9, 5) :=
  (probe_hop_any_message
    ({ udp_fd := 3, icmp_fd := 4, sent := 1, send_strerror := "", received := 56,
       recv_strerror := "", from_addr := 9, icmp_type := 11, icmp_code := 0,
       rtt := 5 } : HopExchange ℚ) (by decide) (by decide) (by decide)).1 (by decide)

end Trace

/-! ## Lemmas on the socket handle -/

namespace Sock

theorem close_fd_neg (s : Socket) (closed : List Int) : (s.close closed).1.fd_ < 0 := by
  unfold Socket.close
  split_ifs with h
  · show (-1 : Int) < 0
    decide
  · exact not_le.mp h

theorem close_of_neg (s : Socket) (closed : List Int) (h : s.fd_ < 0) :
    s.close closed = (s, closed) := by
  unfold Socket.close
  rw [if_neg (not_le.mpr h)]

theorem close_trace (s : Socket) (closed : List Int) :
    (s.close closed).2 = closed ++ (if s.fd_ ≥ 0 then [s.fd_] else []) := by
  unfold Socket.close
  split_ifs <;> simp

theorem close_close (s : Socket) (closed : List Int) :
    (s.close closed).1.close (s.close closed).2 = s.close closed :=
  close_of_neg _ _ (close_fd_neg s closed)

theorem close_times_of_neg (n : Nat) (s : Socket) (closed : List Int) (h : s.fd_ < 0) :
    close_times n s closed = (s, closed) := by
  induction n with
  | zero => rfl
  | succ n ih => rw [close_times, close_of_neg s closed h]; exact ih

/-- One or more `close()` calls in a row have the effect of one. -/
theorem close_times_succ (n : Nat) (s : Socket) (closed : List Int) :
    close_times (n + 1) s closed = s.close closed := by
  rw [close_times, close_times_of_neg n _ _ (close_fd_neg s closed)]

/-- After any number of explicit `close()` calls and the destructor, the
descriptor of an open handle has been passed to `::close` once, and nothing
has been passed for a handle that was not open. -/
theorem destroy_after_closes (n : Nat) (s : Socket) (closed : List Int) :
    (close_times n s closed).1.destroy (close_times n s closed).2
      = closed ++ (if s.fd_ ≥ 0 then [s.fd_] else []) := by
  unfold Socket.destroy
  cases n with
  | zero => exact close_trace s closed
  | succ n => rw [close_times_succ, close_close, close_trace]

theorem move_construct_new (store : Nat → Socket) (new_ other : Nat) (h : new_ ≠ other) :
    (move_construct store new_ other new_).fd_ = (store other).fd_ := by
  simp [move_construct, Function.update_apply, h]

theorem move_construct_other (store : Nat → Socket) (new_ other : Nat) :
    (move_construct store new_ other other).fd_ = -1 := by
  simp [move_construct, Function.update_apply]

theorem move_construct_rest (store : Nat → Socket) (new_ other k : Nat) (h1 : k ≠ new_)
    (h2 : k ≠ other) : move_construct store new_ other k = store k := by
  simp [move_construct, Function.update_apply, h1, h2]

theorem move_assign_this (store : Nat → Socket) (closed : List Int) (this_ other : Nat)
    (h : this_ ≠ other) :
    ((move_assign store closed this_ other).1 this_).fd_ = (store other).fd_ := by
  simp [move_assign, Function.update_apply, h, Ne.symm h]

theorem move_assign_other (store : Nat → Socket) (closed : List Int) (this_ other : Nat)
    (h : this_ ≠ other) :
    ((move_assign store closed this_ other).1 other).fd_ = -1 := by
  simp [move_assign, Function.update_apply, h]

theorem move_assign_rest (store : Nat → Socket) (closed : List Int) (this_ other k : Nat)
    (h1 : k ≠ this_) (h2 : k ≠ other) :
    (move_assign store closed this_ other).1 k = store k := by
  unfold move_assign
  split_ifs <;> simp [Function.update_apply, h1, h2]

theorem move_assign_trace (store : Nat → Socket) (closed : List Int) (this_ other : Nat)
    (h : this_ ≠ other) :
    (move_assign store closed this_ other).2
      = closed ++ (if (store this_).fd_ ≥ 0 then [(store this_).fd_] else []) := by
  simp only [move_assign, h, ne_eq, not_false_eq_true, if_true]
  exact close_trace _ _

theorem move_assign_self (store : Nat → Socket) (closed : List Int) (k : Nat) :
    move_assign store closed k k = (store, closed) := by
  simp [move_assign]

/-- A store in which the object `dst` has taken the descriptor of `src`, `src`
holds -1 and every other object is unchanged is exclusive when the store
before was. -/
theorem exclusive_transfer (store store2 : Nat → Socket) (dst src : Nat) (hne : dst ≠ src)
    (hdst : (store2 dst).fd_ = (store src).fd_) (hsrc : (store2 src).fd_ = -1)
    (hrest : ∀ k, k ≠ dst → k ≠ src → store2 k = store k) (hex : Exclusive store) :
    Exclusive store2 := by
  intro i j hij hi
  by_cases hid : i = dst
  · subst hid
    rw [hdst] at hi ⊢
    by_cases hjs : j = src
    · subst hjs
      rw [hsrc]
      omega
    · rw [hrest j (Ne.symm hij) hjs]
      exact hex src j (Ne.symm hjs) hi
  · by_cases his : i = src
    · subst his
      rw [hsrc] at hi
      omega
    · rw [hrest i hid his] at hi ⊢
      by_cases hjd : j = dst
      · subst hjd
        rw [hdst]
        exact hex i src his hi
      · by_cases hjs : j = src
        · subst hjs
          rw [hsrc]
          omega
        · rw [hrest j hjd hjs]
          exact hex i j hij hi

theorem set_nonblocking_bad (os : OS) (hos : os.rejects_bad_descriptors) (s : Socket)
    (hs : s.fd_ < 0) (nonblock enabled : Bool) :
    s.set_nonblocking os nonblock enabled
      = (Except.error "Failed to get socket flags", nonblock) := by
  unfold Socket.set_nonblocking
  rw [if_pos (by rw [(hos Call.fcntl_getfl s.fd_ hs).1]; decide)]

theorem set_nonblocking_ok (os : OS) (s : Socket) (nonblock enabled : Bool)
    (h1 : 0 ≤ os.ret Call.fcntl_getfl s.fd_) (h2 : 0 ≤ os.ret Call.fcntl_setfl s.fd_) :
    s.set_nonblocking os nonblock enabled = (Except.ok (), enabled) := by
  unfold Socket.set_nonblocking
  rw [if_neg (not_lt.mpr h1), if_neg (not_lt.mpr h2)]

theorem os_with_connect_rejects (r e : Int) : (os_with_connect r e).rejects_bad_descriptors := by
  intro c fd h
  simp [os_with_connect, h]

/-- The in-progress path of `connect`: when the connection attempt is in
progress, the descriptor becomes write-ready in time and the pending socket
error is 0, `connect` succeeds and the descriptor is blocking again. -/
theorem connect_in_progress (os : OS) (resolve : String → Nat → Except String Nat)
    (errno0 : Int) (s : Socket) (nonblock : Bool) (host : String) (port addr : Nat)
    (timeout : Int) (hres : resolve host port = Except.ok addr) (ht : 0 < timeout)
    (h1 : 0 ≤ os.ret Call.fcntl_getfl s.fd_) (h2 : 0 ≤ os.ret Call.fcntl_setfl s.fd_)
    (hc : os.ret Call.connect s.fd_ < 0) (he : os.errno Call.connect s.fd_ = EINPROGRESS)
    (hsel : 0 < os.ret Call.select s.fd_) (hg : 0 ≤ os.ret Call.getsockopt_so_error s.fd_)
    (hso : os.so_error s.fd_ = 0) :
    s.connect os resolve errno0 nonblock host port timeout = (Except.ok (), false) := by
  simp only [Socket.connect, hres, gt_iff_lt, ht, if_true, set_nonblocking_ok os s _ _ h1 h2, hc,
    he, ne_eq, not_true_eq_false, and_false, if_false, and_self, not_le.mpr hsel,
    not_lt.mpr hg, hso, or_self]

/-- The timeout failure of `connect`: write-readiness is not reached in time. -/
theorem connect_timeout (os : OS) (resolve : String → Nat → Except String Nat)
    (errno0 : Int) (s : Socket) (nonblock : Bool) (host : String) (port addr : Nat)
    (timeout : Int) (hres : resolve host port = Except.ok addr) (ht : 0 < timeout)
    (h1 : 0 ≤ os.ret Call.fcntl_getfl s.fd_) (h2 : 0 ≤ os.ret Call.fcntl_setfl s.fd_)
    (hc : os.ret Call.connect s.fd_ < 0) (he : os.errno Call.connect s.fd_ = EINPROGRESS)
    (hsel : os.ret Call.select s.fd_ ≤ 0) :
    (s.connect os resolve errno0 nonblock host port timeout).1
      = Except.error "Connection timeout" := by
  simp only [Socket.connect, hres, gt_iff_lt, ht, if_true, set_nonblocking_ok os s _ _ h1 h2, hc,
    he, ne_eq, not_true_eq_false, and_false, if_false, and_self, hsel]

/-- The connect failure of `connect`: the pending socket error after the wait
is not 0. -/
theorem connect_failed (os : OS) (resolve : String → Nat → Except String Nat)
    (errno0 : Int) (s : Socket) (nonblock : Bool) (host : String) (port addr : Nat)
    (timeout : Int) (hres : resolve host port = Except.ok addr) (ht : 0 < timeout)
    (h1 : 0 ≤ os.ret Call.fcntl_getfl s.fd_) (h2 : 0 ≤ os.ret Call.fcntl_setfl s.fd_)
    (hc : os.ret Call.connect s.fd_ < 0) (he : os.errno Call.connect s.fd_ = EINPROGRESS)
    (hsel : 0 < os.ret Call.select s.fd_) (hso : os.so_error s.fd_ ≠ 0) :
    (s.connect os resolve errno0 nonblock host port timeout).1
      = Except.error ("Connection failed: " ++ os.strerror (os.so_error s.fd_)) := by
  simp only [Socket.connect, hres, gt_iff_lt, ht, if_true, set_nonblocking_ok os s _ _ h1 h2, hc,
    he, ne_eq, not_true_eq_false, and_false, if_false, and_self, not_le.mpr hsel, hso,
    not_false_eq_true, or_true]

/-- The path of `connect` on which `::connect` completes at once while `errno`
holds a value other than `EINPROGRESS`: the wait and the restoring
`set_nonblocking(false)` are skipped. -/
theorem connect_immediate (os : OS) (resolve : String → Nat → Except String Nat)
    (errno0 : Int) (s : Socket) (nonblock : Bool) (host : String) (port addr : Nat)
    (timeout : Int) (hres : resolve host port = Except.ok addr) (ht : 0 < timeout)
    (h1 : 0 ≤ os.ret Call.fcntl_getfl s.fd_) (h2 : 0 ≤ os.ret Call.fcntl_setfl s.fd_)
    (hc : 0 ≤ os.ret Call.connect s.fd_) (he : errno0 ≠ EINPROGRESS) :
    s.connect os resolve errno0 nonblock host port timeout = (Except.ok (), true) := by
  simp only [Socket.connect, hres, gt_iff_lt, ht, if_true, set_nonblocking_ok os s _ _ h1 h2,
    not_lt.mpr hc, false_and, if_false, he, and_false]

end Sock

/-! ## Lemmas on the readiness multiplexer -/

namespace Async

/-- A `filterMap` whose function is defined on every entry keeps the length and
the positions. -/
theorem filterMap_all_some {α β : Type} (g : α → Option β) (l : List α)
    (h : ∀ x ∈ l, ∃ y, g x = some y) :
    (l.filterMap g).length = l.length ∧
    ∀ (i : Nat) (x : α), l[i]? = some x → (l.filterMap g)[i]? = g x := by
  induction l with
  | nil => simp
  | cons a rest ih =>
    obtain ⟨y, hy⟩ := h a (List.mem_cons_self _ _)
    obtain ⟨ih1, ih2⟩ := ih (fun x hx => h x (List.mem_cons_of_mem _ hx))
    rw [List.filterMap_cons_some hy]
    refine ⟨by simp [ih1], ?_⟩
    intro i x hx
    cases i with
    | zero =>
      simp only [List.getElem?_cons_zero, Option.some.injEq] at hx ⊢
      rw [← hx, hy]
    | succ i =>
      simp only [List.getElem?_cons_succ] at hx ⊢
      exact ih2 i x hx

theorem run_once_eq (a : AsyncIO) (nfds : Int) (events : List epoll_event)
    (hfd : 0 ≤ a.epoll_fd_) (hn : 0 ≤ nfds) :
    run_once a nfds events =
      (events.take nfds.toNat).filterMap (fun ev =>
        match a.events_[ev.data]? with
        | none => none
        | some e =>
          some { callback := e.callback, fd := e.fd, event := event_type ev.events }) := by
  unfold run_once
  rw [if_neg (not_lt.mpr hfd), if_neg (not_lt.mpr hn)]

theorem any_of_find {fd : Int} {l : List Interest} {r : Interest}
    (h : l.find? (fun r => r.fd == fd) = some r) : l.any (fun r => r.fd == fd) = true := by
  have hp := List.find?_some h
  rw [List.any_eq_true]
  exact ⟨r, List.mem_of_find?_eq_some h, hp⟩

theorem find_of_any {fd : Int} {l : List Interest}
    (h : l.any (fun r => r.fd == fd) = true) : ∃ r, l.find? (fun r => r.fd == fd) = some r := by
  rw [List.any_eq_true] at h
  obtain ⟨x, hx, hp⟩ := h
  cases hf : l.find? (fun r => r.fd == fd) with
  | none => exact absurd hp (by simpa using List.find?_eq_none.mp hf x hx)
  | some r => exact ⟨r, rfl⟩

theorem bound_fresh (epoll_fd : Int) : Bound (fresh epoll_fd) (fun _ => none) := by
  constructor
  · intro fd r h
    simp [fresh] at h
  · intro fd _ h
    simp at h

theorem add_epoll_fd (l : Loop) (f : Int) (m cb : Nat) :
    (add l f m cb).2.io.epoll_fd_ = l.io.epoll_fd_ := by
  unfold add
  split_ifs <;> rfl

/-- A call of `add` keeps the link between the interest list and `events_`
and binds the callback to the descriptor when the descriptor was not bound. -/
theorem bound_add (l : Loop) (bound : Int → Option Nat) (h : Bound l bound)
    (hfd : 0 ≤ l.io.epoll_fd_) (f : Int) (m cb : Nat) :
    Bound (add l f m cb).2
      (fun fd => (bound fd).or (if f = fd then some cb else none)) := by
  unfold add
  rw [if_neg (not_lt.mpr hfd)]
  by_cases hneg : f < 0
  · simp only [hneg, if_true]
    constructor
    · intro fd r hr
      obtain ⟨e, h1, h2, h3⟩ := h.found fd r hr
      exact ⟨e, h1, h2, by simp [h3]⟩
    · intro fd hfd0 hb
      cases hbf : bound fd with
      | some c => exact h.listed fd hfd0 (by rw [hbf]; rfl)
      | none =>
        rw [hbf] at hb
        by_cases hff : f = fd
        · omega
        · simp [hff] at hb
  · by_cases hex : l.interest.any (fun r => r.fd == f) = true
    · simp only [hneg, hex, if_true, if_false]
      constructor
      · intro fd r hr
        obtain ⟨e, h1, h2, h3⟩ := h.found fd r hr
        exact ⟨e, h1, h2, by simp [h3]⟩
      · intro fd hfd0 hb
        cases hbf : bound fd with
        | some c => exact h.listed fd hfd0 (by rw [hbf]; rfl)
        | none =>
          rw [hbf] at hb
          by_cases hff : f = fd
          · rw [← hff]; exact hex
          · simp [hff] at hb
    · simp only [hneg, hex, if_false, Bool.false_eq_true]
      constructor
      · intro fd r hr
        simp only [List.find?_append] at hr
        cases hfind : l.interest.find? (fun r => r.fd == fd) with
        | some r0 =>
          rw [hfind] at hr
          have hr : r0 = r := by simpa [Option.or] using hr
          subst hr
          obtain ⟨e, h1, h2, h3⟩ := h.found fd r0 hfind
          have hlt : r0.data < l.io.events_.length := by
            by_contra hge
            rw [List.getElem?_eq_none (not_lt.mp hge)] at h1
            exact absurd h1 (by simp)
          exact ⟨e, by rw [List.getElem?_append_left hlt]; exact h1, h2, by simp [h3]⟩
        | none =>
          rw [hfind] at hr
          simp only [Option.or, List.find?_cons, List.find?_nil] at hr
          by_cases hff : f = fd
          · subst hff
            simp only [beq_self_eq_true] at hr
            simp only [Option.some.injEq] at hr
            subst hr
            have hnone : bound f = none := by
              cases hbf : bound f with
              | none => rfl
              | some c =>
                have := h.listed f (not_lt.mp hneg) (by rw [hbf]; rfl)
                exact absurd this hex
            refine ⟨{ fd := f, callback := cb }, ?_, rfl, by simp [hnone]⟩
            simp
          · have hne : (f == fd) = false := by simpa using hff
            simp [hne] at hr
      · intro fd hfd0 hb
        rw [List.any_append]
        cases hbf : bound fd with
        | some c => rw [h.listed fd hfd0 (by rw [hbf]; rfl)]; rfl
        | none =>
          rw [hbf] at hb
          by_cases hff : f = fd
          · simp [hff]
          · simp [hff] at hb

theorem apply_all_add (l : Loop) (f : Int) (m cb : Nat) (rest : List Request) :
    (apply_all l (Request.add f m cb :: rest)).2 = (apply_all (add l f m cb).2 rest).2 := by
  rw [apply_all]
  rcases hadd : add l f m cb with ⟨r, l2⟩
  cases r <;> rfl

theorem apply_all_epoll_fd (reqs : List Request) (hadd : ∀ r ∈ reqs, r.is_add = true) :
    ∀ l : Loop, (apply_all l reqs).2.io.epoll_fd_ = l.io.epoll_fd_ := by
  induction reqs with
  | nil => intro l; rfl
  | cons r rest ih =>
    intro l
    cases r with
    | remove fd => exact absurd (hadd _ (List.mem_cons_self _ _)) (by simp [Request.is_add])
    | add f m cb =>
      rw [apply_all_add, ih (fun r hr => hadd r (List.mem_cons_of_mem _ hr)), add_epoll_fd]

/-- After a sequence of `add` calls every registered descriptor is bound to
the callback registered together with it. -/
theorem bound_apply_all (reqs : List Request) (hadd : ∀ r ∈ reqs, r.is_add = true) :
    ∀ (l : Loop) (bound : Int → Option Nat), Bound l bound → 0 ≤ l.io.epoll_fd_ →
      Bound (apply_all l reqs).2 (fun fd => (bound fd).or (registered reqs fd)) := by
  induction reqs with
  | nil =>
    intro l bound h _
    have e : (fun fd => (bound fd).or (registered [] fd)) = bound := by
      funext fd
      simp [registered]
    rw [e]
    exact h
  | cons r rest ih =>
    intro l bound h hfd
    cases r with
    | remove fd => exact absurd (hadd _ (List.mem_cons_self _ _)) (by simp [Request.is_add])
    | add f m cb =>
      rw [apply_all_add]
      have h2 := ih (fun r hr => hadd r (List.mem_cons_of_mem _ hr)) (add l f m cb).2 _
        (bound_add l bound h hfd f m cb) (by rw [add_epoll_fd]; exact hfd)
      have e : (fun fd => ((bound fd).or (if f = fd then some cb else none)).or
            (registered rest fd))
          = (fun fd => (bound fd).or (registered (Request.add f m cb :: rest) fd)) := by
        funext fd
        cases bound fd with
        | some c => simp
        | none =>
          by_cases hff : f = fd
          · simp [registered, hff]
          · simp [registered, hff]
      rw [← e]
      exact h2

/-- The event returned for a bound descriptor leads `run_once` to the entry of
that descriptor. -/
theorem ready_event_bound (l : Loop) (bound : Int → Option Nat) (h : Bound l bound)
    (fd : Int) (mask : Nat) (h0 : 0 ≤ fd) (hb : (bound fd).isSome = true) :
    ∃ (ev : epoll_event) (e : EventData), ready_event l fd mask = some ev ∧ ev.events = mask ∧
      l.io.events_[ev.data]? = some e ∧ e.fd = fd ∧ bound fd = some e.callback := by
  obtain ⟨r, hr⟩ := find_of_any (h.listed fd h0 hb)
  obtain ⟨e, h1, h2, h3⟩ := h.found fd r hr
  refine ⟨{ events := mask, data := r.data }, e, ?_, rfl, h1, h2, h3⟩
  unfold ready_event
  rw [hr]
  rfl

theorem wait_events_bound (l : Loop) (bound : Int → Option Nat) (h : Bound l bound)
    (ready : List (Int × Nat)) (hready : ∀ rd ∈ ready, 0 ≤ rd.1 ∧ (bound rd.1).isSome = true) :
    (wait_events l ready).length = ready.length ∧
    (wait_events l ready).filterMap (fun ev =>
        match l.io.events_[ev.data]? with
        | none => none
        | some e =>
          some ({ callback := e.callback, fd := e.fd, event := event_type ev.events } :
            Invocation))
      = ready.map (fun rd =>
          { callback := (bound rd.1).getD 0, fd := rd.1, event := event_type rd.2 }) := by
  induction ready with
  | nil => exact ⟨rfl, rfl⟩
  | cons rd rest ih =>
    obtain ⟨h0, hb⟩ := hready rd (List.mem_cons_self _ _)
    obtain ⟨ev, e, h1, h2, h3, h4, h5⟩ := ready_event_bound l bound h rd.1 rd.2 h0 hb
    obtain ⟨ih1, ih2⟩ := ih (fun x hx => hready x (List.mem_cons_of_mem _ hx))
    have hw : wait_events l (rd :: rest) = ev :: wait_events l rest := by
      simp only [wait_events, List.filterMap_cons, h1]
    rw [hw]
    constructor
    · simp [ih1]
    · simp only [List.filterMap_cons, h3, ih2, List.map_cons, h5, h4, h2, Option.getD_some]

/-- For a wait whose events all carry an index within `events_`, `run_once`
makes one invocation per event, with the descriptor and the callback stored
at that index and the condition chosen by `event_type`. -/
theorem run_once_indexed (a : AsyncIO) (nfds : Int) (events : List epoll_event)
    (hfd : 0 ≤ a.epoll_fd_) (hn : 0 ≤ nfds)
    (hidx : ∀ ev ∈ events.take nfds.toNat, ev.data < a.events_.length) :
    (run_once a nfds events).length = (events.take nfds.toNat).length ∧
    (∀ (i : Nat) (ev : epoll_event) (e : EventData),
      (events.take nfds.toNat)[i]? = some ev → a.events_[ev.data]? = some e →
      (run_once a nfds events)[i]?
        = some { callback := e.callback, fd := e.fd, event := event_type ev.events }) ∧
    (∀ m : Nat,
      (m &&& EPOLLIN ≠ 0 → event_type m = Event.READ) ∧
      (m &&& EPOLLIN = 0 → m &&& EPOLLOUT ≠ 0 → event_type m = Event.WRITE) ∧
      (m &&& EPOLLIN = 0 → m &&& EPOLLOUT = 0 → m &&& (EPOLLERR ||| EPOLLHUP) ≠ 0 →
        event_type m = Event.ERROR)) := by
  rw [run_once_eq a nfds events hfd hn]
  have hsome : ∀ ev ∈ events.take nfds.toNat, ∃ y,
      (match a.events_[ev.data]? with
        | none => none
        | some e =>
          some ({ callback := e.callback, fd := e.fd, event := event_type ev.events } :
            Invocation)) = some y := by
    intro ev hev
    have hlt := hidx ev hev
    rw [List.getElem?_eq_getElem hlt]
    exact ⟨_, rfl⟩
  obtain ⟨h1, h2⟩ := filterMap_all_some _ _ hsome
  refine ⟨h1, ?_, ?_⟩
  · intro i ev e hi he
    rw [h2 i ev hi, he]
  · intro m
    refine ⟨?_, ?_, ?_⟩
    · intro h
      simp only [event_type, h, ne_eq, not_false_eq_true, if_true]
    · intro h0 h
      simp only [event_type, h0, h, ne_eq, not_true_eq_false, not_false_eq_true, if_true,
        if_false]
    · intro h0 h1 h
      simp only [event_type, h0, h1, h, ne_eq, not_true_eq_false, not_false_eq_true, if_true,
        if_false]

end Async

/-! ## Lemmas on the failure percentages -/

namespace Bench

/-- The loss percentage of `ping` is the ratio of lost to transmitted probes. -/
theorem loss_eq {K : Type} [LinearOrderedField K] (transmitted received : Nat)
    (h : received ≤ transmitted) :
    (Ping.loss transmitted received : K)
      = failure_percentage (transmitted - received) transmitted := by
  unfold Ping.loss failure_percentage
  by_cases ht : transmitted = 0
  · simp [ht]
  · rw [if_pos (Nat.pos_of_ne_zero ht), if_neg ht]

/-- The error rate of `bench` is the ratio of failed to attempted requests as
soon as one request has succeeded. -/
theorem error_rate_eq {K : Type} [LinearOrderedField K] (total_requests errors : Nat)
    (h : 0 < total_requests) :
    (error_rate total_requests errors : K)
      = failure_percentage errors (total_requests + errors) := by
  unfold error_rate failure_percentage
  rw [if_pos h, if_neg (by omega)]

theorem error_rate_no_attempts {K : Type} [LinearOrderedField K] :
    (error_rate 0 0 : K) = failure_percentage 0 (0 + 0) := by
  simp [error_rate, failure_percentage]

theorem flatMap_range_singleton {β : Type} (g : Nat → β) (f : Nat → List β) (n : Nat)
    (h : ∀ i, i < n → f i = [g i]) :
    (List.range n).flatMap f = (List.range n).map g := by
  induction n with
  | zero => rfl
  | succ n ih =>
    rw [List.range_succ, List.flatMap_append, List.map_append,
      ih (fun i hi => h i (by omega))]
    simp [h n (by omega)]

end Bench

/-! ## Lemmas on the use of the resolver -/

namespace Resolve

/-- The result of `connect_logged` is that of `Sock.Socket.connect`, and the log
gains exactly one entry, for the host and port passed to `connect`. -/
theorem connect_logged_eq (os : Sock.OS) (resolve : String → Nat → Except String Nat)
    (errno0 : Int) (s : Sock.Socket) (nonblock : Bool) (host : String) (port : Nat)
    (timeout : Int) (log : List (String × Nat)) :
    connect_logged os resolve errno0 s nonblock host port timeout log
      = (Sock.Socket.connect os resolve errno0 s nonblock host port timeout,
          log ++ [(host, port)]) := by
  unfold connect_logged Sock.Socket.connect resolve_logged
  cases resolve host port with
  | error e => rfl
  | ok addr =>
    simp only
    split
    · rfl
    · split_ifs <;> rfl

/-- The log after `scan_port`: one entry more when the socket was created. -/
theorem scan_port_logged_log (env : ConnectEnv) (host : String) (port : Nat) (timeout : Int)
    (log : List (String × Nat)) :
    (scan_port_logged env host port timeout log).2
      = if env.fd port < 0 then log else log ++ [(host, port)] := by
  unfold scan_port_logged
  split_ifs
  · rfl
  · simp only [connect_logged_eq]

/-- The outcome of `scan_port` does not depend on the log. -/
theorem scan_port_logged_result (env : ConnectEnv) (host : String) (port : Nat) (timeout : Int)
    (log : List (String × Nat)) :
    (scan_port_logged env host port timeout log).1 = scan_port_of env host timeout port := by
  unfold scan_port_of scan_port_logged
  split_ifs
  · rfl
  · simp only [connect_logged_eq]

/-- One step of the logged dispatch is a step of `Scan.step`; its control state
is that of the dispatch run with the oracle `created`, and its log lists the
results of that run. -/
theorem scan_step_rel (env : ConnectEnv) (host : String) (timeout : Int) (ports : List Nat)
    (sl : Scan.State × List (String × Nat)) (s2 : Scan.State) (w : Nat)
    (hw : s2.workers = sl.1.workers) (hn : s2.next_port = sl.1.next_port)
    (hc : s2.claims = sl.1.claims)
    (hlog : sl.2 = s2.results.map (fun r => (host, r.port))) :
    (scan_step_logged env host timeout ports sl w).1
        = Scan.step ports (scan_port_of env host timeout) sl.1 w ∧
    (Scan.step ports env.created s2 w).workers
        = (scan_step_logged env host timeout ports sl w).1.workers ∧
    (Scan.step ports env.created s2 w).next_port
        = (scan_step_logged env host timeout ports sl w).1.next_port ∧
    (Scan.step ports env.created s2 w).claims
        = (scan_step_logged env host timeout ports sl w).1.claims ∧
    (scan_step_logged env host timeout ports sl w).2
        = (Scan.step ports env.created s2 w).results.map (fun r => (host, r.port)) := by
  unfold scan_step_logged Scan.step
  rw [hw, hn]
  cases hx : sl.1.workers[w]? with
  | none => exact ⟨rfl, hw, hn, hc, hlog⟩
  | some x =>
    cases x with
    | stopped => exact ⟨rfl, hw, hn, hc, hlog⟩
    | fetching =>
      simp only
      split_ifs
      · exact ⟨rfl, rfl, rfl, hc, hlog⟩
      · exact ⟨rfl, rfl, rfl, by simp only [hc], hlog⟩
    | holding idx =>
      simp only [scan_port_logged_result, scan_port_logged_log, ConnectEnv.created]
      refine ⟨?_, ?_, ?_, ?_, ?_⟩
      · trivial
      · trivial
      · trivial
      · exact hc
      by_cases hfd : env.fd (ports.getD idx 0) < 0
      · have hd : decide (0 ≤ env.fd (ports.getD idx 0)) = false := by
          simpa using hfd
        simp only [hfd, if_true, hd, Bool.false_eq_true, if_false]
        exact hlog
      · have hd : decide (0 ≤ env.fd (ports.getD idx 0)) = true := by
          simpa using hfd
        simp only [hfd, if_false, hd, if_true, List.map_append, List.map_cons, List.map_nil,
          hlog]

theorem scan_fold_rel (env : ConnectEnv) (host : String) (timeout : Int) (ports : List Nat)
    (sched : List Nat) :
    ∀ (sl : Scan.State × List (String × Nat)) (s2 : Scan.State),
      s2.workers = sl.1.workers → s2.next_port = sl.1.next_port → s2.claims = sl.1.claims →
      sl.2 = s2.results.map (fun r => (host, r.port)) →
      (sched.foldl (scan_step_logged env host timeout ports) sl).1
          = sched.foldl (Scan.step ports (scan_port_of env host timeout)) sl.1 ∧
      (sched.foldl (Scan.step ports env.created) s2).workers
          = (sched.foldl (scan_step_logged env host timeout ports) sl).1.workers ∧
      (sched.foldl (scan_step_logged env host timeout ports) sl).2
          = (sched.foldl (Scan.step ports env.created) s2).results.map
              (fun r => (host, r.port)) := by
  induction sched with
  | nil =>
    intro sl s2 hw _ _ hlog
    exact ⟨rfl, hw, hlog⟩
  | cons w rest ih =>
    intro sl s2 hw hn hc hlog
    obtain ⟨h1, h2, h3, h4, h5⟩ := scan_step_rel env host timeout ports sl s2 w hw hn hc hlog
    obtain ⟨i1, i2, i3⟩ := ih _ _ h2 h3 h4 h5
    simp only [List.foldl_cons]
    exact ⟨by rw [i1, h1], i2, i3⟩

/-- The logged scan is the dispatch `Scan.run` for the outcomes of `scan_port`,
and its log lists the results of the dispatch run with the oracle `created`. -/
theorem scan_logged_rel (env : ConnectEnv) (host : String) (timeout : Int) (ports : List Nat)
    (K : Nat) (sched : List Nat) :
    (scan_logged env host timeout ports K sched).1
        = Scan.run ports (scan_port_of env host timeout) K sched ∧
    (Scan.run ports env.created K sched).workers
        = (scan_logged env host timeout ports K sched).1.workers ∧
    (scan_logged env host timeout ports K sched).2
        = (Scan.run ports env.created K sched).results.map (fun r => (host, r.port)) :=
  scan_fold_rel env host timeout ports sched (Scan.init K, []) (Scan.init K) rfl rfl rfl rfl

/-- Once every worker has stopped, the results of the dispatch are the ports
whose probe succeeded, in some order. -/
theorem results_perm_of_joined (ports : List Nat) (scan_port : Nat → Bool) (K : Nat)
    (sched : List Nat) (hK : 1 ≤ K) (hsz : ports.length + K < 2 ^ 64)
    (hj : Scan.joined (Scan.run ports scan_port K sched) = true) :
    ((Scan.run ports scan_port K sched).results.map Scan.ScanResult.port).Perm
      (ports.filter scan_port) := by
  have h := Scan.inv_run ports scan_port K hsz sched
  have hN := Scan.claims_length_of_joined ports scan_port K sched _ hK h hj
  have hres := h.res
  rw [Scan.pending_all ports scan_port _ ((Scan.joined_iff _).mp hj), add_zero, hN,
    List.take_length, Multiset.coe_eq_coe] at hres
  exact hres

/-- Once the threads of a scan are joined, the resolver has been invoked once
for every port whose socket was created, with the target host. -/
theorem scan_logged_log (env : ConnectEnv) (host : String) (timeout : Int) (ports : List Nat)
    (K : Nat) (sched : List Nat) (hK : 1 ≤ K) (hsz : ports.length + K < 2 ^ 64)
    (hj : Scan.joined (scan_logged env host timeout ports K sched).1 = true) :
    (scan_logged env host timeout ports K sched).2.Perm
      ((ports.filter env.created).map (fun p => (host, p))) := by
  obtain ⟨-, h2, h3⟩ := scan_logged_rel env host timeout ports K sched
  have hj2 : Scan.joined (Scan.run ports env.created K sched) = true := by
    unfold Scan.joined at hj ⊢
    rw [h2]
    exact hj
  have hp := results_perm_of_joined ports env.created K sched hK hsz hj2
  rw [h3]
  have e : (Scan.run ports env.created K sched).results.map (fun r => (host, r.port))
      = ((Scan.run ports env.created K sched).results.map Scan.ScanResult.port).map
          (fun p => (host, p)) := by
    rw [List.map_map]
    rfl
  rw [e]
  exact hp.map _

/-- The log after `http_request`: one entry more when the socket was created. -/
theorem http_request_logged_log {K : Type} (env : ConnectEnv) (host : String) (port i : Nat)
    (recvs : List Int) (latency : K) (log : List (String × Nat)) :
    (http_request_logged env host port i recvs latency log).2
      = if env.fd i < 0 then log else log ++ [(host, port)] := by
  unfold http_request_logged
  split_ifs
  · rfl
  · simp only [connect_logged_eq]
    split
    · rfl
    · split <;> rfl

theorem bench_step_log {K : Type} (env : ConnectEnv) (host : String) (port : Nat)
    (recvs : Nat → List Int) (latency : Nat → K) (st : BenchState) (i : Nat) :
    (bench_step env host port recvs latency st i).log
        = (if env.fd i < 0 then st.log else st.log ++ [(host, port)]) ∧
    (bench_step env host port recvs latency st i).total_requests
        + (bench_step env host port recvs latency st i).errors
      = st.total_requests + st.errors + 1 := by
  unfold bench_step
  rw [← http_request_logged_log env host port i (recvs i) (latency i) st.log]
  simp only
  cases (http_request_logged env host port i (recvs i) (latency i) st.log).1 with
  | ok a => exact ⟨rfl, by simp only; omega⟩
  | error e => exact ⟨rfl, by simp only; omega⟩

/-- A benchmark of `requests` requests invokes the resolver once for every
request whose socket was created, and counts every request as a success or
as an error. -/
theorem bench_logged_log {K : Type} (env : ConnectEnv) (host : String) (port : Nat)
    (recvs : Nat → List Int) (latency : Nat → K) (requests : Nat) :
    (bench_logged env host port recvs latency requests).log
        = ((List.range requests).filter env.created).map (fun _ => (host, port)) ∧
    (bench_logged env host port recvs latency requests).total_requests
        + (bench_logged env host port recvs latency requests).errors = requests := by
  induction requests with
  | zero => exact ⟨rfl, rfl⟩
  | succ n ih =>
    obtain ⟨ih1, ih2⟩ := ih
    have hs := bench_step_log env host port recvs latency
      (bench_logged env host port recvs latency n) n
    have e : bench_logged env host port recvs latency (n + 1)
        = bench_step env host port recvs latency (bench_logged env host port recvs latency n) n := by
      unfold bench_logged
      rw [List.range_succ, List.foldl_append]
      rfl
    rw [e, hs.1]
    refine ⟨?_, by rw [hs.2, ih2]⟩
    rw [ih1, List.range_succ, List.filter_append]
    by_cases hfd : env.fd n < 0
    · have hd : env.created n = false := by
        simpa [ConnectEnv.created] using hfd
      simp [hfd, hd]
    · have hd : env.created n = true := by
        simpa [ConnectEnv.created] using hfd
      simp [hfd, hd]

theorem ping_step_logged_eq {K : Type} [LinearOrderedField K] (be : Bool) (pid : Nat)
    (exchange : Nat → Ping.Exchange K) (sl : Ping.PingState K × List (String × Nat)) (i : Nat) :
    ping_step_logged be pid exchange sl i = (Ping.ping_step be pid exchange sl.1 i, sl.2) := by
  unfold ping_step_logged Ping.ping_step send_ping_logged
  cases Ping.send_ping pid (i + 1) (exchange i) with
  | ok rtt => rfl
  | error e => rfl

/-- The loop of `ping` leaves the log as it is, whatever the number of probes
and their outcomes. -/
theorem ping_fold_logged {K : Type} [LinearOrderedField K] (be : Bool) (pid : Nat)
    (exchange : Nat → Ping.Exchange K) (probes : List Nat) :
    ∀ (st : Ping.PingState K) (log : List (String × Nat)),
      probes.foldl (ping_step_logged be pid exchange) (st, log)
        = (probes.foldl (Ping.ping_step be pid exchange) st, log) := by
  induction probes with
  | nil => intro st log; rfl
  | cons i rest ih =>
    intro st log
    rw [List.foldl_cons, List.foldl_cons, ping_step_logged_eq, ih]

/-- The result and the log of `ping`. -/
theorem ping_logged_eq {K : Type} [LinearOrderedField K]
    (resolve : String → Nat → Except String Nat) (icmp_fd : Int) (be : Bool) (pid : Nat)
    (exchange : Nat → Ping.Exchange K) (host : String) (count : Nat) :
    (ping_logged resolve icmp_fd be pid exchange host count).2 = [(host, 0)] ∧
    (∀ addr, resolve host 0 = Except.ok addr → 0 ≤ icmp_fd →
      (ping_logged resolve icmp_fd be pid exchange host count).1
        = some (Ping.ping_loop be pid exchange count)) := by
  unfold ping_logged resolve_logged
  cases hr : resolve host 0 with
  | error e => exact ⟨rfl, fun addr h => by cases h⟩
  | ok a =>
    simp only [List.nil_append]
    by_cases hfd : icmp_fd < 0
    · rw [if_pos hfd]
      exact ⟨rfl, fun _ _ h0 => absurd hfd (not_lt.mpr h0)⟩
    · rw [if_neg hfd, ping_fold_logged]
      exact ⟨rfl, fun _ _ _ => rfl⟩

theorem probe_queries_fold_logged {K : Type} (hop : Nat → Nat → Trace.HopExchange K) (ttl : Nat)
    (qs : List Nat) :
    ∀ (acc : Option Nat × List K) (log : List (String × Nat)),
      qs.foldl
          (fun acc q =>
            match probe_hop_logged (hop ttl q) acc.2 with
            | (Except.ok (addr, rtt), log1) => ((some addr, acc.1.2 ++ [rtt]), log1)
            | (Except.error _, log1) => (acc.1, log1))
          (acc, log)
        = (qs.foldl
            (fun acc q =>
              match probe_of hop ttl q with
              | some (addr, rtt) => (some addr, acc.2 ++ [rtt])
              | none => acc)
            acc, log) := by
  induction qs with
  | nil => intro acc log; rfl
  | cons q rest ih =>
    intro acc log
    rw [List.foldl_cons, List.foldl_cons]
    unfold probe_hop_logged probe_of
    cases Trace.probe_hop (hop ttl q) with
    | ok r => exact ih _ _
    | error e => exact ih _ _

theorem probe_queries_logged_eq {K : Type} (hop : Nat → Nat → Trace.HopExchange K)
    (ttl queries : Nat) (log : List (String × Nat)) :
    probe_queries_logged hop ttl queries log
      = (Trace.probe_queries (probe_of hop) ttl queries, log) := by
  unfold probe_queries_logged Trace.probe_queries
  exact probe_queries_fold_logged hop ttl _ _ _

/-- The loop of `trace` leaves the log as it is, whatever the number of hops
and the outcomes of the probes. -/
theorem trace_from_logged_eq {K : Type} (hop : Nat → Nat → Trace.HopExchange K)
    (dest queries fuel : Nat) :
    ∀ (ttl : Nat) (log : List (String × Nat)),
      trace_from_logged hop dest queries fuel ttl log
        = (Trace.trace_from (probe_of hop) dest queries fuel ttl, log) := by
  induction fuel with
  | zero => intro ttl log; rfl
  | succ n ih =>
    intro ttl log
    rw [trace_from_logged, Trace.trace_from]
    simp only [probe_queries_logged_eq, ih]
    split_ifs <;> rfl

/-- The result and the log of `trace`. -/
theorem trace_logged_eq {K : Type} (resolve : String → Nat → Except String Nat)
    (hop : Nat → Nat → Trace.HopExchange K) (host : String) (queries max_hops : Nat) :
    (trace_logged resolve hop host queries max_hops).2 = [(host, 33434)] ∧
    (∀ dest, resolve host 33434 = Except.ok dest →
      (trace_logged resolve hop host queries max_hops).1
        = some (Trace.trace (probe_of hop) dest queries max_hops)) := by
  unfold trace_logged resolve_logged
  cases hr : resolve host 33434 with
  | error e => exact ⟨rfl, fun dest h => by cases h⟩
  | ok a =>
    simp only [trace_from_logged_eq]
    exact ⟨rfl, fun dest h => by cases h; rfl⟩

end Resolve

/-! ## Theorems on the statistics aggregator -/

namespace Statistics

section Claims

variable {K : Type} [LinearOrderedField K] [FloorRing K]

/-- C1: for a non-empty series and every `p` with `0 ≤ p ≤ 100`, over exact
arithmetic, `percentile(p)` lies between `min()` and `max()`, both inclusive. -/
theorem percentile_between_min_max (s : Statistics K) (p : K) (h : s.values_ ≠ [])
    (hp0 : 0 ≤ p) (hp1 : p ≤ 100) :
    s.min ≤ s.percentile p ∧ s.percentile p ≤ s.max := by
  rcases hp0.eq_or_lt with h0 | h0
  · rw [percentile_low s p h (le_of_eq h0.symm)]
    exact ⟨le_refl _, min_le_max s h⟩
  rcases hp1.eq_or_lt with h1 | h1
  · rw [percentile_high s p h (le_of_eq h1.symm)]
    exact ⟨min_le_max s h, le_refl _⟩
  obtain ⟨hlo, hhi⟩ := indices_lt s p h hp0 hp1
  have ha := getD_sorted_mem s _ hlo
  have hb := getD_sorted_mem s _ hhi
  have hw0 : 0 ≤ Int.fract (s.rank p) := Int.fract_nonneg _
  have hw1 : Int.fract (s.rank p) < 1 := Int.fract_lt_one _
  have ha1 := min_le s _ ha
  have ha2 := le_max s _ ha
  have hb1 := min_le s _ hb
  have hb2 := le_max s _ hb
  rw [percentile_mid s p h h0 h1]
  constructor <;> nlinarith

/-- Witness for C1: the series 3, 1, 2 and `p = 40` over the rationals. -/
theorem percentile_between_min_max_witness :
    (ofList [(3 : ℚ), 1, 2]).values_ ≠ [] ∧ (0 : ℚ) ≤ 40 ∧ (40 : ℚ) ≤ 100 ∧
      (ofList [(3 : ℚ), 1, 2]).min ≤ (ofList [(3 : ℚ), 1, 2]).percentile 40 ∧
      (ofList [(3 : ℚ), 1, 2]).percentile 40 ≤ (ofList [(3 : ℚ), 1, 2]).max :=
  ⟨by simp [ofList, add, fresh], by norm_num, by norm_num,
    percentile_between_min_max (ofList [(3 : ℚ), 1, 2]) 40 (by simp [ofList, add, fresh])
      (by norm_num) (by norm_num)⟩

/-- C2: for a non-empty series, `percentile(p)` is `min()` for every `p ≤ 0` and
`max()` for every `p ≥ 100`, where `min()` is a stored sample below or equal to
every stored sample and `max()` a stored sample above or equal to every one. -/
theorem percentile_extremes (s : Statistics K) (h : s.values_ ≠ []) :
    (∀ p : K, p ≤ 0 → s.percentile p = s.min) ∧
    (∀ p : K, 100 ≤ p → s.percentile p = s.max) ∧
    s.percentile 0 = s.min ∧ s.percentile 100 = s.max ∧
    (s.min ∈ s.values_ ∧ ∀ x ∈ s.values_, s.min ≤ x) ∧
    (s.max ∈ s.values_ ∧ ∀ x ∈ s.values_, x ≤ s.max) :=
  ⟨fun p hp => percentile_low s p h hp, fun p hp => percentile_high s p h hp,
    percentile_low s 0 h (le_refl _), percentile_high s 100 h (le_refl _),
    ⟨min_mem s h, min_le s⟩, ⟨max_mem s h, le_max s⟩⟩

/-- Witness for C2: the series 3, 1, 2 over the rationals. -/
theorem percentile_extremes_witness :
    (ofList [(3 : ℚ), 1, 2]).values_ ≠ [] ∧
      (ofList [(3 : ℚ), 1, 2]).percentile 0 = (ofList [(3 : ℚ), 1, 2]).min ∧
      (ofList [(3 : ℚ), 1, 2]).percentile 100 = (ofList [(3 : ℚ), 1, 2]).max :=
  ⟨by simp [ofList, add, fresh],
    (percentile_extremes (ofList [(3 : ℚ), 1, 2]) (by simp [ofList, add, fresh])).2.2.1,
    (percentile_extremes (ofList [(3 : ℚ), 1, 2]) (by simp [ofList, add, fresh])).2.2.2.1⟩

/-- C10, as stated, fails on doubles: for the series 0, 1, ..., 100 (`n = 101`)
and `p = 7` the rank `p/100 * (n-1)` is the integer 7 and the sorted sample at
that rank is 7, but the program computes the rank as
`fl(fl(7/100) * 100) = 7 + 2^-50` (7.000000000000001), takes the interpolation
branch and returns `7 + 2^-50`, not `s[7]`. -/
theorem percentile_integer_rank_counterexample :
    (7 : ℚ) / 100 * ((101 - 1 : Nat) : ℚ) = 7 ∧
    (ofList ((List.range 101).map (fun i : Nat => (i : ℚ)))).values_.length = 101 ∧
    (ofList ((List.range 101).map (fun i : Nat => (i : ℚ)))).sorted.getD 7 0 = 7 ∧
    rank_fl round_double (ofList ((List.range 101).map (fun i : Nat => (i : ℚ)))) 7
      = 7 + 1 / 2 ^ 50 ∧
    (percentile_fl round_double (ofList ((List.range 101).map (fun i : Nat => (i : ℚ)))) 7).1
      = 7 + 1 / 2 ^ 50 := by
  have hsorted : (ofList ((List.range 101).map (fun i : Nat => (i : ℚ)))).sorted
      = (List.range 101).map (fun i : Nat => (i : ℚ)) :=
    sorted_of_sorted _ (range_cast_sorted 101)
  have hlen : (ofList ((List.range 101).map (fun i : Nat => (i : ℚ)))).values_.length = 101 := by
    rw [ofList_values, List.length_map, List.length_range]
  have hne : (ofList ((List.range 101).map (fun i : Nat => (i : ℚ)))).values_ ≠ [] := by
    intro h
    rw [h] at hlen
    exact absurd hlen (by decide)
  have hrank : rank_fl round_double (ofList ((List.range 101).map (fun i : Nat => (i : ℚ)))) 7
      = 7881299347898369 / 1125899906842624 := by
    unfold rank_fl
    rw [sorted_length, hlen]
    have h100 : ((101 - 1 : Nat) : ℚ) = 100 := by norm_num
    rw [h100, round_double_7_100, round_double_100, round_double_rank_7]
  have hfloor : ⌊(7881299347898369 : ℚ) / 1125899906842624⌋ = 7 := by
    rw [Int.floor_eq_iff]
    constructor <;> norm_num
  have hceil : ⌈(7881299347898369 : ℚ) / 1125899906842624⌉ = 8 := by
    rw [Int.ceil_eq_iff]
    constructor <;> norm_num
  have h7 : ((List.range 101).map (fun i : Nat => (i : ℚ))).getD 7 0 = 7 := by
    rw [range_cast_getD 101 7 (by decide)]
    norm_num
  have h8 : ((List.range 101).map (fun i : Nat => (i : ℚ))).getD 8 0 = 8 := by
    rw [range_cast_getD 101 8 (by decide)]
    norm_num
  refine ⟨by norm_num, hlen, by rw [hsorted, h7], by rw [hrank]; norm_num, ?_⟩
  rw [percentile_fl_mid round_double _ 7 hne (by norm_num) (by norm_num), hrank, hfloor, hceil,
    hsorted]
  have t7 : Int.toNat 7 = 7 := rfl
  have t8 : Int.toNat 8 = 8 := rfl
  rw [t7, t8, if_neg (by decide), h7, h8]
  have c7 : ((7 : Nat) : ℚ) = 7 := by norm_num
  have e1 : (7881299347898369 : ℚ) / 1125899906842624 - 7 = 1 / 1125899906842624 := by norm_num
  have e2 : (1 : ℚ) - 1 / 1125899906842624 = 1125899906842623 / 1125899906842624 := by norm_num
  have e3 : (7 : ℚ) * (1125899906842623 / 1125899906842624)
      = 7881299347898361 / 1125899906842624 := by norm_num
  have e4 : (8 : ℚ) * (1 / 1125899906842624) = 8 / 1125899906842624 := by norm_num
  have e5 : (7881299347898361 : ℚ) / 1125899906842624 + 8 / 1125899906842624
      = 7881299347898369 / 1125899906842624 := by norm_num
  rw [c7, round_double_7, e1, round_double_weight, e2, round_double_one_sub_weight, e3,
    round_double_lower_term, e4, round_double_upper_term, e5, round_double_result]
  norm_num

/-- C10, amended: over exact arithmetic (the rounding `fl` of `percentile_fl` is
the identity, which makes it `percentile`), for a non-empty series of `n`
samples and `0 < p < 100`, with `srt` the ascending-sorted samples,
`r = p/100 * (n-1)` and `w = r - floor r`: both `floor r` and `ceil r` are
indices of `srt` within `0 .. n-1`, `percentile(p)` is
`srt[floor r] * (1 - w) + srt[ceil r] * w`, and it is `srt[r]` when `r` is an
integer.  For every rounding, the object (and with it the stored samples in
insertion order) is the same after the call; when the rank as the program
computes it, `fl(fl(p/100) * fl(n-1))`, is an integer, the result is exactly
the sorted sample at that computed rank, and otherwise it is the
interpolation at the computed rank with every operation rounded. -/
theorem percentile_interpolates (s : Statistics K) (p : K) (srt : List K)
    (h : s.values_ ≠ []) (hp0 : 0 < p) (hp1 : p < 100)
    (hsorted : srt.Sorted (· ≤ ·)) (hperm : srt.Perm s.values_) :
    ∃ a b : K,
      srt[Int.toNat ⌊p / 100 * ((s.values_.length - 1 : Nat) : K)⌋]? = some a ∧
      srt[Int.toNat ⌈p / 100 * ((s.values_.length - 1 : Nat) : K)⌉]? = some b ∧
      0 ≤ ⌊p / 100 * ((s.values_.length - 1 : Nat) : K)⌋ ∧
      ⌈p / 100 * ((s.values_.length - 1 : Nat) : K)⌉ ≤ ((s.values_.length - 1 : Nat) : Int) ∧
      s.percentile p =
        a * (1 - (p / 100 * ((s.values_.length - 1 : Nat) : K)
                    - (⌊p / 100 * ((s.values_.length - 1 : Nat) : K)⌋ : K)))
          + b * (p / 100 * ((s.values_.length - 1 : Nat) : K)
                    - (⌊p / 100 * ((s.values_.length - 1 : Nat) : K)⌋ : K)) ∧
      (((⌊p / 100 * ((s.values_.length - 1 : Nat) : K)⌋ : Int) : K)
          = p / 100 * ((s.values_.length - 1 : Nat) : K) → s.percentile p = a) ∧
      percentile_fl id s p = (s.percentile p, s) ∧
      (∀ fl : K → K, (percentile_fl fl s p).2 = s ∧
        (percentile_fl fl s p).2.values_ = s.values_) ∧
      (∀ fl : K → K, ⌊rank_fl fl s p⌋ = ⌈rank_fl fl s p⌉ →
        (percentile_fl fl s p).1 = srt.getD (Int.toNat ⌊rank_fl fl s p⌋) 0) ∧
      (∀ fl : K → K, Int.toNat ⌊rank_fl fl s p⌋ ≠ Int.toNat ⌈rank_fl fl s p⌉ →
        (percentile_fl fl s p).1 =
          fl (fl (srt.getD (Int.toNat ⌊rank_fl fl s p⌋) 0
                  * fl (1 - fl (rank_fl fl s p - fl ((Int.toNat ⌊rank_fl fl s p⌋ : Nat) : K))))
              + fl (srt.getD (Int.toNat ⌈rank_fl fl s p⌉) 0
                  * fl (rank_fl fl s p - fl ((Int.toNat ⌊rank_fl fl s p⌋ : Nat) : K))))) := by
  have hsrt : srt = s.sorted :=
    List.eq_of_perm_of_sorted (hperm.trans (sorted_perm s).symm) hsorted (sorted_sorted s)
  have hr : p / 100 * ((s.values_.length - 1 : Nat) : K) = s.rank p := by
    unfold rank; rw [sorted_length]
  rw [hr, hsrt]
  obtain ⟨hlo, hhi⟩ := indices_lt s p h hp0.le hp1.le
  obtain ⟨h0, h1⟩ := rank_bounds s p hp0.le hp1.le
  refine ⟨s.sorted.getD (Int.toNat ⌊s.rank p⌋) 0, s.sorted.getD (Int.toNat ⌈s.rank p⌉) 0,
    ?_, ?_, Int.floor_nonneg.mpr h0, ?_, ?_, ?_, percentile_fl_id s p, ?_, ?_, ?_⟩
  · rw [List.getD_eq_getElem _ _ hlo, List.getElem?_eq_getElem hlo]
  · rw [List.getD_eq_getElem _ _ hhi, List.getElem?_eq_getElem hhi]
  · rw [Int.ceil_le]; exact_mod_cast h1
  · exact percentile_mid s p h hp0 hp1
  · intro hint
    have hfr : Int.fract (s.rank p) = 0 := by unfold Int.fract; rw [hint]; ring
    have hce : ⌈s.rank p⌉ = ⌊s.rank p⌋ := by
      rw [← hint, Int.ceil_intCast, Int.floor_intCast]
    rw [percentile_mid s p h hp0 hp1, hfr, hce]; ring
  · intro fl
    exact ⟨percentile_fl_state fl s p, by rw [percentile_fl_state fl s p]⟩
  · intro fl hfc
    rw [percentile_fl_mid fl s p h hp0 hp1, if_pos (by rw [hfc])]
  · intro fl hfc
    rw [percentile_fl_mid fl s p h hp0 hp1, if_neg hfc]

/-- Witness for C10: the series 3, 1, 2 and `p = 40` over the rationals. -/
theorem percentile_interpolates_witness :
    ∃ a b : ℚ,
      [(1 : ℚ), 2, 3][Int.toNat ⌊(40 : ℚ) / 100 * (((ofList [(3 : ℚ), 1, 2]).values_.length - 1 : Nat) : ℚ)⌋]? = some a ∧
      [(1 : ℚ), 2, 3][Int.toNat ⌈(40 : ℚ) / 100 * (((ofList [(3 : ℚ), 1, 2]).values_.length - 1 : Nat) : ℚ)⌉]? = some b ∧
      0 ≤ ⌊(40 : ℚ) / 100 * (((ofList [(3 : ℚ), 1, 2]).values_.length - 1 : Nat) : ℚ)⌋ ∧
      ⌈(40 : ℚ) / 100 * (((ofList [(3 : ℚ), 1, 2]).values_.length - 1 : Nat) : ℚ)⌉
        ≤ (((ofList [(3 : ℚ), 1, 2]).values_.length - 1 : Nat) : Int) ∧
      (ofList [(3 : ℚ), 1, 2]).percentile 40 =
        a * (1 - ((40 : ℚ) / 100 * (((ofList [(3 : ℚ), 1, 2]).values_.length - 1 : Nat) : ℚ)
                    - (⌊(40 : ℚ) / 100 * (((ofList [(3 : ℚ), 1, 2]).values_.length - 1 : Nat) : ℚ)⌋ : ℚ)))
          + b * ((40 : ℚ) / 100 * (((ofList [(3 : ℚ), 1, 2]).values_.length - 1 : Nat) : ℚ)
                    - (⌊(40 : ℚ) / 100 * (((ofList [(3 : ℚ), 1, 2]).values_.length - 1 : Nat) : ℚ)⌋ : ℚ)) ∧
      (((⌊(40 : ℚ) / 100 * (((ofList [(3 : ℚ), 1, 2]).values_.length - 1 : Nat) : ℚ)⌋ : Int) : ℚ)
          = (40 : ℚ) / 100 * (((ofList [(3 : ℚ), 1, 2]).values_.length - 1 : Nat) : ℚ) →
        (ofList [(3 : ℚ), 1, 2]).percentile 40 = a) ∧
      percentile_fl id (ofList [(3 : ℚ), 1, 2]) 40
        = ((ofList [(3 : ℚ), 1, 2]).percentile 40, ofList [(3 : ℚ), 1, 2]) ∧
      (∀ fl : ℚ → ℚ, (percentile_fl fl (ofList [(3 : ℚ), 1, 2]) 40).2 = ofList [(3 : ℚ), 1, 2] ∧
        (percentile_fl fl (ofList [(3 : ℚ), 1, 2]) 40).2.values_
          = (ofList [(3 : ℚ), 1, 2]).values_) ∧
      (∀ fl : ℚ → ℚ,
        ⌊rank_fl fl (ofList [(3 : ℚ), 1, 2]) 40⌋ = ⌈rank_fl fl (ofList [(3 : ℚ), 1, 2]) 40⌉ →
        (percentile_fl fl (ofList [(3 : ℚ), 1, 2]) 40).1
          = [(1 : ℚ), 2, 3].getD (Int.toNat ⌊rank_fl fl (ofList [(3 : ℚ), 1, 2]) 40⌋) 0) ∧
      (∀ fl : ℚ → ℚ,
        Int.toNat ⌊rank_fl fl (ofList [(3 : ℚ), 1, 2]) 40⌋
          ≠ Int.toNat ⌈rank_fl fl (ofList [(3 : ℚ), 1, 2]) 40⌉ →
        (percentile_fl fl (ofList [(3 : ℚ), 1, 2]) 40).1 =
          fl (fl ([(1 : ℚ), 2, 3].getD (Int.toNat ⌊rank_fl fl (ofList [(3 : ℚ), 1, 2]) 40⌋) 0
                  * fl (1 - fl (rank_fl fl (ofList [(3 : ℚ), 1, 2]) 40
                      - fl ((Int.toNat ⌊rank_fl fl (ofList [(3 : ℚ), 1, 2]) 40⌋ : Nat) : ℚ))))
              + fl ([(1 : ℚ), 2, 3].getD (Int.toNat ⌈rank_fl fl (ofList [(3 : ℚ), 1, 2]) 40⌉) 0
                  * fl (rank_fl fl (ofList [(3 : ℚ), 1, 2]) 40
                      - fl ((Int.toNat ⌊rank_fl fl (ofList [(3 : ℚ), 1, 2]) 40⌋ : Nat) : ℚ))))) :=
  percentile_interpolates (ofList [(3 : ℚ), 1, 2]) 40 [1, 2, 3]
    (by simp [ofList, add, fresh]) (by norm_num) (by norm_num)
    (by norm_num) (by simp [ofList, add, fresh]; decide)

/-- C8: for the series built by adding 10, 20, 30, 40, 50 in that order,
`mean() = 30`, `percentile(50) = 30`, `jitter() = 10`, and `stddev()` is the
square root of 250, which lies between 15.81 and 15.82. -/
theorem scenario_10_to_50 (sqrt : K → K) :
    (ofList [(10 : K), 20, 30, 40, 50]).mean = 30 ∧
    (ofList [(10 : K), 20, 30, 40, 50]).percentile 50 = 30 ∧
    (ofList [(10 : K), 20, 30, 40, 50]).jitter = 10 ∧
    (ofList [(10 : K), 20, 30, 40, 50]).stddev sqrt = sqrt 250 ∧
    (ofList [(10 : ℝ), 20, 30, 40, 50]).stddev Real.sqrt = Real.sqrt 250 ∧
    (15.81 : ℝ) < Real.sqrt 250 ∧ Real.sqrt 250 < (15.82 : ℝ) := by
  have hv : ∀ (F : Type) [LinearOrderedField F] [FloorRing F],
      (ofList [(10 : F), 20, 30, 40, 50]) =
        { values_ := [10, 20, 30, 40, 50], sum_ := 150, sum_sq_ := 5500 } := by
    intro F _ _
    simp only [ofList, List.foldl, add, fresh, List.nil_append, List.cons_append]
    congr 1 <;> norm_num
  have hsd : ∀ (F : Type) [LinearOrderedField F] [FloorRing F] (f : F → F),
      (ofList [(10 : F), 20, 30, 40, 50]).stddev f = f 250 := by
    intro F _ _ f
    rw [hv F]
    simp only [stddev, List.length_cons, List.length_nil]
    norm_num
  refine ⟨?_, ?_, ?_, hsd K sqrt, hsd ℝ Real.sqrt, ?_, ?_⟩
  · rw [hv K]; simp only [mean, List.length_cons, List.length_nil]; norm_num
  · rw [hv K]
    have hs : Statistics.sorted
        ({ values_ := [10, 20, 30, 40, 50], sum_ := 150, sum_sq_ := 5500 } : Statistics K)
          = [10, 20, 30, 40, 50] := by
      norm_num [sorted, List.insertionSort, List.orderedInsert]
    have hr : Statistics.rank
        ({ values_ := [10, 20, 30, 40, 50], sum_ := 150, sum_sq_ := 5500 } : Statistics K) 50
          = ((2 : Int) : K) := by
      simp only [rank, hs, List.length_cons, List.length_nil]; norm_num
    rw [percentile_mid _ _ (by simp) (by norm_num) (by norm_num), hr, Int.floor_intCast,
      Int.ceil_intCast, Int.fract_intCast, hs]
    simp
  · rw [hv K]; simp only [jitter, sum_diff, List.length_cons, List.length_nil]; norm_num
  · rw [Real.lt_sqrt (by norm_num)]; norm_num
  · rw [Real.sqrt_lt' (by norm_num)]; norm_num

/-- C9: after any sequence of `add` and `reset` calls, with `n` stored samples:
for `n ≥ 2`, `stddev()` is `sqrt(max(0, (sum_sq - sum^2/n)/(n-1)))` where `sum`
and `sum_sq` are the sum and the sum of squares of the stored samples; over
the reals this is the sample standard deviation
`sqrt(sum of (x_i - mean)^2 / (n-1))`; `stddev()` is never negative; and for
`n < 2` it is 0. -/
theorem stddev_sample (ops : List (Op ℝ)) :
    (2 ≤ (run ops).values_.length →
      (run ops).stddev Real.sqrt =
        Real.sqrt (Max.max 0
          ((((run ops).values_.map (fun x => x * x)).sum
              - (run ops).values_.sum * (run ops).values_.sum / ((run ops).values_.length : ℝ))
            / (((run ops).values_.length - 1 : Nat) : ℝ))) ∧
      (run ops).stddev Real.sqrt =
        Real.sqrt
          (((run ops).values_.map
              (fun x => (x - (run ops).values_.sum / ((run ops).values_.length : ℝ)) ^ 2)).sum
            / (((run ops).values_.length - 1 : Nat) : ℝ))) ∧
    0 ≤ (run ops).stddev Real.sqrt ∧
    ((run ops).values_.length < 2 → (run ops).stddev Real.sqrt = 0) := by
  obtain ⟨h1, h2⟩ := consistent_run ops
  have key : 2 ≤ (run ops).values_.length →
      (run ops).stddev Real.sqrt =
        Real.sqrt (Max.max 0
          ((((run ops).values_.map (fun x => x * x)).sum
              - (run ops).values_.sum * (run ops).values_.sum / ((run ops).values_.length : ℝ))
            / (((run ops).values_.length - 1 : Nat) : ℝ))) := by
    intro hn
    unfold stddev
    rw [if_neg (by omega), h1, h2]
  refine ⟨fun hn => ⟨key hn, ?_⟩, ?_, ?_⟩
  · rw [key hn, variance_eq _ hn, max_eq_right (variance_nonneg _)]
  · by_cases hn : 2 ≤ (run ops).values_.length
    · rw [key hn]; exact Real.sqrt_nonneg _
    · unfold stddev; rw [if_pos (by omega)]
  · intro hn
    unfold stddev; rw [if_pos hn]

/-- Witness for C9: the series built by `add(1); reset(); add(2); add(4)`. -/
theorem stddev_sample_witness :
    (run [Op.add (1 : ℝ), Op.reset, Op.add 2, Op.add 4]).stddev Real.sqrt =
      Real.sqrt
        (((run [Op.add (1 : ℝ), Op.reset, Op.add 2, Op.add 4]).values_.map
            (fun x => (x - (run [Op.add (1 : ℝ), Op.reset, Op.add 2, Op.add 4]).values_.sum
              / ((run [Op.add (1 : ℝ), Op.reset, Op.add 2, Op.add 4]).values_.length : ℝ)) ^ 2)).sum
          / (((run [Op.add (1 : ℝ), Op.reset, Op.add 2, Op.add 4]).values_.length - 1 : Nat) : ℝ)) :=
  ((stddev_sample [Op.add (1 : ℝ), Op.reset, Op.add 2, Op.add 4]).1
    (by simp [run, applyOp, add, reset, fresh])).2

/-- C11: for the series of the samples `xs` in insertion order, with `n` the
number of samples: the stored samples are `xs` in that order; for `n ≥ 2`,
`jitter()` is the sum over `i = 2 .. n` of `|x_i - x_(i-1)|` divided by `n - 1`;
for `n < 2` it is 0.  The value depends on the insertion order: the samples
1, 3, 2 give 3/2 while the same samples in sorted order give 1. -/
theorem jitter_consecutive (xs : List K) :
    (ofList xs).values_ = xs ∧
    (2 ≤ xs.length →
      (ofList xs).jitter = consecutive_abs_sum xs / ((xs.length - 1 : Nat) : K)) ∧
    (xs.length < 2 → (ofList xs).jitter = 0) ∧
    (ofList [(1 : K), 3, 2]).jitter = 3 / 2 ∧ (ofList [(1 : K), 2, 3]).jitter = 1 := by
  have hj : ∀ ys : List K, 2 ≤ ys.length →
      (ofList ys).jitter = consecutive_abs_sum ys / ((ys.length - 1 : Nat) : K) := by
    intro ys hn
    unfold jitter
    rw [ofList_values, if_neg (by omega), sum_diff_eq]
  refine ⟨ofList_values xs, hj xs, ?_, ?_, ?_⟩
  · intro hn
    unfold jitter
    rw [ofList_values, if_pos hn]
  · rw [hj _ (by simp)]
    simp [consecutive_abs_sum, List.range_succ]
    norm_num [abs_of_nonneg, abs_of_nonpos]
  · rw [hj _ (by simp)]
    simp [consecutive_abs_sum, List.range_succ]
    norm_num [abs_of_nonneg]

/-- Witness for C11: the series 10, 20, 30, 40, 50 over the rationals. -/
theorem jitter_consecutive_witness :
    (ofList [(10 : ℚ), 20, 30, 40, 50]).jitter
      = consecutive_abs_sum [(10 : ℚ), 20, 30, 40, 50]
          / (([(10 : ℚ), 20, 30, 40, 50].length - 1 : Nat) : ℚ) :=
  (jitter_consecutive [(10 : ℚ), 20, 30, 40, 50]).2.1 (by decide)

/-- C12: after any sequence of `add` and `reset` calls: on a non-empty series
`mean()` is the sum of the stored samples divided by their number, `min()` is a
stored sample not above any stored sample and `max()` a stored sample not
below any; on an empty series `min()`, `max()` and `mean()` are all 0. -/
theorem min_max_mean (ops : List (Op K)) :
    ((run ops).values_ ≠ [] →
      (run ops).mean = (run ops).values_.sum / ((run ops).values_.length : K) ∧
      ((run ops).min ∈ (run ops).values_ ∧ ∀ x ∈ (run ops).values_, (run ops).min ≤ x) ∧
      ((run ops).max ∈ (run ops).values_ ∧ ∀ x ∈ (run ops).values_, x ≤ (run ops).max)) ∧
    ((run ops).values_ = [] →
      (run ops).min = 0 ∧ (run ops).max = 0 ∧ (run ops).mean = 0) := by
  constructor
  · intro h
    refine ⟨?_, ⟨min_mem _ h, min_le _⟩, ⟨max_mem _ h, le_max _⟩⟩
    have hc := (consistent_run ops).1
    unfold mean
    cases hv : (run ops).values_ with
    | nil => exact absurd hv h
    | cons x xs => simp only [hc, hv]
  · intro h
    simp [Statistics.min, Statistics.max, mean, h]

/-- Witness for C12: the series built by `add(4); reset(); add(3); add(1)`. -/
theorem min_max_mean_witness :
    (run [Op.add (4 : ℚ), Op.reset, Op.add 3, Op.add 1]).mean
      = (run [Op.add (4 : ℚ), Op.reset, Op.add 3, Op.add 1]).values_.sum
        / ((run [Op.add (4 : ℚ), Op.reset, Op.add 3, Op.add 1]).values_.length : ℚ) :=
  ((min_max_mean [Op.add (4 : ℚ), Op.reset, Op.add 3, Op.add 1]).1
    (by simp [run, applyOp, add, reset, fresh])).1

/-- C13: aggregate consistency.  After every finite sequence of `add` and
`reset` calls on a fresh object, the running sum is the sum of the stored
samples, the running sum of squares is the sum of their squares, `count()` is
the number of stored samples, and the stored samples are the values added
since the last `reset`, in insertion order. -/
theorem aggregates_consistent (ops : List (Op K)) :
    (run ops).sum_ = (run ops).values_.sum ∧
    (run ops).sum_sq_ = ((run ops).values_.map (fun x => x * x)).sum ∧
    (run ops).count = (run ops).values_.length ∧
    (run ops).values_ = added_since_reset ops :=
  ⟨(consistent_run ops).1, (consistent_run ops).2, rfl, run_values ops⟩

/-- C29: `percentile` is monotone in `p`: for a non-empty series and all
`p ≤ q`, below 0 and above 100 included, `percentile(p) ≤ percentile(q)` over
exact arithmetic. -/
theorem percentile_monotone (s : Statistics K) (p q : K) (h : s.values_ ≠ []) (hpq : p ≤ q) :
    s.percentile p ≤ s.percentile q := by
  by_cases hp0 : p ≤ 0
  · rw [percentile_low s p h hp0]
    by_cases hq0 : q ≤ 0
    · rw [percentile_low s q h hq0]
    · by_cases hq1 : 100 ≤ q
      · rw [percentile_high s q h hq1]
        exact min_le_max s h
      · exact (percentile_in_range s q h (not_le.mp hq0).le (not_le.mp hq1).le).1
  · have hp0' : 0 < p := not_le.mp hp0
    by_cases hq1 : 100 ≤ q
    · rw [percentile_high s q h hq1]
      by_cases hp1 : 100 ≤ p
      · rw [percentile_high s p h hp1]
      · exact (percentile_in_range s p h hp0'.le (not_le.mp hp1).le).2
    · exact percentile_mid_mono s p q h hp0' hpq (not_le.mp hq1)

/-- Witness for C29: the series 3, 1, 2 with `p = 40` and `q = 75`. -/
theorem percentile_monotone_witness :
    (ofList [(3 : ℚ), 1, 2]).percentile 40 ≤ (ofList [(3 : ℚ), 1, 2]).percentile 75 :=
  percentile_monotone (ofList [(3 : ℚ), 1, 2]) 40 75 (by simp [ofList, add, fresh])
    (by norm_num)

end Claims

end Statistics

/-! ## Theorems on the checksum and the echo probe -/

namespace Ping

/-- C3: checksum round trip.  For a packet of bytes with a checksum field at an
even byte offset, after the field is zeroed, `checksum()` is computed over the
whole packet and the result is stored in the field: the 16-bit sum that
`checksum()` forms over the final packet is `0xFFFF`, so `checksum()` of the
final packet is 0; and as long as the 32-bit accumulator cannot wrap (at most
65537 words), the ones-complement sum of the words of the final packet, formed
with end-around carry, is `0xFFFF`. -/
theorem checksum_round_trip (be : Bool) (pkt : List Nat) (k : Nat)
    (hbytes : ∀ b ∈ pkt, b < 256) (hoff : 2 * k + 1 < pkt.length) :
    folded_sum be (insert_checksum be pkt (2 * k)) % 2 ^ 16 = 0xFFFF ∧
    checksum be (insert_checksum be pkt (2 * k)) = 0 ∧
    (pkt.length ≤ 131074 → ones_sum (words be (insert_checksum be pkt (2 * k))) = 0xFFFF) := by
  have hT := accumulate_lt be (store16 be pkt (2 * k) 0)
  obtain ⟨c1, c2, c3⟩ := fold16_complement _ hT
  have hacc := accumulate_insert be k pkt hoff
  have hfold : folded_sum be (insert_checksum be pkt (2 * k)) % 2 ^ 16 = 0xFFFF := by
    unfold folded_sum
    rw [hacc]
    exact c2
  refine ⟨hfold, ?_, ?_⟩
  · unfold checksum folded_sum
    rw [hacc]
    exact c3
  · intro hlen
    have hb : ∀ b ∈ insert_checksum be pkt (2 * k), b < 256 := by
      unfold insert_checksum
      exact store16_bytes be _ _ _ (store16_bytes be pkt _ _ hbytes)
    have hl : (insert_checksum be pkt (2 * k)).length = pkt.length := by
      unfold insert_checksum
      simp only [store16_length]
    obtain ⟨w1, w2⟩ := words_sum_le be _ hb
    rw [hl] at w2
    have hS : (words be (insert_checksum be pkt (2 * k))).sum < 4294967296 := by omega
    have hacc2 : accumulate be 0 (insert_checksum be pkt (2 * k))
        = (words be (insert_checksum be pkt (2 * k))).sum := by
      rw [accumulate_eq be _ 0 (by norm_num)]
      omega
    unfold folded_sum at hfold
    rw [hacc2] at hfold
    obtain ⟨m1, m2⟩ := fold16_all_ones _ hS hfold
    obtain ⟨o1, o2, o3⟩ := ones_foldl _ 0 (by norm_num) w1
    unfold ones_sum
    omega

/-- Witness for C3: the 64-byte echo request of process 1234 with sequence
number 1 on a little-endian host, checksum field at byte offset 2. -/
theorem checksum_round_trip_witness :
    folded_sum false (insert_checksum false ((echo_request_zeroed 1234 1).bytes false) (2 * 1))
        % 2 ^ 16 = 0xFFFF ∧
      checksum false (insert_checksum false ((echo_request_zeroed 1234 1).bytes false) (2 * 1))
        = 0 ∧
      ones_sum (words false
        (insert_checksum false ((echo_request_zeroed 1234 1).bytes false) (2 * 1))) = 0xFFFF :=
  ⟨(checksum_round_trip false ((echo_request_zeroed 1234 1).bytes false) 1
      (by decide) (by decide)).1,
    (checksum_round_trip false ((echo_request_zeroed 1234 1).bytes false) 1
      (by decide) (by decide)).2.1,
    (checksum_round_trip false ((echo_request_zeroed 1234 1).bytes false) 1
      (by decide) (by decide)).2.2 (by decide)⟩

/-- C7: echo reply validation.  When the request was sent and a reply was
received whose type is not echo-reply, or whose identifier differs from the
one in the request, or whose sequence number differs from the one in the
request, `send_ping` fails with the reason "Invalid ICMP reply"; a failed or
timed-out receive makes it fail with a reason starting "Recvfrom failed: ",
which is a different reason. -/
theorem invalid_reply_rejected {K : Type} (be : Bool) (pid seq : Nat) (x : Exchange K)
    (hsent : 0 ≤ x.sent) (hrecv : 0 ≤ x.received) (hid : x.reply.id < 2 ^ 16)
    (hbad : x.reply.type ≠ ICMP_ECHOREPLY ∨ x.reply.id ≠ (echo_request be pid seq).id ∨
      x.reply.sequence ≠ (echo_request be pid seq).sequence) :
    send_ping pid seq x = Except.error "Invalid ICMP reply" ∧
    ∀ y : Exchange K, 0 ≤ y.sent → y.received < 0 →
      send_ping pid seq y = Except.error ("Recvfrom failed: " ++ y.recv_strerror) ∧
      send_ping pid seq y ≠ send_ping pid seq x := by
  have hx : send_ping pid seq x = Except.error "Invalid ICMP reply" := by
    rw [send_ping_received pid seq x hsent hrecv, if_pos]
    simp only [echo_request, echo_request_zeroed] at hbad
    rcases hbad with h | h | h
    · exact Or.inl h
    · refine Or.inr (Or.inl ?_)
      intro he
      apply h
      rw [he] at hid ⊢
      exact (Nat.mod_eq_of_lt hid).symm
    · exact Or.inr (Or.inr h)
  refine ⟨hx, fun y hs hr => ⟨send_ping_recv_failed pid seq y hs hr, ?_⟩⟩
  rw [hx, send_ping_recv_failed pid seq y hs hr]
  intro he
  exact invalid_ne_recvfrom _ (Except.error.inj he).symm

/-- Witness for C7: a reply of type 3 (destination unreachable) to the request
of process 1234 with sequence number 1. -/
theorem invalid_reply_rejected_witness :
    send_ping 1234 1
        ({ sent := 64, send_strerror := "", received := 64, recv_strerror := "",
           reply := { type := 3, code := 1, checksum := 0, id := 1234, sequence := 1, data := [] },
           rtt := 5 } : Exchange ℚ)
      = Except.error "Invalid ICMP reply" :=
  (invalid_reply_rejected false 1234 1
    ({ sent := 64, send_strerror := "", received := 64, recv_strerror := "",
       reply := { type := 3, code := 1, checksum := 0, id := 1234, sequence := 1, data := [] },
       rtt := 5 } : Exchange ℚ)
    (by decide) (by decide) (by decide) (Or.inl (by decide))).1

/-- C21, as stated, fails: in a run of 65536 probes, the first request
carries the sequence number 1 and the last one (probe 65535, counted from 0)
carries 0, because the parameter `seq` of `send_ping` is a `uint16_t`. -/
theorem sequence_increasing_counterexample :
    ((ping_loop false 1234 (fun _ => lost_exchange) 65536).requests[0]?).map ICMPPacket.sequence = some 1 ∧
    ((ping_loop false 1234 (fun _ => lost_exchange) 65536).requests[65535]?).map ICMPPacket.sequence = some 0 :=
  ⟨ping_loop_sequence false 1234 _ 65536 0 (by norm_num),
    ping_loop_sequence false 1234 _ 65536 65535 (by norm_num)⟩

/-- C21, amended: request `k` of a ping run (counted from 0) carries the
sequence number `(k + 1) mod 2^16`; so for every probe count and every pair of
probes `i < j` among the first 65535 probes of the run, the sequence number of
request `j` is strictly greater than that of request `i`. -/
theorem sequence_increasing {K : Type} [LinearOrderedField K] (be : Bool) (pid : Nat)
    (exchange : Nat → Exchange K) (count i j : Nat) (hij : i < j) (hj : j < count)
    (h16 : j < 65535) :
    ∃ si sj,
      ((ping_loop be pid exchange count).requests[i]?).map ICMPPacket.sequence = some si ∧
      ((ping_loop be pid exchange count).requests[j]?).map ICMPPacket.sequence = some sj ∧
      si = (i + 1) % 2 ^ 16 ∧ sj = (j + 1) % 2 ^ 16 ∧ si < sj := by
  refine ⟨(i + 1) % 2 ^ 16, (j + 1) % 2 ^ 16,
    ping_loop_sequence be pid exchange count i (by omega),
    ping_loop_sequence be pid exchange count j hj, rfl, rfl, ?_⟩
  rw [Nat.mod_eq_of_lt (by norm_num; omega), Nat.mod_eq_of_lt (by norm_num; omega)]
  omega

/-- Witness for C21: probes 0 and 2 of a run of three probes. -/
theorem sequence_increasing_witness :
    ∃ si sj,
      ((ping_loop false 1234 (fun _ => lost_exchange) 3).requests[0]?).map ICMPPacket.sequence = some si ∧
      ((ping_loop false 1234 (fun _ => lost_exchange) 3).requests[2]?).map ICMPPacket.sequence = some sj ∧
      si = (0 + 1) % 2 ^ 16 ∧ sj = (2 + 1) % 2 ^ 16 ∧ si < sj :=
  sequence_increasing false 1234 (fun _ => lost_exchange) 3 0 2 (by decide) (by decide)
    (by decide)

/-- C23: per-probe failures are isolated in the echo loop.  For every probe
count `c` and every behaviour of the operating system during the probes,
exactly `c` requests are built, `transmitted` ends at `c`, `received` is the
number of successful probes and the sample count of the statistics, and the
stored samples are the round-trip times of the successful probes in probe
order. -/
theorem ping_failures_isolated {K : Type} [LinearOrderedField K] [FloorRing K] (be : Bool)
    (pid : Nat) (exchange : Nat → Exchange K) (c : Nat) :
    (ping_loop be pid exchange c).requests.length = c ∧
    (ping_loop be pid exchange c).transmitted = c ∧
    (ping_loop be pid exchange c).received
      = ((List.range c).filter
          (fun i => (rtt_of (send_ping pid (i + 1) (exchange i))).isSome)).length ∧
    (ping_loop be pid exchange c).received = (ping_loop be pid exchange c).stats.count ∧
    (ping_loop be pid exchange c).stats.values_
      = (List.range c).filterMap (fun i => rtt_of (send_ping pid (i + 1) (exchange i))) := by
  obtain ⟨h1, h2, h3, h4⟩ := ping_loop_inv be pid exchange c
  refine ⟨by rw [h2]; simp, h1, ?_, h4, h3⟩
  rw [h4, h3, length_filterMap_isSome]

/-- C27, at the failing input: the process identifier is 70000, the request
carries the identifier `70000 mod 2^16 = 4464` and the sequence number 1, and
the reply is an echo reply carrying exactly these two fields; `send_ping`
compares the identifier of the reply with the whole of `getpid()` and rejects
the reply. -/
theorem valid_reply_rejected_large_pid :
    send_ping 70000 1
        ({ sent := 64, send_strerror := "", received := 64, recv_strerror := "",
           reply := { type := ICMP_ECHOREPLY, code := 0, checksum := 0,
                      id := (echo_request false 70000 1).id,
                      sequence := (echo_request false 70000 1).sequence, data := [] },
           rtt := 5 } : Exchange ℚ)
      = Except.error "Invalid ICMP reply" ∧
    (echo_request false 70000 1).id = 4464 := by
  constructor
  · rw [send_ping_received _ _ _ (by decide) (by decide), if_pos]
    right; left
    decide
  · decide

end Ping

/-! ## Theorems on the port-scan dispatch -/

namespace Scan

/-- C4: work-cursor dispatch.  For `N` work items and `K ≥ 1` workers, after
every interleaving `sched` of the worker steps: the claimed indices are
`0 .. min(cursor, N) - 1` in claiming order, so none is claimed twice and none
is `≥ N`; every claim is made by one of the `K` workers; the cursor has been
incremented at most `N + K` times, so the workers execute at most `N + K` loop
iterations in total; when all workers have stopped, every index below `N` has
been claimed by exactly one worker exactly once (the claims with index `i`
are the single pair `(w, i)`); and all workers have stopped
as soon as every worker has been scheduled more than `2 * N` times. -/
theorem work_cursor_dispatch (ports : List Nat) (scan_port : Nat → Bool) (K : Nat)
    (sched : List Nat) (hK : 1 ≤ K) (hsz : ports.length + K < 2 ^ 64) :
    (run ports scan_port K sched).claims.map Prod.snd
      = List.range (Nat.min (run ports scan_port K sched).next_port ports.length) ∧
    ((run ports scan_port K sched).claims.map Prod.snd).Nodup ∧
    (∀ c ∈ (run ports scan_port K sched).claims, c.1 < K ∧ c.2 < ports.length) ∧
    (run ports scan_port K sched).next_port ≤ ports.length + K ∧
    (joined (run ports scan_port K sched) = true →
      ∀ i < ports.length, ∃ w < K,
        (run ports scan_port K sched).claims.filter (fun c => c.2 == i) = [(w, i)]) ∧
    ((∀ w < K, 2 * ports.length < sched.count w) →
      joined (run ports scan_port K sched) = true) := by
  have h := inv_run ports scan_port K hsz sched
  have hcur := h.cursor
  have hle := h.le
  have hfull := h.full
  have hsc := stopped_count_le (run ports scan_port K sched).workers
  rw [h.len] at hsc
  have hmin : Nat.min (run ports scan_port K sched).next_port ports.length
      = (run ports scan_port K sched).claims.length := by
    by_cases hp : 0 < stopped_count (run ports scan_port K sched).workers
    · have := hfull hp
      rw [hcur, this]
      exact Nat.min_eq_right (by omega)
    · rw [hcur]
      have h0 : stopped_count (run ports scan_port K sched).workers = 0 := by omega
      rw [h0, Nat.add_zero]
      exact Nat.min_eq_left hle
  refine ⟨by rw [hmin]; exact h.idx, by rw [h.idx]; exact List.nodup_range _, ?_, by omega,
    ?_, joined_of_fair ports scan_port K sched _ h⟩
  · intro c hc
    refine ⟨h.who c hc, ?_⟩
    have hm : c.2 ∈ (run ports scan_port K sched).claims.map Prod.snd :=
      List.mem_map.mpr ⟨c, hc, rfl⟩
    rw [h.idx, List.mem_range] at hm
    omega
  · intro hj i hi
    have hN := claims_length_of_joined ports scan_port K sched _ hK h hj
    have hidx := h.idx
    rw [hN] at hidx
    obtain ⟨w, hw⟩ := exactly_once _ _ hidx i hi
    have hmem : (w, i) ∈ (run ports scan_port K sched).claims := by
      have : (w, i) ∈ (run ports scan_port K sched).claims.filter (fun c => c.2 == i) := by
        rw [hw]; exact List.mem_singleton.mpr rfl
      exact (List.mem_filter.mp this).1
    exact ⟨w, h.who _ hmem, hw⟩

/-- Witness for C4: three work items, two workers, one interleaving. -/
theorem work_cursor_dispatch_witness :
    (run [80, 443, 8080] (fun p => p == 443 || p == 8080) 2
        [0, 1, 1, 0, 0, 1, 0, 1, 1, 0]).claims.map Prod.snd
      = List.range (Nat.min (run [80, 443, 8080] (fun p => p == 443 || p == 8080) 2
          [0, 1, 1, 0, 0, 1, 0, 1, 1, 0]).next_port [80, 443, 8080].length) :=
  (work_cursor_dispatch [80, 443, 8080] (fun p => p == 443 || p == 8080) 2
    [0, 1, 1, 0, 0, 1, 0, 1, 1, 0] (by decide) (by norm_num)).1

/-- C5: for every list of ports, every probe outcome per port and `K ≥ 1`
workers, once all workers have stopped the sorted result list holds exactly
the ports whose probe succeeded, each as often as it occurs in the input, in
ascending port order, every entry marked open; no port whose probe failed is
reported. -/
theorem scan_reports_open_ports (ports : List Nat) (scan_port : Nat → Bool) (K : Nat)
    (sched : List Nat) (hK : 1 ≤ K) (hsz : ports.length + K < 2 ^ 64)
    (hj : joined (run ports scan_port K sched) = true) :
    (scan_results ports scan_port K sched).map ScanResult.port
      = (ports.filter scan_port).insertionSort (· ≤ ·) ∧
    ((scan_results ports scan_port K sched).map ScanResult.port).Sorted (· ≤ ·) ∧
    ((scan_results ports scan_port K sched).map ScanResult.port).Perm (ports.filter scan_port) ∧
    (∀ p, p ∈ (scan_results ports scan_port K sched).map ScanResult.port
      ↔ p ∈ ports ∧ scan_port p = true) ∧
    (∀ r ∈ scan_results ports scan_port K sched, r.is_open = true) := by
  have h := inv_run ports scan_port K hsz sched
  have hN := claims_length_of_joined ports scan_port K sched _ hK h hj
  have hres := h.res
  rw [pending_all ports scan_port _ ((joined_iff _).mp hj), add_zero, hN, List.take_length,
    Multiset.coe_eq_coe] at hres
  have hperm : ((scan_results ports scan_port K sched).map ScanResult.port).Perm
      (ports.filter scan_port) := by
    unfold scan_results
    rw [map_port_sort_results]
    exact (List.perm_insertionSort _ _).trans hres
  have hsorted : ((scan_results ports scan_port K sched).map ScanResult.port).Sorted (· ≤ ·) := by
    unfold scan_results
    rw [map_port_sort_results]
    exact List.sorted_insertionSort _ _
  refine ⟨?_, hsorted, hperm, ?_, ?_⟩
  · exact List.eq_of_perm_of_sorted (hperm.trans (List.perm_insertionSort _ _).symm) hsorted
      (List.sorted_insertionSort _ _)
  · intro p
    rw [hperm.mem_iff, List.mem_filter]
  · intro r hr
    unfold scan_results sort_results at hr
    exact (h.shape r ((List.perm_insertionSort _ _).mem_iff.mp hr)).1

/-- Witness for C5: ports 80, 443, 8080 with 443 and 8080 reachable give
exactly 443, 8080, for one, two and three workers (one interleaving each). -/
theorem scan_reports_open_ports_witness :
    (scan_results [80, 443, 8080] (fun p => p == 443 || p == 8080) 1
        [0, 0, 0, 0, 0, 0, 0]).map ScanResult.port = [443, 8080] ∧
    (scan_results [80, 443, 8080] (fun p => p == 443 || p == 8080) 2
        [0, 1, 1, 0, 0, 1, 0, 1, 1, 0]).map ScanResult.port = [443, 8080] ∧
    (scan_results [80, 443, 8080] (fun p => p == 443 || p == 8080) 3
        [2, 1, 0, 0, 1, 2, 2, 1, 0]).map ScanResult.port = [443, 8080] :=
  ⟨(scan_reports_open_ports [80, 443, 8080] (fun p => p == 443 || p == 8080) 1
      [0, 0, 0, 0, 0, 0, 0] (by decide) (by norm_num) (by decide)).1.trans (by decide),
    (scan_reports_open_ports [80, 443, 8080] (fun p => p == 443 || p == 8080) 2
      [0, 1, 1, 0, 0, 1, 0, 1, 1, 0] (by decide) (by norm_num) (by decide)).1.trans (by decide),
    (scan_reports_open_ports [80, 443, 8080] (fun p => p == 443 || p == 8080) 3
      [2, 1, 0, 0, 1, 2, 2, 1, 0] (by decide) (by norm_num) (by decide)).1.trans (by decide)⟩

/-- C30 (port specification expansion in scan): a range written as two decimal
numerals `a-b` with `a ≤ b ≤ 65535` expands to exactly `a, a+1, ..., b` in
ascending order (`b - a + 1` entries, each between `a` and `b`), and a
comma-separated list of decimal numerals, each at most 65535, expands to
exactly the written numbers in the written order. The first two parts hold
for every numeral (leading zeros allowed); the last two instantiate them to
the canonical decimal representation of the numbers. -/
theorem port_spec_expansion :
    (∀ da db : List Char, IsNumeral da → IsNumeral db →
        numeral_value da ≤ numeral_value db → numeral_value db ≤ 65535 →
        expand_ports (da ++ '-' :: db) =
          some (List.range' (numeral_value da) (numeral_value db - numeral_value da + 1))) ∧
    (∀ toks : List (List Char), toks ≠ [] →
        (∀ t ∈ toks, IsNumeral t ∧ numeral_value t ≤ 65535) →
        expand_ports (join_commas toks) = some (toks.map numeral_value)) ∧
    (∀ a b : Nat, a ≤ b → b ≤ 65535 →
        expand_ports ((Nat.repr a).toList ++ '-' :: (Nat.repr b).toList) =
            some (List.range' a (b - a + 1)) ∧
          (List.range' a (b - a + 1)).length = b - a + 1 ∧
          (List.range' a (b - a + 1)).Sorted (· < ·) ∧
          ∀ p, p ∈ List.range' a (b - a + 1) ↔ a ≤ p ∧ p ≤ b) ∧
    (∀ ps : List Nat, ps ≠ [] → (∀ p ∈ ps, p ≤ 65535) →
        expand_ports (join_commas (ps.map (fun p => (Nat.repr p).toList))) = some ps) := by
  refine ⟨expand_ports_range, expand_ports_list, ?_, ?_⟩
  · intro a b hab hb
    have h := expand_ports_range (Nat.repr a).toList (Nat.repr b).toList (repr_numeral a).1
      (repr_numeral b).1 (by rw [(repr_numeral a).2, (repr_numeral b).2]; exact hab)
      (by rw [(repr_numeral b).2]; exact hb)
    rw [(repr_numeral a).2, (repr_numeral b).2] at h
    refine ⟨h, List.length_range' _ _ _, ?_, ?_⟩
    · exact List.pairwise_lt_range' _ _
    · intro p
      rw [List.mem_range'_1]
      omega
  · intro ps hne h
    have hk := expand_ports_list (ps.map (fun p => (Nat.repr p).toList))
      (by simpa using hne)
      (by
        intro t ht
        obtain ⟨p, hp, rfl⟩ := List.mem_map.mp ht
        exact ⟨(repr_numeral p).1, by rw [(repr_numeral p).2]; exact h p hp⟩)
    rw [hk, List.map_map]
    congr 1
    calc List.map (numeral_value ∘ fun p => (Nat.repr p).toList) ps
        = List.map id ps := List.map_congr_left (fun p _ => (repr_numeral p).2)
      _ = ps := List.map_id ps

/-- Witness for C30: the specifications `20-25` and `80,443,8080`. -/
theorem port_spec_expansion_witness :
    expand_ports "20-25".toList = some [20, 21, 22, 23, 24, 25] ∧
    expand_ports "80,443,8080".toList = some [80, 443, 8080] :=
  ⟨(port_spec_expansion.2.2.1 20 25 (by decide) (by decide)).1,
    port_spec_expansion.2.2.2 [80, 443, 8080] (by decide) (by decide)⟩

end Scan

/-! ## Theorems on hop discovery -/

namespace Trace

/-- C19: per-hop average.  For every iteration of the loop, the round-trip
times of the hop are those of the answered probes at that distance only (an
unanswered probe contributes nothing); when at least one probe was answered
the average shown is their arithmetic mean; and when no probe was answered
the hop shows no average and the address `"*"`. -/
theorem hop_average {K : Type} [LinearOrderedField K] (probe : Nat → Nat → Option (Nat × K))
    (dest queries max_hops : Nat) (row : Hop K) (hrow : row ∈ trace probe dest queries max_hops) :
    row.rtts = (List.range queries).filterMap (fun q => (probe row.ttl q).map Prod.snd) ∧
    (row.rtts ≠ [] → average row.rtts = some (row.rtts.sum / (row.rtts.length : K))) ∧
    (row.rtts = [] ↔ ∀ q, q < queries → probe row.ttl q = none) ∧
    ((∀ q, q < queries → probe row.ttl q = none) →
      average row.rtts = none ∧ row.hop_addr = none) := by
  obtain ⟨ha, hr⟩ := trace_from_rows probe dest queries max_hops 1 row hrow
  have hrtts := hr.trans (probe_queries_rtts probe row.ttl queries)
  have hiff : row.rtts = [] ↔ ∀ q, q < queries → probe row.ttl q = none := by
    rw [hrtts, List.filterMap_eq_nil_iff]
    constructor
    · intro h q hq
      have := h q (List.mem_range.mpr hq)
      simpa using this
    · intro h q hq
      rw [h q (List.mem_range.mp hq)]
      rfl
  refine ⟨hrtts, average_of_ne_nil row.rtts, hiff, ?_⟩
  intro hnone
  rw [hiff.mpr hnone, ha]
  exact ⟨average_nil, probe_queries_unanswered probe row.ttl queries hnone⟩

/-- Witness for C19: one hop with three queries, the first answered in 4 ms,
the second unanswered, the third answered in 8 ms: the average is 6 ms. -/
theorem hop_average_witness :
    average ([4, 8] : List ℚ) = some (([4, 8] : List ℚ).sum / ((([4, 8] : List ℚ).length : Nat) : ℚ)) :=
  (hop_average
    (fun (_ttl q : Nat) => if q = 0 then some (9, (4 : ℚ)) else if q = 2 then some (9, 8) else none)
    7 3 1 { ttl := 1, hop_addr := some 9, rtts := [4, 8] }
    (List.mem_singleton.mpr rfl)).2.1 (by simp)

/-- C20, at the failing input: both sockets are created, the datagram is
sent, and the message the raw ICMP socket receives is an echo reply (type 0,
code 0) from address 9, which is neither a time-exceeded nor a
port-unreachable notification.  `probe_hop` returns success with the sender
9 as the responder of the hop, where the claim says that such a message does
not count as an answer. -/
theorem probe_hop_reports_echo_reply :
    probe_hop ({ udp_fd := 3, icmp_fd := 4, sent := 1, send_strerror := "", received := 28,
                 recv_strerror := "", from_addr := 9, icmp_type := 0, icmp_code := 0,
                 rtt := 5 } : HopExchange ℚ) = Except.ok (9, 5) ∧
    is_hop_notification 0 0 = false := by
  constructor
  · exact probe_hop_received _ (by decide) (by decide) (by decide) (by decide)
  · decide

/-- C25: unanswered-hop guard.  A hop at which no probe is answered and whose
distance is at most 10 does not stop the loop: the next distance is probed
when it is within `max_hops`.  A hop above distance 10 at which no probe is
answered is the last one.  On a path on which no probe is ever answered, with
`max_hops ≥ 11`, exactly the distances 1 to 11 are probed. -/
theorem unanswered_hop_guard {K : Type} (probe : Nat → Nat → Option (Nat × K))
    (dest queries max_hops : Nat) :
    (∀ t, t ≤ 10 → t < max_hops → (∀ q, q < queries → probe t q = none) →
      (∃ row ∈ trace probe dest queries max_hops, row.ttl = t) →
      ∃ row ∈ trace probe dest queries max_hops, row.ttl = t + 1) ∧
    (∀ t, 10 < t → (∀ q, q < queries → probe t q = none) →
      ∀ row ∈ trace probe dest queries max_hops, row.ttl ≤ t) ∧
    ((∀ ttl q, probe ttl q = none) → 11 ≤ max_hops →
      (trace probe dest queries max_hops).map Hop.ttl = [1, 2, 3, 4, 5, 6, 7, 8, 9, 10, 11] ∧
      probes_issued (trace probe dest queries max_hops) queries
        = ([1, 2, 3, 4, 5, 6, 7, 8, 9, 10, 11] : List Nat).flatMap
            (fun t => (List.range queries).map (fun q => (t, q)))) := by
  refine ⟨?_, ?_, ?_⟩
  · intro t ht hmax hnone hex
    have hq := probe_queries_unanswered probe t queries hnone
    exact trace_from_next probe dest queries t (by rw [hq]; simp) (by omega) max_hops 1 hex
      (by omega)
  · intro t ht hnone row hrow
    have hq := probe_queries_unanswered probe t queries hnone
    exact trace_from_le_unanswered probe dest queries t hq ht max_hops 1 (by omega) row hrow
  · intro hsilent hmax
    have hmap := trace_from_silent probe dest queries hsilent max_hops 1 (by omega) (by omega)
    have hmap2 : (trace probe dest queries max_hops).map Hop.ttl
        = [1, 2, 3, 4, 5, 6, 7, 8, 9, 10, 11] := by
      unfold trace
      rw [hmap]
      rfl
    refine ⟨hmap2, ?_⟩
    unfold probes_issued
    rw [← hmap2, List.flatMap_map]

/-- Witness for C25: a silent path, three queries per hop, at most 30 hops. -/
theorem unanswered_hop_guard_witness :
    (trace (fun (_ttl _q : Nat) => (none : Option (Nat × ℚ))) 7 3 30).map Hop.ttl
      = [1, 2, 3, 4, 5, 6, 7, 8, 9, 10, 11] :=
  ((unanswered_hop_guard (fun (_ttl _q : Nat) => (none : Option (Nat × ℚ))) 7 3 30).2.2
    (fun _ _ => rfl) (by decide)).1

end Trace

/-! ## Theorems on the socket handle -/

namespace Sock

/-- C14: `Socket::close` is idempotent.  For every handle, `close()` leaves the
handle invalid, with descriptor -1 when the descriptor was -1 or an open
descriptor; a second `close()` changes neither the handle nor the list of
descriptors passed to `::close`; and after any number `n` of explicit `close()`
calls followed by the destructor, the descriptor has been passed to `::close`
exactly once if the handle was open and not at all otherwise. -/
theorem close_idempotent (s : Socket) (closed : List Int) (n : Nat) :
    (s.close closed).1.is_valid = false ∧
    (-1 ≤ s.fd_ → (s.close closed).1.fd_ = -1) ∧
    (s.close closed).1.close (s.close closed).2 = s.close closed ∧
    (close_times n s closed).1.destroy (close_times n s closed).2
      = closed ++ (if s.fd_ ≥ 0 then [s.fd_] else []) := by
  refine ⟨?_, ?_, close_close s closed, destroy_after_closes n s closed⟩
  · have h := close_fd_neg s closed
    simp [Socket.is_valid, h]
  · intro h
    unfold Socket.close
    split_ifs with h0
    · rfl
    · show s.fd_ = -1
      omega

/-- Witness for C14: an open handle with descriptor 7, closed twice and then
destroyed, after descriptor 3 had been closed by someone else. -/
theorem close_idempotent_witness :
    (Socket.close { fd_ := 7 } [3]).1.fd_ = -1 ∧
    (close_times 2 { fd_ := 7 } [3]).1.destroy (close_times 2 { fd_ := 7 } [3]).2
      = [3] ++ (if (7 : Int) ≥ 0 then [7] else []) :=
  ⟨(close_idempotent { fd_ := 7 } [3] 2).2.1 (by decide),
    (close_idempotent { fd_ := 7 } [3] 2).2.2.2⟩

/-- C15: a move transfers ownership without duplicating it.  Move construction
of a new object from `other`, and move assignment to `this_` from a different
object `other`, leave the destination with the descriptor `other` held and
`other` with -1; move assignment passes the previous descriptor of the
destination to `::close` exactly once when it was open (and nothing else);
self-assignment changes nothing; and when no open descriptor is held by two
objects before the move, none is afterwards. -/
theorem move_transfers_ownership (store : Nat → Socket) (closed : List Int)
    (new_ this_ other : Nat) (hnew : new_ ≠ other) (hthis : this_ ≠ other) :
    ((move_construct store new_ other new_).fd_ = (store other).fd_ ∧
      (move_construct store new_ other other).fd_ = -1) ∧
    (((move_assign store closed this_ other).1 this_).fd_ = (store other).fd_ ∧
      ((move_assign store closed this_ other).1 other).fd_ = -1 ∧
      (move_assign store closed this_ other).2
        = closed ++ (if (store this_).fd_ ≥ 0 then [(store this_).fd_] else [])) ∧
    move_assign store closed other other = (store, closed) ∧
    (Exclusive store → Exclusive (move_construct store new_ other)) ∧
    (Exclusive store → Exclusive (move_assign store closed this_ other).1) :=
  ⟨⟨move_construct_new store new_ other hnew, move_construct_other store new_ other⟩,
    ⟨move_assign_this store closed this_ other hthis,
      move_assign_other store closed this_ other hthis,
      move_assign_trace store closed this_ other hthis⟩,
    move_assign_self store closed other,
    exclusive_transfer store _ new_ other hnew (move_construct_new store new_ other hnew)
      (move_construct_other store new_ other)
      (fun k h1 h2 => move_construct_rest store new_ other k h1 h2),
    exclusive_transfer store _ this_ other hthis
      (move_assign_this store closed this_ other hthis)
      (move_assign_other store closed this_ other hthis)
      (fun k h1 h2 => move_assign_rest store closed this_ other k h1 h2)⟩

/-- Witness for C15: object 0 holds descriptor 5, object 1 holds descriptor 6;
object 0 is move-assigned from object 1. -/
theorem move_transfers_ownership_witness :
    ((move_assign (fun k => if k = 0 then { fd_ := 5 } else if k = 1 then { fd_ := 6 } else {})
        [] 0 1).1 0).fd_ = 6 ∧
    ((move_assign (fun k => if k = 0 then { fd_ := 5 } else if k = 1 then { fd_ := 6 } else {})
        [] 0 1).1 1).fd_ = -1 ∧
    (move_assign (fun k => if k = 0 then { fd_ := 5 } else if k = 1 then { fd_ := 6 } else {})
        [] 0 1).2 = [] ++ (if (5 : Int) ≥ 0 then [5] else []) :=
  (move_transfers_ownership
    (fun k => if k = 0 then { fd_ := 5 } else if k = 1 then { fd_ := 6 } else {})
    [] 2 0 1 (by decide) (by decide)).2.1

/-- C16: operations on a closed handle fail.  On an operating system that
rejects a descriptor that is not open with `EBADF`, for a `Socket` whose
descriptor is -1 each of `connect`, `bind`, `listen`, `accept`, `send`, `recv`,
`sendto`, `recvfrom`, `set_nonblocking`, `set_reuse_addr`, `set_reuse_port`,
`set_timeout` and `set_ttl` returns an error result, never a success value;
the error texts built from `errno` carry the text of `EBADF`. -/
theorem closed_handle_fails (os : OS) (hos : os.rejects_bad_descriptors) (s : Socket)
    (hs : s.fd_ = -1) (resolve : String → Nat → Except String Nat) (errno0 : Int)
    (nonblock enabled : Bool) (host : String) (port : Nat) (timeout : Int) :
    is_error (s.connect os resolve errno0 nonblock host port timeout).1 = true ∧
    s.bind os = Except.error ("Bind failed: " ++ os.strerror EBADF) ∧
    s.listen os = Except.error ("Listen failed: " ++ os.strerror EBADF) ∧
    s.accept os = Except.error ("Accept failed: " ++ os.strerror EBADF) ∧
    s.send os = Except.error ("Send failed: " ++ os.strerror EBADF) ∧
    s.recv os = Except.error ("Recv failed: " ++ os.strerror EBADF) ∧
    s.sendto os = Except.error ("Sendto failed: " ++ os.strerror EBADF) ∧
    s.recvfrom os = Except.error ("Recvfrom failed: " ++ os.strerror EBADF) ∧
    (s.set_nonblocking os nonblock enabled).1 = Except.error "Failed to get socket flags" ∧
    s.set_reuse_addr os = Except.error "Failed to set SO_REUSEADDR" ∧
    s.set_reuse_port os = Except.error "Failed to set SO_REUSEPORT" ∧
    s.set_timeout os = Except.error "Failed to set receive timeout" ∧
    s.set_ttl os = Except.error "Failed to set TTL" := by
  have hneg : s.fd_ < 0 := by rw [hs]; decide
  have hr : ∀ c, os.ret c s.fd_ < 0 := by
    intro c
    rw [(hos c s.fd_ hneg).1]
    decide
  have he : ∀ c, os.errno c s.fd_ = EBADF := fun c => (hos c s.fd_ hneg).2
  refine ⟨?_, ?_, ?_, ?_, ?_, ?_, ?_, ?_, ?_, ?_, ?_, ?_, ?_⟩
  · unfold Socket.connect
    cases hres : resolve host port with
    | error e => rfl
    | ok addr =>
      by_cases ht : timeout > 0
      · simp only [ht, if_true, set_nonblocking_bad os hos s hneg]
        rfl
      · simp only [ht, if_false, hr Call.connect, he Call.connect, true_and, if_true]
        rw [if_pos (by decide)]
        rfl
  · simp only [Socket.bind, hr Call.bind, he Call.bind, if_true]
  · simp only [Socket.listen, hr Call.listen, he Call.listen, if_true]
  · simp only [Socket.accept, hr Call.accept, he Call.accept, if_true]
  · simp only [Socket.send, hr Call.send, he Call.send, if_true]
  · simp only [Socket.recv, hr Call.recv, he Call.recv, if_true]
  · simp only [Socket.sendto, hr Call.sendto, he Call.sendto, if_true]
  · simp only [Socket.recvfrom, hr Call.recvfrom, he Call.recvfrom, if_true]
  · rw [set_nonblocking_bad os hos s hneg]
  · simp only [Socket.set_reuse_addr, hr Call.setsockopt_reuseaddr, if_true]
  · simp only [Socket.set_reuse_port, hr Call.setsockopt_reuseport, if_true]
  · simp only [Socket.set_timeout, hr Call.setsockopt_rcvtimeo, if_true]
  · simp only [Socket.set_ttl, hr Call.setsockopt_ttl, if_true]

/-- Witness for C16: a default-constructed `Socket` on the sample operating system. -/
theorem closed_handle_fails_witness :
    is_error (Socket.connect (os_with_connect 0 0) resolve_any 0 {} false "host" 80 1000).1
      = true ∧
    Socket.send (os_with_connect 0 0) {}
      = Except.error ("Send failed: " ++ (os_with_connect 0 0).strerror EBADF) :=
  ⟨(closed_handle_fails (os_with_connect 0 0) (os_with_connect_rejects 0 0) {} rfl resolve_any 0
      false true "host" 80 1000).1,
    (closed_handle_fails (os_with_connect 0 0) (os_with_connect_rejects 0 0) {} rfl resolve_any 0
      false true "host" 80 1000).2.2.2.2.1⟩

/-- C17, at the failing input: `connect` with a timeout of 1000 ms on the open
descriptor 3, where `::connect` completes at once (returns 0, `errno` is 0):
`connect` returns success and the descriptor is still non-blocking, because
`set_nonblocking(false)` is only reached on the in-progress path. -/
theorem connect_immediate_stays_nonblocking :
    Socket.connect (os_with_connect 0 0) resolve_any 0 { fd_ := 3 } false "host" 80 1000
      = (Except.ok (), true) :=
  connect_immediate (os_with_connect 0 0) resolve_any 0 { fd_ := 3 } false "host" 80 0 1000 rfl
    (by decide) (by decide) (by decide) (by decide) (by decide)

/-- C26: for every timeout of `T > 0` milliseconds, the `timeval` built by
`Socket::connect` and by `Socket::set_timeout` satisfies
`tv_sec * 1000000 + tv_usec = T * 1000` with `0 ≤ tv_usec < 1000000`: the time
handed to the readiness check is exactly the requested one. -/
theorem timeval_exact (T : Int) (hT : 0 < T) :
    (timeval T).1 * 1000000 + (timeval T).2 = T * 1000 ∧
    0 ≤ (timeval T).2 ∧ (timeval T).2 < 1000000 := by
  unfold timeval
  simp only
  rw [Int.tdiv_eq_ediv (le_of_lt hT) (by norm_num), Int.tmod_eq_emod (le_of_lt hT) (by norm_num)]
  omega

/-- Witness for C26: a timeout of 2500 ms is 2 s and 500000 microseconds. -/
theorem timeval_exact_witness :
    (timeval 2500).1 * 1000000 + (timeval 2500).2 = 2500 * 1000 ∧
    0 ≤ (timeval 2500).2 ∧ (timeval 2500).2 < 1000000 :=
  timeval_exact 2500 (by decide)

end Sock

/-! ## Theorems on the readiness multiplexer -/

namespace Async

/-- C18, as stated, fails: descriptor 5 is registered with callback 0 and the
wait returns one event for it that reports it ready for reading and for
writing; the callback is invoked once, for READ, and never for WRITE. -/
theorem run_once_both_ready_counterexample :
    run_once { epoll_fd_ := 3, running_ := false, events_ := [{ fd := 5, callback := 0 }] } 1
        [{ events := EPOLLIN ||| EPOLLOUT, data := 0 }]
      = [{ callback := 0, fd := 5, event := Event.READ }] := by
  decide

/-- C18, amended: on a multiplexer whose `epoll_create1` succeeded, and as
long as registrations are made by `add` only (no `remove` since the
multiplexer was created), `run_once` invokes, for every
descriptor that the wait reports ready, the callback registered together
with that descriptor exactly once, passing the descriptor and a single
condition chosen by priority: READ when read-readiness is reported (also
when write-readiness is reported at the same time), WRITE when
write-readiness and no read-readiness is reported, ERROR when only an error
or a hang-up is reported.  `ready` lists the descriptors the wait reports,
each with its reported conditions; the invocations are made in that order. -/
theorem run_once_one_per_event (epoll_fd : Int) (reqs : List Request)
    (ready : List (Int × Nat)) (hfd : 0 ≤ epoll_fd) (hadd : ∀ r ∈ reqs, r.is_add = true)
    (hready : ∀ rd ∈ ready, 0 ≤ rd.1 ∧ (registered reqs rd.1).isSome = true) :
    (wait_events (apply_all (fresh epoll_fd) reqs).2 ready).length = ready.length ∧
    run_once (apply_all (fresh epoll_fd) reqs).2.io (ready.length : Int)
        (wait_events (apply_all (fresh epoll_fd) reqs).2 ready)
      = ready.map (fun rd =>
          { callback := (registered reqs rd.1).getD 0, fd := rd.1, event := event_type rd.2 }) ∧
    (∀ m : Nat,
      (m &&& EPOLLIN ≠ 0 → event_type m = Event.READ) ∧
      (m &&& EPOLLIN = 0 → m &&& EPOLLOUT ≠ 0 → event_type m = Event.WRITE) ∧
      (m &&& EPOLLIN = 0 → m &&& EPOLLOUT = 0 → m &&& (EPOLLERR ||| EPOLLHUP) ≠ 0 →
        event_type m = Event.ERROR)) := by
  have hb0 := bound_apply_all reqs hadd (fresh epoll_fd) (fun _ => none) (bound_fresh epoll_fd)
    hfd
  have e : (fun fd => (none : Option Nat).or (registered reqs fd)) = registered reqs := by
    funext fd
    simp [Option.or]
  rw [e] at hb0
  have hfd2 : 0 ≤ (apply_all (fresh epoll_fd) reqs).2.io.epoll_fd_ := by
    rw [apply_all_epoll_fd reqs hadd]
    exact hfd
  obtain ⟨h1, h2⟩ := wait_events_bound _ _ hb0 ready hready
  refine ⟨h1, ?_, ?_⟩
  · rw [run_once_eq _ _ _ hfd2 (Int.natCast_nonneg _), Int.toNat_natCast, ← h1, List.take_length]
    exact h2
  · intro m
    refine ⟨?_, ?_, ?_⟩
    · intro h
      simp only [event_type, h, ne_eq, not_false_eq_true, if_true]
    · intro h0 h
      simp only [event_type, h0, h, ne_eq, not_true_eq_false, not_false_eq_true, if_true,
        if_false]
    · intro h0 h1 h
      simp only [event_type, h0, h1, h, ne_eq, not_true_eq_false, not_false_eq_true, if_true,
        if_false]

/-- Witness for C18: descriptors 5 and 6 are registered with the callbacks 10
and 11; the wait reports descriptor 6 ready for reading and writing and
descriptor 5 ready for writing. -/
theorem run_once_one_per_event_witness :
    run_once (apply_all (fresh 3) [Request.add 5 1 10, Request.add 6 3 11]).2.io
        (([(6, EPOLLIN ||| EPOLLOUT), (5, EPOLLOUT)] : List (Int × Nat)).length : Int)
        (wait_events (apply_all (fresh 3) [Request.add 5 1 10, Request.add 6 3 11]).2
          [(6, EPOLLIN ||| EPOLLOUT), (5, EPOLLOUT)])
      = [{ callback := 11, fd := 6, event := Event.READ },
         { callback := 10, fd := 5, event := Event.WRITE }] :=
  (run_once_one_per_event 3 [Request.add 5 1 10, Request.add 6 3 11]
    [(6, EPOLLIN ||| EPOLLOUT), (5, EPOLLOUT)] (by decide) (by decide) (by decide)).2.1.trans
    (by decide)

/-- C28, at the failing input: descriptors 5, 6, 7 are registered with the
callbacks 10, 11, 12 and descriptor 5 is removed, every call succeeding.  The
event the kernel returns for descriptor 6 still carries the index 1 given at
registration, and `run_once` then invokes callback 12 with descriptor 7.
After the calls `add 5`, `add 6`, `remove 5` the event for descriptor 6
invokes no callback at all. -/
theorem callback_binding_lost :
    (apply_all (fresh 3) [Request.add 5 1 10, Request.add 6 1 11, Request.add 7 1 12,
      Request.remove 5]).1 = true ∧
    ready_event (apply_all (fresh 3) [Request.add 5 1 10, Request.add 6 1 11,
      Request.add 7 1 12, Request.remove 5]).2 6 EPOLLIN
      = some { events := EPOLLIN, data := 1 } ∧
    run_once (apply_all (fresh 3) [Request.add 5 1 10, Request.add 6 1 11,
      Request.add 7 1 12, Request.remove 5]).2.io 1 [{ events := EPOLLIN, data := 1 }]
      = [{ callback := 12, fd := 7, event := Event.READ }] ∧
    (apply_all (fresh 3) [Request.add 5 1 10, Request.add 6 1 11, Request.remove 5]).1 = true ∧
    ready_event (apply_all (fresh 3) [Request.add 5 1 10, Request.add 6 1 11,
      Request.remove 5]).2 6 EPOLLIN = some { events := EPOLLIN, data := 1 } ∧
    run_once (apply_all (fresh 3) [Request.add 5 1 10, Request.add 6 1 11,
      Request.remove 5]).2.io 1 [{ events := EPOLLIN, data := 1 }] = [] := by
  decide

end Async

/-! ## Theorems on the failure percentages -/

namespace Bench

/-- C22, at the failing input: a benchmark in which all three requests failed
(no successful request, three errors) reports an error rate of 0, while the
ratio of failures to attempts is 100 percent. -/
theorem error_rate_all_failed :
    (error_rate 0 3 : ℚ) = 0 ∧ (failure_percentage 3 (0 + 3) : ℚ) = 100 := by
  constructor
  · simp [error_rate]
  · norm_num [failure_percentage]

end Bench

/-! ## Theorems on the use of the resolver -/

namespace Resolve

/-- C24, as stated, fails: a scan of the three ports 80, 443, 8080 by one
worker, in which every socket is created and every connection succeeds,
invokes the resolver three times for the target host, once per port, and a
benchmark of three requests invokes it three times as well. -/
theorem resolve_once_counterexample :
    (scan_logged env_ok "host" 500 [80, 443, 8080] 1 [0, 0, 0, 0, 0, 0, 0]).2
      = [("host", 80), ("host", 443), ("host", 8080)] ∧
    Scan.joined (scan_logged env_ok "host" 500 [80, 443, 8080] 1 [0, 0, 0, 0, 0, 0, 0]).1 = true ∧
    (bench_logged env_ok "host" 80 (fun _ => [120, 0]) (fun _ => (5 : ℚ)) 3).log
      = [("host", 80), ("host", 80), ("host", 80)] := by
  refine ⟨?_, ?_, ?_⟩
  · decide
  · decide
  · exact (bench_logged_log env_ok "host" 80 (fun _ => [120, 0]) (fun _ => (5 : ℚ)) 3).1.trans
      (by decide)

/-- C24, amended: `ping` and `trace` invoke the resolver exactly once for the
target host (before their loops), whatever the number of probes and their
outcomes and also when the resolution fails; every call of
`Socket::connect(host, port, timeout)` invokes it once; so a scan, once its
threads are joined, has invoked it once for every port whose TCP socket
could be created (`N` times for `N` ports when every socket is created), and
a benchmark of `M` requests once for every request whose socket could be
created (`M` times when every socket is created), always for the target
host.  The logged scan is the dispatch of `Scan.run` for the outcomes of
`scan_port`. -/
theorem resolver_invocations {K : Type} [LinearOrderedField K]
    (resolve : String → Nat → Except String Nat) (host : String)
    (icmp_fd : Int) (be : Bool) (pid : Nat) (exchange : Nat → Ping.Exchange K) (count : Nat)
    (hop : Nat → Nat → Trace.HopExchange K) (queries max_hops : Nat)
    (env : ConnectEnv) (timeout : Int) (ports : List Nat) (threads : Nat) (sched : List Nat)
    (port : Nat) (recvs : Nat → List Int) (latency : Nat → K) (requests : Nat)
    (hK : 1 ≤ threads) (hsz : ports.length + threads < 2 ^ 64)
    (hj : Scan.joined (scan_logged env host timeout ports threads sched).1 = true) :
    (ping_logged resolve icmp_fd be pid exchange host count).2 = [(host, 0)] ∧
    (trace_logged resolve hop host queries max_hops).2 = [(host, 33434)] ∧
    (∀ (os : Sock.OS) (errno0 : Int) (s : Sock.Socket) (nonblock : Bool) (p : Nat) (t : Int)
        (log : List (String × Nat)),
      (connect_logged os resolve errno0 s nonblock host p t log).2 = log ++ [(host, p)]) ∧
    (scan_logged env host timeout ports threads sched).1
      = Scan.run ports (scan_port_of env host timeout) threads sched ∧
    (scan_logged env host timeout ports threads sched).2.Perm
      ((ports.filter env.created).map (fun p => (host, p))) ∧
    (scan_logged env host timeout ports threads sched).2.length
      = (ports.filter env.created).length ∧
    ((∀ p ∈ ports, 0 ≤ env.fd p) →
      (scan_logged env host timeout ports threads sched).2.length = ports.length) ∧
    (bench_logged env host port recvs latency requests).log
      = List.replicate ((List.range requests).filter env.created).length (host, port) ∧
    ((∀ i < requests, 0 ≤ env.fd i) →
      (bench_logged env host port recvs latency requests).log
        = List.replicate requests (host, port)) := by
  have hscan := scan_logged_log env host timeout ports threads sched hK hsz hj
  have hlen : (scan_logged env host timeout ports threads sched).2.length
      = (ports.filter env.created).length := by
    rw [hscan.length_eq, List.length_map]
  have hbench := (bench_logged_log env host port recvs latency requests).1
  have hrep : ∀ l : List Nat, l.map (fun _ => (host, port)) = List.replicate l.length (host, port) :=
    fun l => by
      induction l with
      | nil => rfl
      | cons a rest ih => rw [List.map_cons, ih, List.length_cons, List.replicate_succ]
  refine ⟨(ping_logged_eq resolve icmp_fd be pid exchange host count).1,
    (trace_logged_eq resolve hop host queries max_hops).1, ?_,
    (scan_logged_rel env host timeout ports threads sched).1, hscan, hlen, ?_, ?_, ?_⟩
  · intro os errno0 s nonblock p t log
    rw [connect_logged_eq]
  · intro hall
    rw [hlen, List.filter_eq_self.mpr]
    intro p hp
    simpa [ConnectEnv.created] using hall p hp
  · rw [hbench, hrep]
  · intro hall
    rw [hbench, hrep, List.filter_eq_self.mpr, List.length_range]
    intro i hi
    simpa [ConnectEnv.created] using hall i (List.mem_range.mp hi)

/-- Witness for C24: a ping of 10 probes and a trace resolve once; a scan of
three ports, all sockets created, resolves three times. -/
theorem resolver_invocations_witness :
    (ping_logged Sock.resolve_any 3 false 1234 (fun _ => Ping.lost_exchange) "host" 10).2
      = [("host", 0)] ∧
    (trace_logged Sock.resolve_any (fun _ _ => silent_hop) "host" 3 30).2 = [("host", 33434)] ∧
    (scan_logged env_ok "host" 500 [80, 443, 8080] 1 [0, 0, 0, 0, 0, 0, 0]).2.length
      = (([80, 443, 8080] : List Nat).filter env_ok.created).length :=
  ⟨(resolver_invocations Sock.resolve_any "host" 3 false 1234 (fun _ => Ping.lost_exchange) 10
      (fun _ _ => silent_hop) 3 30 env_ok 500 [80, 443, 8080] 1 [0, 0, 0, 0, 0, 0, 0] 80
      (fun _ => [120, 0]) (fun _ => (5 : ℚ)) 3 (by decide) (by norm_num) (by decide)).1,
    (resolver_invocations Sock.resolve_any "host" 3 false 1234 (fun _ => Ping.lost_exchange) 10
      (fun _ _ => silent_hop) 3 30 env_ok 500 [80, 443, 8080] 1 [0, 0, 0, 0, 0, 0, 0] 80
      (fun _ => [120, 0]) (fun _ => (5 : ℚ)) 3 (by decide) (by norm_num) (by decide)).2.1,
    (resolver_invocations Sock.resolve_any "host" 3 false 1234 (fun _ => Ping.lost_exchange) 10
      (fun _ _ => silent_hop) 3 30 env_ok 500 [80, 443, 8080] 1 [0, 0, 0, 0, 0, 0, 0] 80
      (fun _ => [120, 0]) (fun _ => (5 : ℚ)) 3 (by decide) (by norm_num)
      (by decide)).2.2.2.2.2.1⟩

end Resolve

end NetProbe
